import Mathlib

/-!
# Verification of the DBLearning storage/concurrency/execution engine spec

Shallow embedding, in Lean 4, of the components of the DBLearning (BusTub-style)
engine that the specification's claims are about, together with proofs or
refutations of those claims.  Each embedded definition is translated from the
corresponding C++ source function; doc comments name the source symbol.
-/

namespace DBLearning

/-! ## Buffer pool manager: `UnpinPage`

Embedding of `BufferPoolManager::UnpinPage` (src/buffer/buffer_pool_manager.cpp).
A frame holds a pin count, a dirty flag, and the replacer's evictable flag for
that frame.  The page table maps a page id to a frame index. -/

structure Frame where
  pin_count : Int
  dirty : Bool
  evictable : Bool
deriving DecidableEq, Repr

structure BPMState where
  frames : List Frame
  page_table : List (Int × Nat)
deriving DecidableEq, Repr

/-- Embeds `BufferPoolManager::UnpinPage(page_id, is_dirty)`:
fails (returning `false`, state unchanged) when `page_id` is not in the page
table or the frame's pin count is `≤ 0`; otherwise decrements the pin count,
latches the dirty flag on when `is_dirty` is set, marks the frame evictable
when the pin count reaches 0, and returns `true`. -/
def unpinPage (s : BPMState) (page_id : Int) (is_dirty : Bool) : Bool × BPMState :=
  match s.page_table.find? (fun p => p.1 == page_id) with
  | none => (false, s)
  | some (_, fid) =>
    let f := s.frames.getD fid ⟨0, false, false⟩
    if f.pin_count ≤ 0 then (false, s)
    else
      let f1 : Frame := { f with pin_count := f.pin_count - 1 }
      let f2 : Frame := if is_dirty then { f1 with dirty := true } else f1
      let f3 : Frame := if f2.pin_count = 0 then { f2 with evictable := true } else f2
      (true, { s with frames := s.frames.set fid f3 })

/-- Looks up the frame id of a resident page, as `page_table_.find` does. -/
def residentFrame (s : BPMState) (page_id : Int) : Option Nat :=
  (s.page_table.find? (fun p => p.1 == page_id)).map Prod.snd

/-- C8: `unpin_page(page-id, is_dirty)` returns `false` and leaves the pool
unchanged exactly when the page is not resident or its pin count is already
`≤ 0`; otherwise it decrements the pin count, latches the dirty flag on (never
clears it) when `is_dirty` is true, marks the frame evictable exactly when the
pin count reaches 0, and returns `true`. -/
theorem claim_C8_unpin_page (s : BPMState) (pid : Int) (d : Bool) :
    (((unpinPage s pid d).1 = false ∧ (unpinPage s pid d).2 = s) ↔
      (residentFrame s pid = none ∨
        ∃ fid, residentFrame s pid = some fid ∧
          (s.frames.getD fid ⟨0, false, false⟩).pin_count ≤ 0)) ∧
    (∀ fid, residentFrame s pid = some fid →
      0 < (s.frames.getD fid ⟨0, false, false⟩).pin_count →
      (unpinPage s pid d).1 = true ∧
      (unpinPage s pid d).2.page_table = s.page_table ∧
      (unpinPage s pid d).2.frames =
        s.frames.set fid
          { pin_count := (s.frames.getD fid ⟨0, false, false⟩).pin_count - 1,
            dirty := (s.frames.getD fid ⟨0, false, false⟩).dirty || d,
            evictable :=
              if (s.frames.getD fid ⟨0, false, false⟩).pin_count - 1 = 0 then true
              else (s.frames.getD fid ⟨0, false, false⟩).evictable }) := by
  unfold unpinPage residentFrame
  simp only [List.getD, List.get?_eq_getElem?]
  rcases hf : s.page_table.find? (fun p => p.1 == pid) with _ | ⟨q, fid⟩
  · simp [hf]
  · simp only [hf, Option.map_some']
    constructor
    · by_cases hp : (s.frames[fid]?.getD (⟨0, false, false⟩ : Frame)).pin_count ≤ 0
      · simp only [if_pos hp]
        constructor
        · intro _; exact Or.inr ⟨fid, rfl, hp⟩
        · intro _; exact ⟨trivial, trivial⟩
      · simp only [hp, if_false]
        constructor
        · rintro ⟨h, -⟩; exact absurd h (by simp)
        · rintro (h | ⟨fid', hfid', hle⟩)
          · exact absurd h (by simp)
          · obtain rfl : fid = fid' := by simpa using hfid'
            exact absurd hle hp
    · intro fid' hfid' hpos
      obtain rfl : fid = fid' := by simpa using hfid'
      have hp : ¬ (s.frames[fid]?.getD (⟨0, false, false⟩ : Frame)).pin_count ≤ 0 := by omega
      simp only [hp, if_false]
      refine ⟨trivial, trivial, ?_⟩
      congr 1
      cases d <;> simp <;> split <;> simp_all

/-- Witness for C8 at a concrete pool with one page pinned twice. -/
theorem claim_C8_unpin_page_witness :
    (unpinPage ⟨[⟨2, false, false⟩], [(7, 0)]⟩ 7 true).1 = true ∧
    (unpinPage ⟨[⟨2, false, false⟩], [(7, 0)]⟩ 7 true).2.frames = [⟨1, true, false⟩] := by
  have h := (claim_C8_unpin_page ⟨[⟨2, false, false⟩], [(7, 0)]⟩ 7 true).2 0 (by decide) (by decide)
  refine ⟨h.1, ?_⟩
  rw [h.2.2]
  decide

/-! ## Page guards

Embedding of `BasicPageGuard`, `ReadPageGuard` and `WritePageGuard`
(src/storage/page/page_guard.cpp).  We track the externally observable
release actions as an event trace: an `unpin` event models the
`bpm_->UnpinPage(...)` call, `runlatch`/`wunlatch` model `RUnlatch`/`WUnlatch`.
Move-assignment takes an explicit `isSelf` flag modelling the `&that == this`
pointer-identity test. -/

inductive GuardEvent where
  | unpin (pid : Int) (dirty : Bool)
  | runlatch (pid : Int)
  | wunlatch (pid : Int)
deriving DecidableEq, Repr

structure BasicPageGuard where
  bpm : Bool
  page : Option Int
  dirty : Bool
deriving DecidableEq, Repr

/-- Embeds `BasicPageGuard::Drop`: unpins only when both `bpm_` and `page_`
are non-null, then nulls the fields. -/
def BasicPageGuard.dropG (g : BasicPageGuard) : BasicPageGuard × List GuardEvent :=
  match g.bpm, g.page with
  | true, some pid => (⟨false, none, false⟩, [.unpin pid g.dirty])
  | _, _ => (g, [])

/-- Embeds `BasicPageGuard::operator=(BasicPageGuard&&)`: on self-assignment
returns immediately; otherwise drops the current holding, adopts the source's
fields, and nulls the source.  Result: (new destination, new source, events). -/
def BasicPageGuard.moveAssign (isSelf : Bool) (dst src : BasicPageGuard) :
    BasicPageGuard × BasicPageGuard × List GuardEvent :=
  if isSelf then (dst, src, [])
  else
    let (_, evs) := dst.dropG
    (⟨src.bpm, src.page, src.dirty⟩, ⟨false, none, false⟩, evs)

structure ReadPageGuard where
  guard : BasicPageGuard
deriving DecidableEq, Repr

/-- Embeds `ReadPageGuard::operator=(ReadPageGuard&&)`: on self-assignment
returns immediately; otherwise releases the read latch on the currently held
page (if any) and move-assigns the inner basic guard (which unpins). -/
def ReadPageGuard.moveAssign (isSelf : Bool) (dst src : ReadPageGuard) :
    ReadPageGuard × ReadPageGuard × List GuardEvent :=
  if isSelf then (dst, src, [])
  else
    let latchEvs : List GuardEvent :=
      match dst.guard.page with
      | some pid => [.runlatch pid]
      | none => []
    let (g, s, evs) := BasicPageGuard.moveAssign false dst.guard src.guard
    (⟨g⟩, ⟨s⟩, latchEvs ++ evs)

/-- Embeds `ReadPageGuard::Drop` (also the destructor body): when a page is
held, first drops the inner basic guard (unpinning), then releases the read
latch. -/
def ReadPageGuard.dropG (g : ReadPageGuard) : ReadPageGuard × List GuardEvent :=
  match g.guard.page with
  | some pid =>
    let (g', evs) := g.guard.dropG
    (⟨g'⟩, evs ++ [.runlatch pid])
  | none => (g, [])

structure WritePageGuard where
  guard : BasicPageGuard
deriving DecidableEq, Repr

/-- Embeds `WritePageGuard::operator=(WritePageGuard&&)`. -/
def WritePageGuard.moveAssign (isSelf : Bool) (dst src : WritePageGuard) :
    WritePageGuard × WritePageGuard × List GuardEvent :=
  if isSelf then (dst, src, [])
  else
    let latchEvs : List GuardEvent :=
      match dst.guard.page with
      | some pid => [.wunlatch pid]
      | none => []
    let (g, s, evs) := BasicPageGuard.moveAssign false dst.guard src.guard
    (⟨g⟩, ⟨s⟩, latchEvs ++ evs)

/-- Embeds `WritePageGuard::Drop` (also the destructor body). -/
def WritePageGuard.dropG (g : WritePageGuard) : WritePageGuard × List GuardEvent :=
  match g.guard.page with
  | some pid =>
    let (g', evs) := g.guard.dropG
    (⟨g'⟩, evs ++ [.wunlatch pid])
  | none => (g, [])

/-- C6 counterexample: the claim says destruction performs the same drop as
move-assignment, releasing the latch and then the pin in that order.  On a
read guard holding page 1, move-assignment's drop emits latch-release before
unpin, but `Drop` (the destructor body) emits unpin before latch-release, so
the two orders differ. -/
theorem claim_C6_counterexample :
    (ReadPageGuard.moveAssign false ⟨⟨true, some 1, false⟩⟩ ⟨⟨false, none, false⟩⟩).2.2
        = [.runlatch 1, .unpin 1 false] ∧
    (ReadPageGuard.dropG ⟨⟨true, some 1, false⟩⟩).2 = [.unpin 1 false, .runlatch 1] ∧
    [GuardEvent.unpin 1 false, .runlatch 1] ≠ [GuardEvent.runlatch 1, .unpin 1 false] := by
  decide

/-- C6 amended: for every read or write page guard holding a page,
move-assignment drops the destination's holding by releasing the latch and
then the pin, in that order, before adopting the source's state;
self-move-assignment is a no-op; destruction performs the drop in the
opposite order, releasing the pin and then the latch. -/
theorem claim_C6_guard_release_order :
    (∀ dst src : ReadPageGuard, ∀ pid, dst.guard.page = some pid → dst.guard.bpm = true →
      ReadPageGuard.moveAssign false dst src =
        (⟨src.guard⟩, ⟨⟨false, none, false⟩⟩,
          [.runlatch pid, .unpin pid dst.guard.dirty])) ∧
    (∀ g : ReadPageGuard, ReadPageGuard.moveAssign true g g = (g, g, [])) ∧
    (∀ g : ReadPageGuard, ∀ pid, g.guard.page = some pid → g.guard.bpm = true →
      ReadPageGuard.dropG g =
        (⟨⟨false, none, false⟩⟩, [.unpin pid g.guard.dirty, .runlatch pid])) ∧
    (∀ dst src : WritePageGuard, ∀ pid, dst.guard.page = some pid → dst.guard.bpm = true →
      WritePageGuard.moveAssign false dst src =
        (⟨src.guard⟩, ⟨⟨false, none, false⟩⟩,
          [.wunlatch pid, .unpin pid dst.guard.dirty])) ∧
    (∀ g : WritePageGuard, WritePageGuard.moveAssign true g g = (g, g, [])) ∧
    (∀ g : WritePageGuard, ∀ pid, g.guard.page = some pid → g.guard.bpm = true →
      WritePageGuard.dropG g =
        (⟨⟨false, none, false⟩⟩, [.unpin pid g.guard.dirty, .wunlatch pid])) := by
  refine ⟨?_, ?_, ?_, ?_, ?_, ?_⟩
  · rintro ⟨⟨b, p, dt⟩⟩ src pid hp hb
    cases hp; cases hb
    simp [ReadPageGuard.moveAssign, BasicPageGuard.moveAssign, BasicPageGuard.dropG]
  · intro g; simp [ReadPageGuard.moveAssign]
  · rintro ⟨⟨b, p, dt⟩⟩ pid hp hb
    cases hp; cases hb
    simp [ReadPageGuard.dropG, BasicPageGuard.dropG]
  · rintro ⟨⟨b, p, dt⟩⟩ src pid hp hb
    cases hp; cases hb
    simp [WritePageGuard.moveAssign, BasicPageGuard.moveAssign, BasicPageGuard.dropG]
  · intro g; simp [WritePageGuard.moveAssign]
  · rintro ⟨⟨b, p, dt⟩⟩ pid hp hb
    cases hp; cases hb
    simp [WritePageGuard.dropG, BasicPageGuard.dropG]

/-- Witness for C6 amended at concrete read/write guards holding page 3. -/
theorem claim_C6_guard_release_order_witness :
    ReadPageGuard.moveAssign false ⟨⟨true, some 3, true⟩⟩ ⟨⟨true, some 4, false⟩⟩ =
      (⟨⟨true, some 4, false⟩⟩, ⟨⟨false, none, false⟩⟩, [.runlatch 3, .unpin 3 true]) ∧
    WritePageGuard.dropG ⟨⟨true, some 3, true⟩⟩ =
      (⟨⟨false, none, false⟩⟩, [.unpin 3 true, .wunlatch 3]) := by
  exact ⟨claim_C6_guard_release_order.1 ⟨⟨true, some 3, true⟩⟩ ⟨⟨true, some 4, false⟩⟩ 3 rfl rfl,
    claim_C6_guard_release_order.2.2.2.2.2 ⟨⟨true, some 3, true⟩⟩ 3 rfl rfl⟩

/-! ## Aggregation executor

Embedding of `AggregationExecutor::Init` / `AggregationExecutor::Next`
(src/execution/aggregation_executor.cpp).  Values are integers or NULL;
tuples are lists of values; expressions are column indexes evaluated by
projection.  The hash table keeps insertion order as a list of
(group-key, aggregate-values) pairs. -/

inductive AggValue where
  | int (n : Int)
  | null
deriving DecidableEq, Repr

/-- Aggregate kinds.  Modelled from the spec: the combine step updates
count/sum/min/max per aggregate (`SimpleAggregationHashTable` lives in a
header that is not part of the provided sources). -/
inductive AggKind where
  | countStar
  | sum
  | minA
  | maxA
deriving DecidableEq, Repr

/-- Modelled from the spec: `GenerateInitialAggregateValue` — one row of
aggregate initial values, count = 0 and every other aggregate NULL. -/
def generateInitialAggregateValue (ts : List AggKind) : List AggValue :=
  ts.map fun t =>
    match t with
    | .countStar => .int 0
    | _ => .null

/-- Modelled from the spec: the combine step for one aggregate column. -/
def combineOne (t : AggKind) (acc input : AggValue) : AggValue :=
  match t, acc, input with
  | .countStar, .int c, _ => .int (c + 1)
  | .countStar, .null, _ => .int 1
  | .sum, .int a, .int b => .int (a + b)
  | .sum, .null, .int b => .int b
  | .minA, .int a, .int b => .int (Min.min a b)
  | .minA, .null, .int b => .int b
  | .maxA, .int a, .int b => .int (Max.max a b)
  | .maxA, .null, .int b => .int b
  | _, acc, _ => acc

/-- Modelled from the spec: combine a fresh input row into the accumulated
aggregate values, pointwise per aggregate kind. -/
def combineValues (ts : List AggKind) (acc input : List AggValue) : List AggValue :=
  (ts.zip (acc.zip input)).map fun p => combineOne p.1 p.2.1 p.2.2

/-- One tuple is a list of values; an expression is a column index. -/
abbrev AggTuple := List AggValue

structure AggPlanNode where
  groupBys : List Nat
  aggregates : List Nat
  aggTypes : List AggKind
deriving DecidableEq, Repr

/-- Evaluates a column expression against a tuple. -/
def evalCol (t : AggTuple) (e : Nat) : AggValue := t.getD e .null

/-- Modelled from the spec: `SimpleAggregationHashTable::InsertCombine` —
inserts the initial aggregate values for an unseen key, then combines. -/
def insertCombine (ts : List AggKind) (table : List (List AggValue × List AggValue))
    (key vals : List AggValue) : List (List AggValue × List AggValue) :=
  match table with
  | [] => [(key, combineValues ts (generateInitialAggregateValue ts) vals)]
  | (k, a) :: rest =>
    if k = key then (k, combineValues ts a vals) :: rest
    else (k, a) :: insertCombine ts rest key vals

structure AggExecState where
  table : List (List AggValue × List AggValue)
  hasOut : Bool
deriving DecidableEq, Repr

/-- Embeds `AggregationExecutor::Init`: sets `has_out_` exactly when the plan
has no group-by expressions, clears the table, and folds every child tuple
into the hash table keyed by its group-by values. -/
def aggInit (plan : AggPlanNode) (children : List AggTuple) : AggExecState :=
  { hasOut := plan.groupBys.isEmpty,
    table := children.foldl
      (fun tb t =>
        insertCombine plan.aggTypes tb
          (plan.groupBys.map (evalCol t)) (plan.aggregates.map (evalCol t))) [] }

/-- Embeds `AggregationExecutor::Next`: while the iterator has entries, emits
group-bys followed by aggregates and clears `has_out_`; at the end, emits one
row of initial aggregate values if `has_out_` is still set, else exhausts. -/
def aggNext (plan : AggPlanNode) (s : AggExecState) :
    Option (List AggValue) × AggExecState :=
  match s.table with
  | [] =>
    if s.hasOut then
      (some (generateInitialAggregateValue plan.aggTypes), { s with hasOut := false })
    else (none, s)
  | (k, v) :: rest => (some (k ++ v), { table := rest, hasOut := false })

/-- Pulls `aggNext` to exhaustion (with fuel), collecting the emitted rows. -/
def aggRun (plan : AggPlanNode) : Nat → AggExecState → List (List AggValue)
  | 0, _ => []
  | fuel + 1, s =>
    match aggNext plan s with
    | (none, _) => []
    | (some r, s') => r :: aggRun plan fuel s'

/-- The full output stream of the aggregation executor. -/
def aggOutput (plan : AggPlanNode) (children : List AggTuple) : List (List AggValue) :=
  let s := aggInit plan children
  aggRun plan (s.table.length + 2) s

/-- C9: with no group-by expressions and no child tuples, the aggregation
executor emits exactly one row of the aggregate initial values (count = 0,
all other aggregates null) and then reports exhaustion. -/
theorem claim_C9_agg_empty_input (plan : AggPlanNode) (children : List AggTuple)
    (hg : plan.groupBys = []) (hc : children = []) :
    aggOutput plan children =
      [plan.aggTypes.map fun t => match t with | .countStar => AggValue.int 0 | _ => .null] := by
  subst hc
  simp [aggOutput, aggInit, aggRun, aggNext, hg, generateInitialAggregateValue]

/-- Witness for C9 on a concrete plan with count/sum/min aggregates. -/
theorem claim_C9_agg_empty_input_witness :
    aggOutput ⟨[], [0, 1, 2], [.countStar, .sum, .minA]⟩ [] =
      [[AggValue.int 0, .null, .null]] := by
  have h := claim_C9_agg_empty_input ⟨[], [0, 1, 2], [.countStar, .sum, .minA]⟩ [] rfl rfl
  rw [h]
  decide

/-- C10: with at least one group-by expression and no child tuples, the
aggregation executor emits no rows at all. -/
theorem claim_C10_agg_groupby_empty_input (plan : AggPlanNode) (children : List AggTuple)
    (hg : plan.groupBys ≠ []) (hc : children = []) :
    aggOutput plan children = [] := by
  subst hc
  have : plan.groupBys.isEmpty = false := by
    cases h : plan.groupBys with
    | nil => exact absurd h hg
    | cons a as => rfl
  simp [aggOutput, aggInit, aggRun, aggNext, this]

/-- Witness for C10 on a concrete plan with one group-by column. -/
theorem claim_C10_agg_groupby_empty_input_witness :
    aggOutput ⟨[0], [1], [.sum]⟩ [] = [] :=
  claim_C10_agg_groupby_empty_input ⟨[0], [1], [.sum]⟩ [] (by decide) rfl

/-! ## Optimizer: nested-loop join to hash join

Embedding of `IsColumnEqualExpr` and `Optimizer::OptimizeNLJAsHashJoin`
(src/execution ... optimizer sources).  Expressions carry their comparison
and logic operator; `ComparisonExpression` / `LogicExpression` /
`ColumnValueExpression` appear as constructors; `dynamic_cast` tests become
constructor matches.  Plan nodes carry an abstract schema tag. -/

inductive CompType where
  | eq | ne | lt | le | gt | ge
deriving DecidableEq, Repr

inductive LogicOp where
  | andOp | orOp
deriving DecidableEq, Repr

inductive Expr where
  | columnValue (tupleIdx colIdx : Nat)
  | comparison (op : CompType) (lhs rhs : Expr)
  | logic (op : LogicOp) (lhs rhs : Expr)
  | const (v : Int)
deriving DecidableEq, Repr

inductive JoinType where
  | inner | leftJoin
deriving DecidableEq, Repr

inductive Plan where
  | nestedLoopJoin (schema : Nat) (left right : Plan) (pred : Expr) (jt : JoinType)
  | hashJoin (schema : Nat) (left right : Plan) (leftKeys rightKeys : List Expr) (jt : JoinType)
  | other (schema : Nat) (children : List Plan)

/-- Embeds `IsColumnEqualExpr(expr, left_key_exprs, right_key_exprs)`:
succeeds when the expression is a two-child comparison whose children are
both column references with distinct tuple indexes, appending the side-0
column to the left keys and the other to the right keys. -/
def isColumnEqualExpr (e : Expr) (lks rks : List Expr) : Bool × List Expr × List Expr :=
  match e with
  | .comparison _ (.columnValue t0 c0) (.columnValue t1 c1) =>
    if t0 ≠ t1 then
      if t0 = 0 then
        (true, lks ++ [.columnValue t0 c0], rks ++ [.columnValue t1 c1])
      else
        (true, lks ++ [.columnValue t1 c1], rks ++ [.columnValue t0 c0])
    else (false, lks, rks)
  | _ => (false, lks, rks)

mutual

/-- Embeds `Optimizer::OptimizeNLJAsHashJoin`: optimizes children bottom-up,
then rewrites a nested-loop join into a hash join when the predicate is a
column-column comparison across sides, or a two-child logic expression of two
such comparisons. -/
def optimizeNLJAsHashJoin : Plan → Plan
  | .nestedLoopJoin s l r pred jt =>
    let l' := optimizeNLJAsHashJoin l
    let r' := optimizeNLJAsHashJoin r
    match isColumnEqualExpr pred [] [] with
    | (true, lk, rk) => .hashJoin s l' r' lk rk jt
    | (false, _, _) =>
      match pred with
      | .logic lop a b =>
        match isColumnEqualExpr a [] [] with
        | (true, lka, rka) =>
          match isColumnEqualExpr b lka rka with
          | (true, lkb, rkb) => .hashJoin s l' r' lkb rkb jt
          | (false, _, _) => .nestedLoopJoin s l' r' (.logic lop a b) jt
        | (false, _, _) => .nestedLoopJoin s l' r' (.logic lop a b) jt
      | p => .nestedLoopJoin s l' r' p jt
  | .hashJoin s l r lk rk jt =>
    .hashJoin s (optimizeNLJAsHashJoin l) (optimizeNLJAsHashJoin r) lk rk jt
  | .other s cs => .other s (optimizePlanList cs)

/-- Optimizes each child of a generic plan node. -/
def optimizePlanList : List Plan → List Plan
  | [] => []
  | p :: ps => optimizeNLJAsHashJoin p :: optimizePlanList ps

end

/-- Spec-side shape test (from the amended claim's words): a two-child
comparison of two column references with distinct tuple indexes. -/
def isColCmp : Expr → Bool
  | .comparison _ (.columnValue t0 _) (.columnValue t1 _) => t0 ≠ t1
  | _ => false

/-- Spec-side rewrite condition (from the amended claim's words): the
predicate is such a comparison, or a two-child logic expression of two such
comparisons. -/
def specRewriteCond : Expr → Bool
  | .logic _ a b => isColCmp a && isColCmp b
  | e => isColCmp e

/-- Spec-side key extraction for one comparison. -/
def cmpKeys : Expr → List Expr × List Expr
  | .comparison _ (.columnValue t0 c0) (.columnValue t1 c1) =>
    if t0 = 0 then ([.columnValue t0 c0], [.columnValue t1 c1])
    else ([.columnValue t1 c1], [.columnValue t0 c0])
  | _ => ([], [])

/-- Spec-side key extraction for the whole predicate. -/
def specKeys : Expr → List Expr × List Expr
  | .logic _ a b => ((cmpKeys a).1 ++ (cmpKeys b).1, (cmpKeys a).2 ++ (cmpKeys b).2)
  | e => cmpKeys e

/-- `isColumnEqualExpr` succeeds exactly on `isColCmp` shapes and appends
exactly the `cmpKeys` keys. -/
theorem isColumnEqualExpr_eq (e : Expr) (lks rks : List Expr) :
    isColumnEqualExpr e lks rks =
      (isColCmp e,
        if isColCmp e then lks ++ (cmpKeys e).1 else lks,
        if isColCmp e then rks ++ (cmpKeys e).2 else rks) := by
  cases e with
  | columnValue t c => simp [isColumnEqualExpr, isColCmp, cmpKeys]
  | const v => simp [isColumnEqualExpr, isColCmp, cmpKeys]
  | logic op a b => simp [isColumnEqualExpr, isColCmp, cmpKeys]
  | comparison op lhs rhs =>
    cases lhs <;> cases rhs <;>
      simp only [isColumnEqualExpr, isColCmp, cmpKeys] <;>
      split_ifs <;> simp_all

/-- C7 amended: the NLJ-to-hash-join rule replaces a nested-loop join node
exactly when its predicate is a two-child comparison (of any comparison
operator) of two column references with distinct tuple indexes, or a
two-child logical expression (AND or OR) of two such comparisons; in that
case it emits a hash-join node carrying the extracted (left, right) key
lists and preserving the join type and output schema, and otherwise leaves
the node a nested-loop join (with optimized children). -/
theorem claim_C7_nlj_as_hash_join (s : Nat) (l r : Plan) (pred : Expr) (jt : JoinType) :
    optimizeNLJAsHashJoin (.nestedLoopJoin s l r pred jt) =
      if specRewriteCond pred then
        .hashJoin s (optimizeNLJAsHashJoin l) (optimizeNLJAsHashJoin r)
          (specKeys pred).1 (specKeys pred).2 jt
      else
        .nestedLoopJoin s (optimizeNLJAsHashJoin l) (optimizeNLJAsHashJoin r) pred jt := by
  cases pred with
  | logic op a b =>
    have hl : isColCmp (Expr.logic op a b) = false := rfl
    simp only [optimizeNLJAsHashJoin, isColumnEqualExpr_eq, hl, specRewriteCond, specKeys]
    by_cases hca : isColCmp a <;> by_cases hcb : isColCmp b <;> simp [hca, hcb]
  | comparison op lhs rhs =>
    simp only [optimizeNLJAsHashJoin, isColumnEqualExpr_eq, specRewriteCond, specKeys]
    by_cases hc : isColCmp (Expr.comparison op lhs rhs) <;> simp [hc]
  | columnValue t c =>
    have hl : isColCmp (Expr.columnValue t c) = false := rfl
    simp [optimizeNLJAsHashJoin, isColumnEqualExpr_eq, hl, specRewriteCond, specKeys]
  | const v =>
    have hl : isColCmp (Expr.const v) = false := rfl
    simp [optimizeNLJAsHashJoin, isColumnEqualExpr_eq, hl, specRewriteCond, specKeys]

/-- C7 counterexample: the rule also rewrites predicates that are not
equalities and logical predicates that are not conjunctions.  A `<`
comparison of two cross-side columns is rewritten to a hash join, and an OR
of two cross-side equalities is rewritten as well, contradicting the claim
that only equalities / conjunctions of equalities are rewritten and that
everything else stays a nested-loop join. -/
theorem claim_C7_counterexample :
    optimizeNLJAsHashJoin (.nestedLoopJoin 0 (.other 1 []) (.other 2 [])
        (.comparison .lt (.columnValue 0 0) (.columnValue 1 0)) .inner) =
      .hashJoin 0 (.other 1 []) (.other 2 [])
        [.columnValue 0 0] [.columnValue 1 0] .inner ∧
    CompType.lt ≠ CompType.eq ∧
    optimizeNLJAsHashJoin (.nestedLoopJoin 0 (.other 1 []) (.other 2 [])
        (.logic .orOp (.comparison .eq (.columnValue 0 0) (.columnValue 1 0))
          (.comparison .eq (.columnValue 0 1) (.columnValue 1 1))) .inner) =
      .hashJoin 0 (.other 1 []) (.other 2 [])
        [.columnValue 0 0, .columnValue 0 1] [.columnValue 1 0, .columnValue 1 1] .inner ∧
    LogicOp.orOp ≠ LogicOp.andOp := by
  refine ⟨rfl, by decide, rfl, by decide⟩

/-! ## Transaction manager: `Abort`

Embedding of `TransactionManager::Abort` (src/concurrency sources).  The
index write set and table write set are the per-transaction deques, appended
at the back by the executors; `Abort` iterates each with a range-for (front
to back, i.e. oldest record first).  Undoing a recorded index INSERT calls
`DeleteEntry`, a recorded DELETE calls `InsertEntry`; undoing a table record
flips the tuple-meta `is_deleted_` bit.  `ReleaseLocks` (declared in a header
outside the provided sources) is modelled from the spec as releasing every
lock the transaction holds. -/

inductive WType where
  | insertW
  | deleteW
deriving DecidableEq, Repr

structure IndexWriteRecord where
  rid : Nat
  tableOid : Nat
  wtype : WType
  key : Nat
  indexOid : Nat
deriving DecidableEq, Repr

structure TableWriteRecord where
  tableOid : Nat
  rid : Nat
deriving DecidableEq, Repr

inductive TxnState where
  | growing
  | shrinking
  | committed
  | aborted
deriving DecidableEq, Repr

structure Txn where
  indexWriteSet : List IndexWriteRecord
  tableWriteSet : List TableWriteRecord
  heldLocks : List Nat
  state : TxnState
deriving DecidableEq, Repr

/-- One index-undo call issued by `Abort`. -/
inductive UndoOp where
  | deleteEntry (indexOid key rid : Nat)
  | insertEntry (indexOid key rid : Nat)
deriving DecidableEq, Repr

/-- The index-undo call for one record: INSERT is undone by `DeleteEntry`,
DELETE by `InsertEntry`. -/
def undoIndexRecord (r : IndexWriteRecord) : UndoOp :=
  match r.wtype with
  | .insertW => .deleteEntry r.indexOid r.key r.rid
  | .deleteW => .insertEntry r.indexOid r.key r.rid

/-- Tuple metas of a table heap: rid to `is_deleted_` flag (a heap holds one
meta per rid). -/
abbrev Metas := List (Nat × Bool)

/-- One table-undo step of `Abort`: `GetTupleMeta(rid)`, negate
`is_deleted_`, `UpdateTupleMeta` back. -/
def flipMeta (ms : Metas) (rid : Nat) : Metas :=
  ms.map fun p => if p.1 == rid then (p.1, !p.2) else p

structure AbortResult where
  indexOps : List UndoOp
  metas : Metas
  txn : Txn
deriving DecidableEq, Repr

/-- Embeds `TransactionManager::Abort`: iterates the index write set front to
back emitting one undo call per record, then iterates the table write set
front to back flipping each recorded tuple's `is_deleted_` bit, clears both
write sets, releases all locks (modelled from the spec for `ReleaseLocks`),
and sets the state to ABORTED. -/
def abortTxn (t : Txn) (ms : Metas) : AbortResult :=
  { indexOps := t.indexWriteSet.map undoIndexRecord,
    metas := t.tableWriteSet.foldl (fun acc r => flipMeta acc r.rid) ms,
    txn := { indexWriteSet := [], tableWriteSet := [], heldLocks := [], state := .aborted } }

/-- C2 counterexample: with an index write set holding two records (recorded
in that order), `Abort` issues the undo calls oldest record first, not in
reverse order. -/
theorem claim_C2_counterexample :
    (abortTxn ⟨[⟨1, 0, .insertW, 10, 0⟩, ⟨2, 0, .insertW, 20, 0⟩], [], [], .growing⟩ []).indexOps
        = [.deleteEntry 0 10 1, .deleteEntry 0 20 2] ∧
    (abortTxn ⟨[⟨1, 0, .insertW, 10, 0⟩, ⟨2, 0, .insertW, 20, 0⟩], [], [], .growing⟩ []).indexOps
        ≠ ([(⟨1, 0, .insertW, 10, 0⟩ : IndexWriteRecord),
            ⟨2, 0, .insertW, 20, 0⟩].reverse.map undoIndexRecord) := by
  decide

/-- Flipping the same rid twice restores the metas. -/
theorem flipMeta_flipMeta (ms : Metas) (r : Nat) : flipMeta (flipMeta ms r) r = ms := by
  induction ms with
  | nil => rfl
  | cons p rest ih =>
    obtain ⟨a, b⟩ := p
    simp only [flipMeta, List.map_cons] at *
    by_cases h : a = r <;> simp_all

/-- Flips of (possibly equal) rids commute. -/
theorem flipMeta_comm (ms : Metas) (r q : Nat) :
    flipMeta (flipMeta ms r) q = flipMeta (flipMeta ms q) r := by
  induction ms with
  | nil => rfl
  | cons p rest ih =>
    obtain ⟨a, b⟩ := p
    simp only [flipMeta, List.map_cons] at *
    by_cases h1 : a = r <;> by_cases h2 : a = q <;> simp_all

/-- Applies the table-undo flips of a write set front to back. -/
def flipAll (ws : List TableWriteRecord) (ms : Metas) : Metas :=
  ws.foldl (fun acc r => flipMeta acc r.rid) ms

/-- Unfolding equation for `flipAll` on a cons. -/
theorem flipAll_cons (w : TableWriteRecord) (ws : List TableWriteRecord) (ms : Metas) :
    flipAll (w :: ws) ms = flipAll ws (flipMeta ms w.rid) := rfl

/-- A single flip commutes with a whole pass of flips. -/
theorem flipMeta_flipAll (ws : List TableWriteRecord) (ms : Metas) (r : Nat) :
    flipMeta (flipAll ws ms) r = flipAll ws (flipMeta ms r) := by
  induction ws generalizing ms with
  | nil => rfl
  | cons w rest ih =>
    rw [flipAll_cons, ih, flipMeta_comm, ← flipAll_cons]

/-- Two passes of the same table-undo flips restore the metas. -/
theorem flipAll_flipAll (ws : List TableWriteRecord) (ms : Metas) :
    flipAll ws (flipAll ws ms) = ms := by
  induction ws generalizing ms with
  | nil => rfl
  | cons w rest ih =>
    rw [flipAll_cons, flipAll_cons, flipMeta_flipAll, flipMeta_flipMeta, ih]

/-- C2 amended: `Abort` replays the index write set in recorded (front to
back) order — undoing each recorded insert by deleting the key and each
recorded delete by re-inserting it — then replays the table write set,
flipping the `is_deleted` bit on each recorded tuple's meta; both write sets
are then cleared, all locks released, and the state set to ABORTED.  Since
the flips invert the transaction's recorded meta changes, an aborted
transaction whose metas currently reflect exactly its recorded changes is
rolled back to the pre-transaction metas. -/
theorem claim_C2_abort_undo (t : Txn) (ms pre : Metas)
    (hms : ms = flipAll t.tableWriteSet pre) :
    (abortTxn t ms).indexOps = t.indexWriteSet.map undoIndexRecord ∧
    (abortTxn t ms).metas = flipAll t.tableWriteSet ms ∧
    (abortTxn t ms).txn.indexWriteSet = [] ∧
    (abortTxn t ms).txn.tableWriteSet = [] ∧
    (abortTxn t ms).txn.heldLocks = [] ∧
    (abortTxn t ms).txn.state = .aborted ∧
    (abortTxn t ms).metas = pre := by
  refine ⟨rfl, rfl, rfl, rfl, rfl, rfl, ?_⟩
  show flipAll t.tableWriteSet ms = pre
  rw [hms, flipAll_flipAll]

/-- Witness for C2 amended: a transaction that inserted rid 1 (meta flipped
from deleted to live) aborts back to the original metas. -/
theorem claim_C2_abort_undo_witness :
    (abortTxn ⟨[⟨1, 0, .insertW, 10, 0⟩], [⟨0, 1⟩], [5], .growing⟩
        [(1, false), (2, true)]).metas = [(1, true), (2, true)] ∧
    (abortTxn ⟨[⟨1, 0, .insertW, 10, 0⟩], [⟨0, 1⟩], [5], .growing⟩
        [(1, false), (2, true)]).txn.state = .aborted := by
  have h := claim_C2_abort_undo ⟨[⟨1, 0, .insertW, 10, 0⟩], [⟨0, 1⟩], [5], .growing⟩
    [(1, false), (2, true)] [(1, true), (2, true)] (by decide)
  exact ⟨h.2.2.2.2.2.2, h.2.2.2.2.2.1⟩

/-! ## Lock manager: multi-granularity compatibility

Embedding of `LockManager::CheckIfCanLock` (src/concurrency sources) over a
queue's per-mode granted counts.  `LockTable`/`LockRow` append a request,
wait until the request is at the head and `CheckIfCanLock` holds, and only
then increment the granted count for its mode; `UnlockTable`/`UnlockRow`
(and the upgrade path, which first drops the old grant) decrement a positive
count.  Any interleaving of these calls therefore drives the granted counts
of one resource along the `LockStep` transition relation below. -/

inductive LockMode where
  | shared
  | exclusive
  | intentionShared
  | intentionExclusive
  | sharedIntentionExclusive
deriving DecidableEq, Repr

structure GrantedCnts where
  sCnt : Nat
  xCnt : Nat
  isCnt : Nat
  ixCnt : Nat
  sixCnt : Nat
deriving DecidableEq, Repr

def getCnt (c : GrantedCnts) : LockMode → Nat
  | .shared => c.sCnt
  | .exclusive => c.xCnt
  | .intentionShared => c.isCnt
  | .intentionExclusive => c.ixCnt
  | .sharedIntentionExclusive => c.sixCnt

def setCnt (c : GrantedCnts) (m : LockMode) (n : Nat) : GrantedCnts :=
  match m with
  | .shared => { c with sCnt := n }
  | .exclusive => { c with xCnt := n }
  | .intentionShared => { c with isCnt := n }
  | .intentionExclusive => { c with ixCnt := n }
  | .sharedIntentionExclusive => { c with sixCnt := n }

/-- Embeds `LockManager::CheckIfCanLock(queue, lock_mode)`: checks the
requested mode against the queue's per-mode granted counts exactly as the
source's five branches do. -/
def checkIfCanLock (c : GrantedCnts) (lock_mode : LockMode) : Bool :=
  if lock_mode = .intentionShared then
    !(c.xCnt ≠ 0)
  else if lock_mode = .intentionExclusive then
    !(c.sCnt ≠ 0 || c.sixCnt ≠ 0 || c.xCnt ≠ 0)
  else if lock_mode = .shared then
    !(c.ixCnt ≠ 0 || c.sixCnt ≠ 0 || c.xCnt ≠ 0)
  else if lock_mode = .sharedIntentionExclusive then
    !(c.ixCnt ≠ 0 || c.sCnt ≠ 0 || c.sixCnt ≠ 0 || c.xCnt ≠ 0)
  else if lock_mode = .exclusive then
    !(c.isCnt ≠ 0 || c.ixCnt ≠ 0 || c.sCnt ≠ 0 || c.sixCnt ≠ 0 || c.xCnt ≠ 0)
  else
    true

/-- The spec's multi-granularity compatibility matrix: IS conflicts only with
X; IX with S, SIX, X; S with IX, SIX, X; SIX with everything but IS; X with
everything. -/
def compatible : LockMode → LockMode → Bool
  | .intentionShared, .intentionShared => true
  | .intentionShared, .intentionExclusive => true
  | .intentionShared, .shared => true
  | .intentionShared, .sharedIntentionExclusive => true
  | .intentionShared, .exclusive => false
  | .intentionExclusive, .intentionShared => true
  | .intentionExclusive, .intentionExclusive => true
  | .intentionExclusive, _ => false
  | .shared, .intentionShared => true
  | .shared, .shared => true
  | .shared, _ => false
  | .sharedIntentionExclusive, .intentionShared => true
  | .sharedIntentionExclusive, _ => false
  | .exclusive, _ => false

/-- One step of a resource's granted-count evolution: a grant passes the
`CheckIfCanLock` gate; a release decrements a positive count. -/
inductive LockStep : GrantedCnts → GrantedCnts → Prop
  | grant (c : GrantedCnts) (m : LockMode) (h : checkIfCanLock c m = true) :
      LockStep c (setCnt c m (getCnt c m + 1))
  | release (c : GrantedCnts) (m : LockMode) (h : 0 < getCnt c m) :
      LockStep c (setCnt c m (getCnt c m - 1))

/-- Granted-count states reachable from the empty queue by any interleaving
of `lock_table` / `unlock_table` / `lock_row` / `unlock_row` grant and
release events on one resource. -/
inductive ReachableCnts : GrantedCnts → Prop
  | init : ReachableCnts ⟨0, 0, 0, 0, 0⟩
  | step {c c' : GrantedCnts} : ReachableCnts c → LockStep c c' → ReachableCnts c'

/-- The granted multiset is pairwise compatible: any two granted requests of
distinct modes are compatible, and any mode granted at least twice is
self-compatible. -/
def PairwiseCompatible (c : GrantedCnts) : Prop :=
  (∀ m1 m2 : LockMode, m1 ≠ m2 → 0 < getCnt c m1 → 0 < getCnt c m2 →
    compatible m1 m2 = true) ∧
  (∀ m : LockMode, 2 ≤ getCnt c m → compatible m m = true)

/-- The gate implies the requested mode is compatible with every currently
granted mode. -/
theorem checkIfCanLock_compat (c : GrantedCnts) (m m' : LockMode)
    (hc : checkIfCanLock c m = true) (hm' : 0 < getCnt c m') :
    compatible m' m = true ∧ compatible m m' = true := by
  cases m <;> cases m' <;>
    simp [checkIfCanLock, compatible, getCnt] at * <;> omega

theorem getCnt_setCnt (c : GrantedCnts) (m m' : LockMode) (n : Nat) :
    getCnt (setCnt c m n) m' = if m' = m then n else getCnt c m' := by
  cases m <;> cases m' <;> simp [getCnt, setCnt]

/-- A grant that passes the gate preserves pairwise compatibility. -/
theorem pairwiseCompatible_grant (c : GrantedCnts) (m : LockMode)
    (hm : checkIfCanLock c m = true) (ih : PairwiseCompatible c) :
    PairwiseCompatible (setCnt c m (getCnt c m + 1)) := by
  obtain ⟨ih1, ih2⟩ := ih
  constructor
  · intro m1 m2 hne h1 h2
    rw [getCnt_setCnt] at h1 h2
    by_cases e1 : m1 = m <;> by_cases e2 : m2 = m
    · exact absurd (e1.trans e2.symm) hne
    · subst e1
      simp only [e2, if_false] at h2
      exact (checkIfCanLock_compat c m1 m2 hm h2).2
    · subst e2
      simp only [e1, if_false] at h1
      exact (checkIfCanLock_compat c m2 m1 hm h1).1
    · simp only [e1, e2, if_false] at h1 h2
      exact ih1 m1 m2 hne h1 h2
  · intro m' hm'
    rw [getCnt_setCnt] at hm'
    by_cases e : m' = m
    · subst e
      simp only [eq_self_iff_true, if_true] at hm'
      have hpos : 0 < getCnt c m' := by omega
      exact (checkIfCanLock_compat c m' m' hm hpos).1
    · simp only [e, if_false] at hm'
      exact ih2 m' hm'

/-- A release preserves pairwise compatibility. -/
theorem pairwiseCompatible_release (c : GrantedCnts) (m : LockMode)
    (ih : PairwiseCompatible c) :
    PairwiseCompatible (setCnt c m (getCnt c m - 1)) := by
  obtain ⟨ih1, ih2⟩ := ih
  constructor
  · intro m1 m2 hne h1 h2
    rw [getCnt_setCnt] at h1 h2
    refine ih1 m1 m2 hne ?_ ?_
    · by_cases e1 : m1 = m
      · subst e1; simp only [eq_self_iff_true, if_true] at h1; omega
      · simpa [e1] using h1
    · by_cases e2 : m2 = m
      · subst e2; simp only [eq_self_iff_true, if_true] at h2; omega
      · simpa [e2] using h2
  · intro m' hm'
    rw [getCnt_setCnt] at hm'
    refine ih2 m' ?_
    by_cases e : m' = m
    · subst e; simp only [eq_self_iff_true, if_true] at hm'; omega
    · simpa [e] using hm'

/-- C3: for any interleaving of `lock_table`/`unlock_table` and
`lock_row`/`unlock_row` calls, at every reachable state the set of currently
granted requests on a resource is pairwise compatible under the
multi-granularity matrix (grants pass the `CheckIfCanLock` gate, releases
decrement). -/
theorem claim_C3_lock_compatibility (c : GrantedCnts) (h : ReachableCnts c) :
    PairwiseCompatible c := by
  induction h with
  | init =>
    constructor
    · intro m1 m2 _ h1 _
      cases m1 <;> simp [getCnt] at h1
    · intro m hm
      cases m <;> simp [getCnt] at hm
  | step _ hs ih =>
    cases hs with
    | grant m hm => exact pairwiseCompatible_grant _ m hm ih
    | release m hm => exact pairwiseCompatible_release _ m ih

/-- Witness for C3 at the reachable state with one IS and one IX grant. -/
theorem claim_C3_lock_compatibility_witness :
    PairwiseCompatible ⟨0, 0, 1, 1, 0⟩ := by
  apply claim_C3_lock_compatibility
  have h1 : ReachableCnts ⟨0, 0, 1, 0, 0⟩ :=
    ReachableCnts.step ReachableCnts.init
      (LockStep.grant ⟨0, 0, 0, 0, 0⟩ .intentionShared (by decide))
  exact ReachableCnts.step h1
    (LockStep.grant ⟨0, 0, 1, 0, 0⟩ .intentionExclusive (by decide))

/-! ## Lock manager: deadlock detection

Embedding of `LockManager::FindCycle` / `LockManager::HasCycle`
(src/concurrency sources).  The waits-for graph is an association list from
transaction id to its out-neighbour list.  `HasCycle` sorts each adjacency
list and the set of source ids ascending, then runs the recursive DFS of
`FindCycle`, which accumulates in `youngest` the maximum of the ids pushed
along the current DFS path and reports that accumulator as the victim when a
back-edge closes a cycle.  The C++ recursion depth is bounded by the number
of graph keys (`on_path` grows at each level), so the embedding carries a
fuel argument instantiated to more than that bound. -/

abbrev WaitsFor := List (Int × List Int)

def lookupWF (g : WaitsFor) (t : Int) : Option (List Int) :=
  (g.find? (fun p => p.1 == t)).map Prod.snd

/-- `unordered_set::insert`. -/
def setInsert (x : Int) (l : List Int) : List Int :=
  if x ∈ l then l else x :: l

/-- Embeds `LockManager::FindCycle(source_txn, youngest_txn_id, visited,
on_path, abort_txn_id)`.  Returns (found, visited, on_path, abort id); the
neighbour loop is a fold that becomes a no-op once a cycle was found,
matching the early `return true`. -/
def findCycle (g : WaitsFor) : Nat → Int → Int → List Int → List Int →
    Bool × List Int × List Int × Option Int
  | 0, _, _, visited, onPath => (false, visited, onPath, none)
  | fuel + 1, source, youngest, visited, onPath =>
    match lookupWF g source with
    | none => (false, visited, onPath, none)
    | some nbrs =>
      let res := nbrs.foldl
        (fun st t2 =>
          match st with
          | (true, v, p, a) => (true, v, p, a)
          | (false, v, p, _) =>
            if t2 ∈ p then (true, v, p, some youngest)
            else findCycle g fuel t2 (max youngest t2) v p)
        (false, setInsert source visited, setInsert source onPath, none)
      match res with
      | (true, v, p, a) => (true, v, p, a)
      | (false, v, p, _) => (false, v, p.erase source, none)

def insSorted (x : Int) : List Int → List Int
  | [] => [x]
  | y :: ys => if x ≤ y then x :: y :: ys else y :: insSorted x ys

/-- `std::sort` on transaction ids, ascending. -/
def sortInts : List Int → List Int
  | [] => []
  | x :: xs => insSorted x (sortInts xs)

/-- Embeds the source-id loop of `LockManager::HasCycle`: visited sources are
skipped, and the first `FindCycle` hit reports its victim. -/
def hasCycleLoop (g : WaitsFor) : List Int → List Int → Bool × Option Int
  | [], _ => (false, none)
  | s :: rest, visited =>
    if s ∈ visited then hasCycleLoop g rest visited
    else
      match findCycle g (g.length + 1) s (-1) visited [] with
      | (true, _, _, a) => (true, a)
      | (false, v, _, _) => hasCycleLoop g rest v

/-- Embeds `LockManager::HasCycle(txn_id)`: sorts every adjacency list and
the source ids ascending, then searches for a cycle from each unvisited
source. -/
def hasCycle (g : WaitsFor) : Bool × Option Int :=
  let g' : WaitsFor := g.map (fun p => (p.1, sortInts p.2))
  hasCycleLoop g' (sortInts (g.map Prod.fst)) []

/-- A transaction reaches another in at least one edge (fuel-bounded). -/
def reachesFrom (g : WaitsFor) : Nat → Int → Int → Bool
  | 0, _, _ => false
  | fuel + 1, a, tgt =>
    match lookupWF g a with
    | none => false
    | some ns => ns.any (fun b => b == tgt || reachesFrom g fuel b tgt)

/-- A transaction lies on a cycle of the waits-for graph iff it reaches
itself in at least one edge. -/
def onCycle (g : WaitsFor) (v : Int) : Bool :=
  reachesFrom g (g.length + 1) v v

/-- C4: on the waits-for graph 1→5, 5→2, 2→3, 3→2 the only cycle is
{2, 3}, whose youngest member is 3; but `HasCycle` (DFS from source 1 along
the path 1→5→2→3) reports victim 5, the largest id on the DFS path,
which lies on no cycle at all.  The code therefore aborts a transaction
other than the youngest on the cycle. -/
theorem claim_C4_victim_not_on_cycle :
    hasCycle [(1, [5]), (2, [3]), (3, [2]), (5, [2])] = (true, some 5) ∧
    onCycle [(1, [5]), (2, [3]), (3, [2]), (5, [2])] 5 = false ∧
    onCycle [(1, [5]), (2, [3]), (3, [2]), (5, [2])] 1 = false ∧
    onCycle [(1, [5]), (2, [3]), (3, [2]), (5, [2])] 2 = true ∧
    onCycle [(1, [5]), (2, [3]), (3, [2]), (5, [2])] 3 = true ∧
    (5 : Int) ≠ 3 := by
  decide

/-! ## B+ tree

Embedding of `BPlusTree` (src/storage/index/b_plus_tree.cpp), instantiated at
integer keys and values (the generic comparator becomes the order on `Nat`).
A node is a leaf holding sorted key/value pairs or an internal node holding
(key, child) pairs whose slot-0 key is unused; pages become tree values, and
the page-id plumbing (buffer pool, next-leaf pointers, header page) is not
needed by the claims under proof.  The iterative descent with its write-set
stack becomes structural recursion computing the same node contents. -/

/-- Embeds the loop of `BPlusTree::LeafBinarySearch`: finds the first index
whose key is `≥ key` (else the size), halving `[left, right]` with midpoint
`(left + right) / 2` and keeping the best candidate in `pos`. -/
def leafBSGo (ks : List Nat) (key : Nat) (left : Nat) (right : Int) (pos : Nat) : Nat :=
  if h : (left : Int) ≤ right then
    if ks.getD ((left + right.toNat) / 2) 0 < key then
      leafBSGo ks key ((left + right.toNat) / 2 + 1) right pos
    else
      leafBSGo ks key left ((((left + right.toNat) / 2 : Nat) : Int) - 1) ((left + right.toNat) / 2)
  else pos
termination_by (right + 1 - (left : Int)).toNat
decreasing_by
  · have h2 : left ≤ right.toNat := by omega
    have h3 : left ≤ (left + right.toNat) / 2 := by omega
    omega
  · have h2 : left ≤ right.toNat := by omega
    have h4 : (left + right.toNat) / 2 ≤ right.toNat := by omega
    omega

/-- Embeds `BPlusTree::LeafBinarySearch`. -/
def leafBinarySearch (ks : List Nat) (key : Nat) : Nat :=
  if ks.length = 0 then 0
  else leafBSGo ks key 0 ((ks.length : Int) - 1) ks.length

/-- Index of the first key `≥ key` (length if none): the specification of
`LeafBinarySearch` on a sorted key list. -/
def firstGeIdx (key : Nat) : List Nat → Nat
  | [] => 0
  | a :: as => if key ≤ a then 0 else firstGeIdx key as + 1

/-- Embeds the loop of `BPlusTree::InternalBinarySearch`: finds the largest
index in `[1, size-1]` whose key is `≤ key` (else 0). -/
def internalBSGo (ks : List Nat) (key : Nat) (left : Nat) (right : Int) (pos : Nat) : Nat :=
  if h : (left : Int) ≤ right then
    if ks.getD ((left + right.toNat) / 2) 0 ≤ key then
      internalBSGo ks key ((left + right.toNat) / 2 + 1) right ((left + right.toNat) / 2)
    else
      internalBSGo ks key left ((((left + right.toNat) / 2 : Nat) : Int) - 1) pos
  else pos
termination_by (right + 1 - (left : Int)).toNat
decreasing_by
  · have h2 : left ≤ right.toNat := by omega
    have h3 : left ≤ (left + right.toNat) / 2 := by omega
    omega
  · have h2 : left ≤ right.toNat := by omega
    have h4 : (left + right.toNat) / 2 ≤ right.toNat := by omega
    omega

/-- Embeds `BPlusTree::InternalBinarySearch`. -/
def internalBinarySearch (ks : List Nat) (key : Nat) : Nat :=
  if ks.length ≤ 1 then 0
  else internalBSGo ks key 1 ((ks.length : Int) - 1) 0

/-- The child slot an internal node routes `key` to, on a sorted separator
list: the number of separators (the keys after the unused slot 0) that are
`≤ key`. -/
def childIdxSpec (key : Nat) (ks : List Nat) : Nat :=
  ((ks.drop 1).takeWhile (fun a => decide (a ≤ key))).length

/-- `firstGeIdx` is characterised by: everything before it is `< key`, and it
is the length or hits a key `≥ key`. -/
theorem firstGeIdx_char (key : Nat) (ks : List Nat) (pos : Nat)
    (h1 : ∀ i, i < pos → ks.getD i 0 < key)
    (h2 : pos = ks.length ∨ (pos < ks.length ∧ key ≤ ks.getD pos 0)) :
    firstGeIdx key ks = pos := by
  induction ks generalizing pos with
  | nil =>
    rcases h2 with h2 | ⟨h2, -⟩
    · simpa [firstGeIdx] using h2.symm
    · exact absurd h2 (by simp)
  | cons a as ih =>
    cases pos with
    | zero =>
      rcases h2 with h2 | ⟨-, h2⟩
      · exact absurd h2.symm (by simp)
      · simp only [List.getD_cons_zero] at h2
        simp [firstGeIdx, h2]
    | succ p =>
      have ha : a < key := by simpa using h1 0 (Nat.succ_pos p)
      have : firstGeIdx key as = p := by
        refine ih p (fun i hi => ?_) ?_
        · simpa using h1 (i + 1) (by omega)
        · rcases h2 with h2 | ⟨h2, h2'⟩
          · left; simpa using h2
          · right; exact ⟨by simpa using h2, by simpa using h2'⟩
      simp [firstGeIdx, Nat.not_le.mpr ha, this]

/-- Sorted access: `getD` is monotone on a `≤`-sorted list. -/
theorem sorted_getD_le (ks : List Nat) (hs : List.Pairwise (· ≤ ·) ks)
    (i j : Nat) (hij : i ≤ j) (hj : j < ks.length) :
    ks.getD i 0 ≤ ks.getD j 0 := by
  rcases Nat.eq_or_lt_of_le hij with rfl | hlt
  · exact Nat.le_refl _
  · have hi : i < ks.length := Nat.lt_trans hlt hj
    rw [ks.getD_eq_getElem 0 hi, ks.getD_eq_getElem 0 hj]
    exact List.pairwise_iff_getElem.mp hs i j hi hj hlt

/-- The `LeafBinarySearch` loop computes `firstGeIdx` on a sorted key list. -/
theorem leafBSGo_eq (ks : List Nat) (key : Nat) (hs : List.Pairwise (· ≤ ·) ks) :
    ∀ n (left : Nat) (right : Int) (pos : Nat),
      (right + 1 - (left : Int)).toNat ≤ n →
      (∀ i, i < left → ks.getD i 0 < key) →
      (pos : Int) = right + 1 →
      left ≤ pos →
      (pos = ks.length ∨ (pos < ks.length ∧ key ≤ ks.getD pos 0)) →
      leafBSGo ks key left right pos = firstGeIdx key ks := by
  intro n
  induction n with
  | zero =>
    intro left right pos hn h1 h2 h3 h4
    have hc : ¬ ((left : Int) ≤ right) := by omega
    rw [leafBSGo, dif_neg hc]
    have : left = pos := by omega
    subst this
    exact (firstGeIdx_char key ks left h1 h4).symm
  | succ n ih =>
    intro left right pos hn h1 h2 h3 h4
    by_cases hc : (left : Int) ≤ right
    · rw [leafBSGo, dif_pos hc]
      have hlr : left ≤ right.toNat := by omega
      have hmid1 : left ≤ (left + right.toNat) / 2 := by omega
      have hmid2 : (left + right.toNat) / 2 ≤ right.toNat := by omega
      have hposlen : pos ≤ ks.length := by
        rcases h4 with h | ⟨h, -⟩ <;> omega
      have hmidlen : (left + right.toNat) / 2 < ks.length := by omega
      by_cases hk : ks.getD ((left + right.toNat) / 2) 0 < key
      · rw [if_pos hk]
        refine ih ((left + right.toNat) / 2 + 1) right pos (by omega) ?_ h2 (by omega) h4
        intro i hi
        rcases Nat.lt_succ_iff_lt_or_eq.mp hi with hi | rfl
        · exact Nat.lt_of_le_of_lt (sorted_getD_le ks hs i _ (by omega) hmidlen) hk
        · exact hk
      · rw [if_neg hk]
        refine ih left ((((left + right.toNat) / 2 : Nat) : Int) - 1) ((left + right.toNat) / 2)
          (by omega) h1 (by omega) (by omega) ?_
        exact Or.inr ⟨hmidlen, Nat.le_of_not_lt hk⟩
    · rw [leafBSGo, dif_neg hc]
      have : left = pos := by omega
      subst this
      exact (firstGeIdx_char key ks left h1 h4).symm

/-- `LeafBinarySearch` computes `firstGeIdx` on a sorted key list. -/
theorem leafBinarySearch_eq (ks : List Nat) (key : Nat)
    (hs : List.Pairwise (· ≤ ·) ks) :
    leafBinarySearch ks key = firstGeIdx key ks := by
  unfold leafBinarySearch
  by_cases h0 : ks.length = 0
  · rw [if_pos h0]
    rw [List.length_eq_zero] at h0
    subst h0
    rfl
  · rw [if_neg h0]
    exact leafBSGo_eq ks key hs (ks.length + 1) 0 ((ks.length : Int) - 1) ks.length
      (by omega) (by omega) (by omega) (by omega) (Or.inl rfl)

/-- `takeWhile` length from a pointwise true/false boundary. -/
theorem takeWhile_length_eq (p : Nat → Bool) (l : List Nat) (n : Nat)
    (hn : n ≤ l.length)
    (h1 : ∀ i, i < n → p (l.getD i 0) = true)
    (h2 : ∀ i, n ≤ i → i < l.length → p (l.getD i 0) = false) :
    (l.takeWhile p).length = n := by
  induction l generalizing n with
  | nil =>
    have hn0 : n = 0 := Nat.le_zero.mp (by simpa using hn)
    subst hn0
    rfl
  | cons a as ih =>
    cases n with
    | zero =>
      have hpa : p a = false := by simpa using h2 0 (Nat.le_refl 0) (by simp)
      simp [List.takeWhile_cons, hpa]
    | succ m =>
      have hpa : p a = true := by simpa using h1 0 (Nat.succ_pos m)
      have : (as.takeWhile p).length = m := by
        refine ih m (by simpa using hn) (fun i hi => ?_) (fun i hi hil => ?_)
        · simpa using h1 (i + 1) (by omega)
        · simpa using h2 (i + 1) (by omega) (by simpa using hil)
      simp [List.takeWhile_cons, hpa, this]

/-- `getD` through `drop 1`. -/
theorem dropOne_getD (ks : List Nat) (i : Nat) :
    (ks.drop 1).getD i 0 = ks.getD (i + 1) 0 := by
  cases ks <;> simp [List.getD]

/-- The `InternalBinarySearch` loop computes `childIdxSpec` when the
separators (the keys after the unused slot 0) are sorted. -/
theorem internalBSGo_eq (ks : List Nat) (key : Nat)
    (hs : List.Pairwise (· ≤ ·) (ks.drop 1)) :
    ∀ n (left : Nat) (right : Int) (pos : Nat),
      (right + 1 - (left : Int)).toNat ≤ n →
      1 ≤ left →
      (∀ i, 1 ≤ i → i < left → ks.getD i 0 ≤ key) →
      pos + 1 = left →
      (∀ i : Nat, right < (i : Int) → i < ks.length → key < ks.getD i 0) →
      (left : Int) ≤ right + 1 →
      right < (ks.length : Int) →
      internalBSGo ks key left right pos = childIdxSpec key ks := by
  have hdlen : (ks.drop 1).length = ks.length - 1 := by simp
  have hget : ∀ i j : Nat, 1 ≤ i → i ≤ j → j < ks.length →
      ks.getD i 0 ≤ ks.getD j 0 := by
    intro i j hi hij hj
    have := sorted_getD_le (ks.drop 1) hs (i - 1) (j - 1) (by omega) (by omega)
    rwa [dropOne_getD, dropOne_getD, Nat.sub_add_cancel hi,
      Nat.sub_add_cancel (Nat.le_trans hi hij)] at this
  intro n
  induction n with
  | zero =>
    intro left right pos hn h0 h1 h2 h3 h5 h6
    have hc : ¬ ((left : Int) ≤ right) := by omega
    rw [internalBSGo, dif_neg hc]
    unfold childIdxSpec
    refine (takeWhile_length_eq _ (ks.drop 1) pos (by omega) ?_ ?_).symm
    · intro i hi
      rw [dropOne_getD]
      simpa using h1 (i + 1) (by omega) (by omega)
    · intro i hi hil
      rw [dropOne_getD]
      simpa using Nat.not_le.mpr (h3 (i + 1) (by omega) (by omega))
  | succ n ih =>
    intro left right pos hn h0 h1 h2 h3 h5 h6
    by_cases hc : (left : Int) ≤ right
    · rw [internalBSGo, dif_pos hc]
      have hlr : left ≤ right.toNat := by omega
      have hmid1 : left ≤ (left + right.toNat) / 2 := by omega
      have hmid2 : (left + right.toNat) / 2 ≤ right.toNat := by omega
      have hmidlen : (left + right.toNat) / 2 < ks.length := by omega
      by_cases hk : ks.getD ((left + right.toNat) / 2) 0 ≤ key
      · rw [if_pos hk]
        refine ih ((left + right.toNat) / 2 + 1) right ((left + right.toNat) / 2)
          (by omega) (by omega) ?_ rfl h3 (by omega) h6
        intro i hi1 hi2
        exact Nat.le_trans (hget i _ hi1 (by omega) hmidlen) hk
      · rw [if_neg hk]
        refine ih left ((((left + right.toNat) / 2 : Nat) : Int) - 1) pos
          (by omega) h0 h1 h2 ?_ (by omega) (by omega)
        intro i hi1 hi2
        have hmi : (left + right.toNat) / 2 ≤ i := by omega
        exact Nat.lt_of_lt_of_le (Nat.not_le.mp hk) (hget _ i (by omega) hmi hi2)
    · rw [internalBSGo, dif_neg hc]
      unfold childIdxSpec
      refine (takeWhile_length_eq _ (ks.drop 1) pos (by omega) ?_ ?_).symm
      · intro i hi
        rw [dropOne_getD]
        simpa using h1 (i + 1) (by omega) (by omega)
      · intro i hi hil
        rw [dropOne_getD]
        simpa using Nat.not_le.mpr (h3 (i + 1) (by omega) (by omega))

/-- `InternalBinarySearch` computes `childIdxSpec` on sorted separators. -/
theorem internalBinarySearch_eq (ks : List Nat) (key : Nat)
    (hs : List.Pairwise (· ≤ ·) (ks.drop 1)) :
    internalBinarySearch ks key = childIdxSpec key ks := by
  unfold internalBinarySearch
  by_cases h1 : ks.length ≤ 1
  · rw [if_pos h1]
    unfold childIdxSpec
    have : ks.drop 1 = [] := by
      cases ks with
      | nil => rfl
      | cons a as => simp at h1; simp [h1]
    rw [this]
    rfl
  · rw [if_neg h1]
    exact internalBSGo_eq ks key hs (ks.length + 1) 1 ((ks.length : Int) - 1) 0
      (by omega) (Nat.le_refl 1) (by omega) rfl (by omega) (by omega) (by omega)

/-- A B+ tree node: a leaf page's sorted (key, value) array, or an internal
page's (key, child) array with the slot-0 key unused. -/
inductive BptNode where
  | leaf (kvs : List (Nat × Nat)) : BptNode
  | internal (entries : List (Nat × BptNode)) : BptNode

/-- Structural induction through the nested entry lists. -/
theorem BptNode.strongInd {P : BptNode → Prop}
    (hleaf : ∀ kvs, P (.leaf kvs))
    (hint : ∀ entries, (∀ e ∈ entries, P e.2) → P (.internal entries)) :
    ∀ t, P t := by
  have key : ∀ n t, sizeOf t ≤ n → P t := by
    intro n
    induction n with
    | zero =>
      intro t ht
      cases t <;> simp at ht
    | succ n ih =>
      intro t ht
      cases t with
      | leaf kvs => exact hleaf kvs
      | internal entries =>
        refine hint entries (fun e he => ih e.2 ?_)
        have h1 := List.sizeOf_lt_of_mem he
        obtain ⟨k, c⟩ := e
        simp at h1 ht ⊢
        omega
  exact fun t => key (sizeOf t) t (Nat.le_refl _)

/-- Embeds the descent of `BPlusTree::GetValue`: route through
`InternalBinarySearch` at internal nodes; at the leaf, return the value at
the `LeafBinarySearch` position when its key matches. -/
def nodeSearch : BptNode → Nat → Option Nat
  | .leaf kvs, key =>
    match kvs.get? (leafBinarySearch (kvs.map Prod.fst) key) with
    | some kv => if kv.1 = key then some kv.2 else none
    | none => none
  | .internal entries, key =>
    match h : entries.get? (internalBinarySearch (entries.map Prod.fst) key) with
    | some e => nodeSearch e.2 key
    | none => none
decreasing_by
  have h1 := List.sizeOf_lt_of_mem (List.get?_mem h)
  obtain ⟨k, c⟩ := e
  simp at h1 ⊢
  omega

/-- All key/value pairs of the subtree, leaves left to right. -/
def toList : BptNode → List (Nat × Nat)
  | .leaf kvs => kvs
  | .internal entries => (entries.attach.map (fun e => toList e.1.2)).flatten
decreasing_by
  have h1 := List.sizeOf_lt_of_mem e.2
  obtain ⟨⟨k, c⟩, hm⟩ := e
  simp at h1 ⊢
  omega

/-- `toList` on an internal node, without the `attach` plumbing. -/
theorem toList_internal (entries : List (Nat × BptNode)) :
    toList (.internal entries) = (entries.map (fun e => toList e.2)).flatten := by
  rw [toList]
  congr 1
  exact List.attach_map_val entries (fun e => toList e.2)

/-- Sorted insertion into an association list (the effect of the leaf-level
shift-and-place). -/
def insKV (key value : Nat) : List (Nat × Nat) → List (Nat × Nat)
  | [] => [(key, value)]
  | kv :: rest =>
    if key ≤ kv.1 then (key, value) :: kv :: rest
    else kv :: insKV key value rest

/-- Removal of the first binding of a key from an association list. -/
def delKV (key : Nat) : List (Nat × Nat) → List (Nat × Nat)
  | [] => []
  | kv :: rest => if kv.1 = key then rest else kv :: delKV key rest

/-- First binding of a key in an association list. -/
def lookupKV (key : Nat) : List (Nat × Nat) → Option Nat
  | [] => none
  | kv :: rest => if kv.1 = key then some kv.2 else lookupKV key rest

/-- Strictly ascending key list (`first < second < ...`). -/
def chainLtB : List Nat → Bool
  | [] => true
  | [_] => true
  | a :: b :: rest => decide (a < b) && chainLtB (b :: rest)

/-- Ascending key list (`first ≤ second ≤ ...`). -/
def chainLeB : List Nat → Bool
  | [] => true
  | [_] => true
  | a :: b :: rest => decide (a ≤ b) && chainLeB (b :: rest)

def lbOk (lo : Option Nat) (k : Nat) : Bool :=
  match lo with
  | none => true
  | some l => decide (l ≤ k)

def ubOk (hi : Option Nat) (k : Nat) : Bool :=
  match hi with
  | none => true
  | some h => decide (k < h)

/-- Non-strict version of `ubOk`, for separator keys (a separator may equal
the upper bound of its node's interval). -/
def ubOkLe (hi : Option Nat) (k : Nat) : Bool :=
  match hi with
  | none => true
  | some h => decide (k ≤ h)

/-- Strict version of `lbOk`, for separator keys (a separator sits strictly
inside its node's interval). -/
def lbOkS (lo : Option Nat) (k : Nat) : Bool :=
  match lo with
  | none => true
  | some l => decide (l < k)

/-- `k` lies in the half-open interval `[lo, hi)` (missing bound = infinite). -/
def bndOk (lo hi : Option Nat) (k : Nat) : Bool :=
  lbOk lo k && ubOk hi k

mutual

/-- Ordering well-formedness of a node within the key interval `[lo, hi)`:
leaf keys strictly ascending and in bounds; internal separators ascending and
in bounds, with each child well-formed in the interval its separators carve
out (child 0 gets `[lo, k₁)`, child `i ≥ 1` gets `[kᵢ, kᵢ₊₁)`, the last child
`[k_last, hi)`). -/
def wfN (lo hi : Option Nat) : BptNode → Bool
  | .leaf kvs =>
    chainLtB (kvs.map Prod.fst) && kvs.all (fun kv => bndOk lo hi kv.1)
  | .internal entries =>
    !entries.isEmpty &&
    chainLtB ((entries.map Prod.fst).drop 1) &&
    ((entries.map Prod.fst).drop 1).all (fun s => lbOkS lo s && ubOk hi s) &&
    wfRow lo hi entries

/-- The per-child interval threading of `wfN` along an entry row. -/
def wfRow (lo hi : Option Nat) : List (Nat × BptNode) → Bool
  | [] => true
  | [e] => wfN lo hi e.2
  | e :: e2 :: rest => wfN lo (some e2.1) e.2 && wfRow (some e2.1) hi (e2 :: rest)

end

def isLeafB : BptNode → Bool
  | .leaf _ => true
  | .internal _ => false

/-- Structural well-formedness: every internal node has at least two entries
and children of one kind (all leaves or all internal nodes), hereditarily —
the shape the source's delete rebalancing relies on (a sibling always exists,
and siblings have the node's own kind). -/
def wfX : BptNode → Bool
  | .leaf _ => true
  | .internal entries =>
    decide (2 ≤ entries.length) &&
    entries.all (fun e => isLeafB e.2 == isLeafB (entries.headD (0, .leaf [])).2) &&
    entries.attach.all (fun e => wfX e.1.2)
decreasing_by
  have h1 := List.sizeOf_lt_of_mem e.2
  obtain ⟨⟨k, c⟩, hm⟩ := e
  simp at h1 ⊢
  omega

/-- Result of inserting into a subtree: duplicate key refused, node grown in
place, or node split into (left, separator, right). -/
inductive InsResult where
  | dup : InsResult
  | one : BptNode → InsResult
  | split : BptNode → Nat → BptNode → InsResult

/-- `SetValueAt(i, child)` on an entry row. -/
def setChildAt (entries : List (Nat × BptNode)) (i : Nat) (c : BptNode) :
    List (Nat × BptNode) :=
  match entries.get? i with
  | some e => entries.set i (e.1, c)
  | none => entries

/-- `SetKeyAt(i, k)` on an entry row. -/
def setKeyAt (entries : List (Nat × BptNode)) (i : Nat) (k : Nat) :
    List (Nat × BptNode) :=
  match entries.get? i with
  | some e => entries.set i (k, e.2)
  | none => entries

/-- The size check and split of `BPlusTree::Insert` for a leaf page. -/
def insLeafGrow (leafMax : Nat) (kvs : List (Nat × Nat)) : InsResult :=
  if kvs.length > leafMax then
    .split (.leaf (kvs.take (kvs.length / 2)))
      ((kvs.getD (kvs.length / 2) (0, 0)).1)
      (.leaf (kvs.drop (kvs.length / 2)))
  else .one (.leaf kvs)

/-- The size check and split of `BPlusTree::Insert` for an internal page. -/
def insInternalGrow (internalMax : Nat) (entries : List (Nat × BptNode)) : InsResult :=
  if entries.length > internalMax then
    .split (.internal (entries.take (entries.length / 2)))
      ((entries.getD (entries.length / 2) (0, .leaf [])).1)
      (.internal (entries.drop (entries.length / 2)))
  else .one (.internal entries)

/-- Embeds the descent, leaf placement and split loop of `BPlusTree::Insert`
on one subtree.  At the leaf: refuse a duplicate at the `LeafBinarySearch`
position, else shift and place; a node of size `m > max_size` splits, the
left page keeping the first `m / 2` entries, the right page taking the rest,
with the key at index `m / 2` (the first key of the right half) as the
separator `mid_key`.  At an internal node: descend at the
`InternalBinarySearch` slot; on a child split, re-search with the separator
(`pos' = InternalBinarySearch(sep) + 1`), set slot `pos' - 1` to the left
half and insert `(sep, right)` at `pos'`, then split likewise if oversized. -/
def insertNode (leafMax internalMax : Nat) : BptNode → Nat → Nat → InsResult
  | .leaf kvs, key, value =>
    if (kvs.get? (leafBinarySearch (kvs.map Prod.fst) key)).any (fun kv => kv.1 = key) then
      .dup
    else
      insLeafGrow leafMax (kvs.insertIdx (leafBinarySearch (kvs.map Prod.fst) key) (key, value))
  | .internal entries, key, value =>
    match h : entries.get? (internalBinarySearch (entries.map Prod.fst) key) with
    | none => .one (.internal entries)
    | some e =>
      match insertNode leafMax internalMax e.2 key value with
      | .dup => .dup
      | .one c =>
        .one (.internal (setChildAt entries (internalBinarySearch (entries.map Prod.fst) key) c))
      | .split l sep r =>
        insInternalGrow internalMax
          ((setChildAt entries (internalBinarySearch (entries.map Prod.fst) sep) l).insertIdx
            (internalBinarySearch (entries.map Prod.fst) sep + 1) (sep, r))
decreasing_by
  have h1 := List.sizeOf_lt_of_mem (List.get?_mem h)
  obtain ⟨k, c⟩ := e
  simp at h1 ⊢
  omega

def leafKvsOf : BptNode → List (Nat × Nat)
  | .leaf kvs => kvs
  | .internal _ => []

def entriesOf : BptNode → List (Nat × BptNode)
  | .leaf _ => []
  | .internal es => es

def nodeSize : BptNode → Nat
  | .leaf kvs => kvs.length
  | .internal entries => entries.length

/-- Modelled from the spec: `BPlusTreePage::GetMinSize` (its source file is
not among the provided sources; the spec bounds sizes by `[min, max]` with
`min` half of the node's own max, BusTub's convention). -/
def nodeMin (leafMax internalMax : Nat) : BptNode → Nat
  | .leaf _ => leafMax / 2
  | .internal _ => internalMax / 2

/-- Embeds the leaf-underflow handling of `BPlusTree::Remove` at the parent
`entries` whose child in slot `i` is the underflowing leaf `cur`: try to
borrow the left sibling's last pair (rotating its key through the parent
separator), then the right sibling's first pair, else merge into the left
(or, for slot 0, absorb the right sibling) — merging drops one parent entry
and keeps the underflow chain alive. -/
def fixLeafUnderflow (leafMin : Nat) (entries : List (Nat × BptNode)) (i : Nat)
    (cur : List (Nat × Nat)) : List (Nat × BptNode) × Bool :=
  let lbro := leafKvsOf (entries.getD (i - 1) (0, .leaf [])).2
  let rbro := leafKvsOf (entries.getD (i + 1) (0, .leaf [])).2
  if i ≠ 0 ∧ lbro.length > leafMin then
    (setKeyAt
      (setChildAt (setChildAt entries (i - 1) (.leaf lbro.dropLast)) i
        (.leaf (lbro.getD (lbro.length - 1) (0, 0) :: cur)))
      i (lbro.getD (lbro.length - 1) (0, 0)).1, false)
  else if i + 1 ≠ entries.length ∧ rbro.length > leafMin then
    (setKeyAt
      (setChildAt (setChildAt entries i (.leaf (cur ++ [rbro.getD 0 (0, 0)]))) (i + 1)
        (.leaf (rbro.drop 1)))
      (i + 1) (rbro.getD 1 (0, 0)).1, false)
  else if i ≠ 0 then
    ((setChildAt entries (i - 1) (.leaf (lbro ++ cur))).eraseIdx i, true)
  else
    match entries with
    | _ :: e1 :: rest => ((e1.1, .leaf (cur ++ leafKvsOf e1.2)) :: rest, true)
    | es => (es, true)

/-- Embeds the internal-underflow handling of `BPlusTree::Remove`, with the
parent separator pulled down on merges and rotated on borrows. -/
def fixInternalUnderflow (internalMin : Nat) (entries : List (Nat × BptNode)) (i : Nat)
    (cur : List (Nat × BptNode)) : List (Nat × BptNode) × Bool :=
  let lbro := entriesOf (entries.getD (i - 1) (0, .leaf [])).2
  let rbro := entriesOf (entries.getD (i + 1) (0, .leaf [])).2
  let sepI := (entries.getD i (0, .leaf [])).1
  if i ≠ 0 ∧ lbro.length > internalMin then
    (setKeyAt
      (setChildAt (setChildAt entries (i - 1) (.internal lbro.dropLast)) i
        (.internal (lbro.getD (lbro.length - 1) (0, .leaf []) ::
          (sepI, (cur.getD 0 (0, .leaf [])).2) :: cur.drop 1)))
      i (lbro.getD (lbro.length - 1) (0, .leaf [])).1, false)
  else if i + 1 ≠ entries.length ∧ rbro.length > internalMin then
    (setKeyAt
      (setChildAt
        (setChildAt entries i
          (.internal (cur ++ [((entries.getD (i + 1) (0, .leaf [])).1,
            (rbro.getD 0 (0, .leaf [])).2)])))
        (i + 1) (.internal (rbro.drop 1)))
      (i + 1) (rbro.getD 1 (0, .leaf [])).1, false)
  else if i ≠ 0 then
    ((setChildAt entries (i - 1)
      (.internal (lbro ++ (sepI, (cur.getD 0 (0, .leaf [])).2) :: cur.drop 1))).eraseIdx i,
     true)
  else
    match entries with
    | _ :: e1 :: rest =>
      ((e1.1, .internal (cur ++ (e1.1, ((entriesOf e1.2).getD 0 (0, .leaf [])).2) ::
        (entriesOf e1.2).drop 1)) :: rest, true)
    | es => (es, true)

/-- Embeds the descent, leaf removal and rebalance loop of
`BPlusTree::Remove` on one subtree.  Returns `none` when the key is absent
(the source returns early, touching nothing); otherwise the rebuilt node and
whether the underflow-check chain is still alive above it (`break` on a
non-underflowing node or after a borrow, continue through merges). -/
def removeNode (leafMax internalMax : Nat) : BptNode → Nat → Option (BptNode × Bool)
  | .leaf kvs, key =>
    if (kvs.get? (leafBinarySearch (kvs.map Prod.fst) key)).any (fun kv => kv.1 = key) then
      some (.leaf (kvs.eraseIdx (leafBinarySearch (kvs.map Prod.fst) key)), true)
    else none
  | .internal entries, key =>
    match h : entries.get? (internalBinarySearch (entries.map Prod.fst) key) with
    | none => none
    | some e =>
      match removeNode leafMax internalMax e.2 key with
      | none => none
      | some (c, chain) =>
        if chain && decide (nodeSize c < nodeMin leafMax internalMax c) then
          match c with
          | .leaf curKvs =>
            match fixLeafUnderflow (leafMax / 2)
                (setChildAt entries (internalBinarySearch (entries.map Prod.fst) key)
                  (.leaf curKvs))
                (internalBinarySearch (entries.map Prod.fst) key) curKvs with
            | (es, cont) => some (.internal es, cont)
          | .internal curEs =>
            match fixInternalUnderflow (internalMax / 2)
                (setChildAt entries (internalBinarySearch (entries.map Prod.fst) key)
                  (.internal curEs))
                (internalBinarySearch (entries.map Prod.fst) key) curEs with
            | (es, cont) => some (.internal es, cont)
        else
          some (.internal
            (setChildAt entries (internalBinarySearch (entries.map Prod.fst) key) c), false)
decreasing_by
  have h1 := List.sizeOf_lt_of_mem (List.get?_mem h)
  obtain ⟨k, c⟩ := e
  simp at h1 ⊢
  omega

/-- A B+ tree: the optional root (the header page's root id) and the two
size parameters. -/
structure BPlusTree where
  root : Option BptNode
  leafMaxSize : Nat
  internalMaxSize : Nat

/-- Embeds `BPlusTree::GetValue` at the tree level (empty tree: no value). -/
def BPlusTree.getValueT (t : BPlusTree) (key : Nat) : Option Nat :=
  match t.root with
  | none => none
  | some r => nodeSearch r key

/-- Embeds `BPlusTree::Insert` at the tree level: an empty tree first gets an
empty leaf root; a root split builds a new internal root over (left,
separator, right) with the slot-0 key unused.  Returns the tree and the
inserted/refused flag. -/
def BPlusTree.insertT (t : BPlusTree) (key value : Nat) : BPlusTree × Bool :=
  match insertNode t.leafMaxSize t.internalMaxSize (t.root.getD (.leaf [])) key value with
  | .dup => (t, false)
  | .one n => ({ t with root := some n }, true)
  | .split l sep r => ({ t with root := some (.internal [(0, l), (sep, r)]) }, true)

/-- Embeds `BPlusTree::Remove` at the tree level: empty tree and absent key
are no-ops; an internal root that underflowed down to a single child is
replaced by that child. -/
def BPlusTree.removeT (t : BPlusTree) (key : Nat) : BPlusTree :=
  match t.root with
  | none => t
  | some r =>
    match removeNode t.leafMaxSize t.internalMaxSize r key with
    | none => t
    | some (r1, chain) =>
      if chain && decide (nodeSize r1 < nodeMin t.leafMaxSize t.internalMaxSize r1) then
        match r1 with
        | .internal entries =>
          if entries.length = 1 then
            { t with root := some (entries.getD 0 (0, .leaf [])).2 }
          else { t with root := some r1 }
        | .leaf _ => { t with root := some r1 }
      else { t with root := some r1 }

/-- Well-formed tree: ordering and structural invariants of the root. -/
def BPlusTree.wfT (t : BPlusTree) : Bool :=
  match t.root with
  | none => true
  | some r => wfN none none r && wfX r

/-! ### List-level lemmas for the B+ tree proofs -/

theorem chainLtB_pairwise : ∀ l : List Nat, chainLtB l = true ↔ List.Pairwise (· < ·) l
  | [] => by simp [chainLtB]
  | [a] => by simp [chainLtB]
  | a :: b :: l => by
    have ih := chainLtB_pairwise (b :: l)
    rw [show chainLtB (a :: b :: l) = (decide (a < b) && chainLtB (b :: l)) from rfl,
      Bool.and_eq_true, ih]
    constructor
    · rintro ⟨hab, hp⟩
      have hab' : a < b := of_decide_eq_true hab
      refine List.Pairwise.cons (fun x hx => ?_) hp
      rcases List.mem_cons.mp hx with rfl | hx
      · exact hab'
      · exact Nat.lt_trans hab' ((List.pairwise_cons.mp hp).1 x hx)
    · intro hp
      obtain ⟨h1, h2⟩ := List.pairwise_cons.mp hp
      exact ⟨decide_eq_true (h1 b (by simp)), h2⟩

theorem chainLeB_pairwise : ∀ l : List Nat, chainLeB l = true ↔ List.Pairwise (· ≤ ·) l
  | [] => by simp [chainLeB]
  | [a] => by simp [chainLeB]
  | a :: b :: l => by
    have ih := chainLeB_pairwise (b :: l)
    rw [show chainLeB (a :: b :: l) = (decide (a ≤ b) && chainLeB (b :: l)) from rfl,
      Bool.and_eq_true, ih]
    constructor
    · rintro ⟨hab, hp⟩
      have hab' : a ≤ b := of_decide_eq_true hab
      refine List.Pairwise.cons (fun x hx => ?_) hp
      rcases List.mem_cons.mp hx with rfl | hx
      · exact hab'
      · exact Nat.le_trans hab' ((List.pairwise_cons.mp hp).1 x hx)
    · intro hp
      obtain ⟨h1, h2⟩ := List.pairwise_cons.mp hp
      exact ⟨decide_eq_true (h1 b (by simp)), h2⟩

theorem lookupKV_eq_none_iff (key : Nat) :
    ∀ l : List (Nat × Nat), lookupKV key l = none ↔ ∀ kv ∈ l, kv.1 ≠ key
  | [] => by simp [lookupKV]
  | kv :: rest => by
    rw [lookupKV]
    by_cases h : kv.1 = key
    · simp [h]
    · simp [h, lookupKV_eq_none_iff key rest]

theorem lookupKV_append_left_none (key : Nat) :
    ∀ A B : List (Nat × Nat), (∀ a ∈ A, a.1 ≠ key) →
      lookupKV key (A ++ B) = lookupKV key B
  | [], B, _ => rfl
  | a :: A, B, h => by
    rw [List.cons_append, lookupKV, if_neg (h a (by simp))]
    exact lookupKV_append_left_none key A B (fun x hx => h x (by simp [hx]))

theorem lookupKV_append_right_none (key : Nat) :
    ∀ A B : List (Nat × Nat), (∀ b ∈ B, b.1 ≠ key) →
      lookupKV key (A ++ B) = lookupKV key A
  | [], B, h => by
    rw [List.nil_append, lookupKV]
    exact (lookupKV_eq_none_iff key B).mpr h
  | a :: A, B, h => by
    rw [List.cons_append, lookupKV, lookupKV]
    by_cases ha : a.1 = key
    · simp [ha]
    · simp only [ha, if_false]
      exact lookupKV_append_right_none key A B h

theorem lookupKV_insKV_self (key v : Nat) :
    ∀ l : List (Nat × Nat), lookupKV key (insKV key v l) = some v
  | [] => by simp [insKV, lookupKV]
  | kv :: rest => by
    rw [insKV]
    by_cases h : key ≤ kv.1
    · simp [h, lookupKV]
    · have : kv.1 ≠ key := by omega
      rw [if_neg h, lookupKV, if_neg this]
      exact lookupKV_insKV_self key v rest

theorem mem_insKV (key v : Nat) :
    ∀ l : List (Nat × Nat), ∀ x, x ∈ insKV key v l ↔ x = (key, v) ∨ x ∈ l
  | [], x => by simp [insKV]
  | kv :: rest, x => by
    rw [insKV]
    by_cases h : key ≤ kv.1
    · simp [h]
    · simp only [h, if_false, List.mem_cons, mem_insKV key v rest]
      tauto

theorem map_fst_insKV (key v : Nat) :
    ∀ l : List (Nat × Nat),
      (insKV key v l).map Prod.fst =
        (l.map Prod.fst).takeWhile (fun a => decide (a < key)) ++
          key :: (l.map Prod.fst).dropWhile (fun a => decide (a < key))
  | [] => by simp [insKV]
  | kv :: rest => by
    rw [insKV]
    by_cases h : key ≤ kv.1
    · have : ¬ (kv.1 < key) := by omega
      simp [h, List.takeWhile_cons, List.dropWhile_cons, this]
    · have : kv.1 < key := by omega
      simp [h, List.takeWhile_cons, List.dropWhile_cons, this, map_fst_insKV key v rest]

theorem insKV_pairwise (key v : Nat) (l : List (Nat × Nat))
    (hp : List.Pairwise (· < ·) (l.map Prod.fst))
    (hk : key ∉ l.map Prod.fst) :
    List.Pairwise (· < ·) ((insKV key v l).map Prod.fst) := by
  induction l with
  | nil => simp [insKV]
  | cons kv rest ih =>
    simp only [List.map_cons, List.pairwise_cons] at hp
    simp only [List.map_cons, List.mem_cons] at hk
    push_neg at hk
    rw [insKV]
    by_cases h : key ≤ kv.1
    · have hlt : key < kv.1 := Nat.lt_of_le_of_ne h (hk.1)
      simp only [if_pos h, List.map_cons, List.pairwise_cons]
      refine ⟨fun x hx => ?_, hp⟩
      rcases List.mem_cons.mp hx with rfl | hx
      · exact hlt
      · exact Nat.lt_trans hlt (hp.1 x hx)
    · simp only [if_neg h, List.map_cons, List.pairwise_cons]
      refine ⟨fun x hx => ?_, ih hp.2 hk.2⟩
      have := (List.mem_map.mp hx)
      obtain ⟨p, hpmem, rfl⟩ := this
      rcases (mem_insKV key v rest p).mp hpmem with rfl | hpm
      · omega
      · exact hp.1 p.1 (List.mem_map_of_mem Prod.fst hpm)

theorem insKV_bnd (key v : Nat) (lo hi : Option Nat) (l : List (Nat × Nat))
    (hb : ∀ kv ∈ l, bndOk lo hi kv.1 = true) (hkey : bndOk lo hi key = true) :
    ∀ kv ∈ insKV key v l, bndOk lo hi kv.1 = true := by
  intro kv hkv
  rcases (mem_insKV key v l kv).mp hkv with rfl | h
  · exact hkey
  · exact hb kv h

theorem insertIdx_firstGe (key v : Nat) :
    ∀ l : List (Nat × Nat),
      l.insertIdx (firstGeIdx key (l.map Prod.fst)) (key, v) = insKV key v l
  | [] => rfl
  | kv :: rest => by
    simp only [List.map_cons, firstGeIdx, insKV]
    by_cases h : key ≤ kv.1
    · simp [h]
    · simp [h, List.insertIdx_succ_cons, insertIdx_firstGe key v rest]

theorem eraseIdx_firstGe (key : Nat) :
    ∀ l : List (Nat × Nat),
      (l.get? (firstGeIdx key (l.map Prod.fst))).any (fun kv => kv.1 = key) = true →
      l.eraseIdx (firstGeIdx key (l.map Prod.fst)) = delKV key l
  | [], h => by simp at h
  | kv :: rest, h => by
    simp only [List.map_cons, firstGeIdx] at h ⊢
    by_cases hle : key ≤ kv.1
    · simp only [if_pos hle, List.get?_cons_zero, Option.any_some] at h
      have : kv.1 = key := by simpa using h
      simp [hle, delKV, this, List.eraseIdx]
    · simp only [if_neg hle, List.get?_cons_succ] at h
      have hne : kv.1 ≠ key := by omega
      simp [hle, delKV, hne, List.eraseIdx, eraseIdx_firstGe key rest h]

/-- The leaf probe at the `firstGeIdx` position computes `lookupKV` on a
sorted leaf. -/
theorem get_firstGe_lookup (key : Nat) :
    ∀ l : List (Nat × Nat), List.Pairwise (· ≤ ·) (l.map Prod.fst) →
      (match l.get? (firstGeIdx key (l.map Prod.fst)) with
       | some kv => if kv.1 = key then some kv.2 else none
       | none => none) = lookupKV key l
  | [], _ => rfl
  | kv :: rest, hp => by
    simp only [List.map_cons, List.pairwise_cons] at hp
    simp only [List.map_cons, firstGeIdx, lookupKV]
    by_cases h : key ≤ kv.1
    · simp only [if_pos h, List.get?_cons_zero]
      by_cases he : kv.1 = key
      · simp [he]
      · have hlt : key < kv.1 := Nat.lt_of_le_of_ne h (fun e => he e.symm)
        simp only [if_neg he, if_neg (fun e : kv.1 = key => he e)]
        refine ((lookupKV_eq_none_iff key rest).mpr (fun x hx => ?_)).symm
        have : kv.1 ≤ x.1 := hp.1 x.1 (List.mem_map_of_mem Prod.fst hx)
        omega
    · have hne : kv.1 ≠ key := by omega
      simp only [if_neg h, List.get?_cons_succ, if_neg hne]
      exact get_firstGe_lookup key rest hp.2

/-- The duplicate test of `Insert` (and presence test of `Remove`) at the
`firstGeIdx` position decides `lookupKV` presence on a sorted leaf. -/
theorem anyFound_iff_lookup (key : Nat) (l : List (Nat × Nat))
    (hp : List.Pairwise (· ≤ ·) (l.map Prod.fst)) :
    (l.get? (firstGeIdx key (l.map Prod.fst))).any (fun kv => kv.1 = key) = true ↔
      lookupKV key l ≠ none := by
  have h := get_firstGe_lookup key l hp
  rcases hg : l.get? (firstGeIdx key (l.map Prod.fst)) with _ | kv
  · rw [hg] at h
    simp only [hg, Option.any_none]
    simp [← h]
  · rw [hg] at h
    simp only [hg, Option.any_some]
    by_cases he : kv.1 = key
    · simp only [if_pos he] at h
      simp [he, ← h]
    · simp only [if_neg he] at h
      simp [he, ← h]

theorem mem_delKV (key : Nat) :
    ∀ l : List (Nat × Nat), ∀ x, x ∈ delKV key l → x ∈ l
  | [], x, h => by simp [delKV] at h
  | kv :: rest, x, h => by
    rw [delKV] at h
    by_cases he : kv.1 = key
    · rw [if_pos he] at h
      exact List.mem_cons_of_mem kv h
    · rw [if_neg he] at h
      rcases List.mem_cons.mp h with rfl | h
      · exact List.mem_cons_self x rest
      · exact List.mem_cons_of_mem kv (mem_delKV key rest x h)

theorem delKV_sublist (key : Nat) :
    ∀ l : List (Nat × Nat), (delKV key l).Sublist l
  | [] => List.Sublist.refl []
  | kv :: rest => by
    rw [delKV]
    by_cases he : kv.1 = key
    · rw [if_pos he]
      exact List.sublist_cons_self kv rest
    · rw [if_neg he]
      exact List.Sublist.cons₂ kv (delKV_sublist key rest)

theorem delKV_pairwise (key : Nat) (l : List (Nat × Nat))
    (hp : List.Pairwise (· < ·) (l.map Prod.fst)) :
    List.Pairwise (· < ·) ((delKV key l).map Prod.fst) :=
  hp.sublist (List.Sublist.map Prod.fst (delKV_sublist key l))

theorem not_mem_delKV (key : Nat) :
    ∀ l : List (Nat × Nat), List.Pairwise (· < ·) (l.map Prod.fst) →
      key ∉ (delKV key l).map Prod.fst
  | [], _ => by simp [delKV]
  | kv :: rest, hp => by
    simp only [List.map_cons, List.pairwise_cons] at hp
    rw [delKV]
    by_cases he : kv.1 = key
    · rw [if_pos he]
      intro hmem
      obtain ⟨p, hpmem, hpk⟩ := List.mem_map.mp hmem
      have := hp.1 p.1 (List.mem_map_of_mem Prod.fst hpmem)
      omega
    · rw [if_neg he]
      simp only [List.map_cons, List.mem_cons]
      rintro (h | h)
      · exact he h.symm
      · exact not_mem_delKV key rest hp.2 h

theorem delKV_no_match (key : Nat) :
    ∀ l : List (Nat × Nat), (∀ kv ∈ l, kv.1 ≠ key) → delKV key l = l
  | [], _ => rfl
  | kv :: rest, h => by
    rw [delKV, if_neg (h kv (by simp))]
    rw [delKV_no_match key rest (fun x hx => h x (by simp [hx]))]

theorem delKV_append_left_none (key : Nat) :
    ∀ A B : List (Nat × Nat), (∀ a ∈ A, a.1 ≠ key) →
      delKV key (A ++ B) = A ++ delKV key B
  | [], B, _ => rfl
  | a :: A, B, h => by
    rw [List.cons_append, delKV, if_neg (h a (by simp)), List.cons_append]
    rw [delKV_append_left_none key A B (fun x hx => h x (by simp [hx]))]

theorem delKV_append_right_none (key : Nat) :
    ∀ A B : List (Nat × Nat), (∀ b ∈ B, b.1 ≠ key) →
      delKV key (A ++ B) = delKV key A ++ B
  | [], B, h => by
    simpa [delKV] using delKV_no_match key B h
  | a :: A, B, h => by
    rw [List.cons_append, delKV, delKV]
    by_cases ha : a.1 = key
    · simp [ha]
    · simp only [ha, if_false, List.cons_append, List.cons.injEq, true_and]
      exact delKV_append_right_none key A B h

theorem insKV_append_mid (key v : Nat) :
    ∀ A B C : List (Nat × Nat), (∀ a ∈ A, a.1 < key) → (∀ c ∈ C, key < c.1) →
      insKV key v (A ++ B ++ C) = A ++ insKV key v B ++ C
  | [], B, C, _, hC => by
    rw [List.nil_append, List.nil_append]
    induction B with
    | nil =>
      simp only [List.nil_append]
      cases C with
      | nil => rfl
      | cons c cs =>
        have := Nat.le_of_lt (hC c (by simp))
        simp [insKV, this]
    | cons b bs ih =>
      rw [List.cons_append, insKV, insKV]
      by_cases h : key ≤ b.1
      · simp [h]
      · simp only [h, if_false, List.cons_append, List.cons.injEq, true_and]
        exact ih
  | a :: A, B, C, hA, hC => by
    have ha : ¬ (key ≤ a.1) := by
      have := hA a (by simp)
      omega
    rw [List.cons_append, List.cons_append, insKV, if_neg ha, List.cons_append,
      List.cons_append]
    rw [insKV_append_mid key v A B C (fun x hx => hA x (by simp [hx])) hC]

/-! ### Well-formedness unfolding and interval lemmas -/

theorem wfN_leaf (lo hi : Option Nat) (kvs : List (Nat × Nat)) :
    wfN lo hi (.leaf kvs) =
      (chainLtB (kvs.map Prod.fst) && kvs.all (fun kv => bndOk lo hi kv.1)) := by
  rw [wfN]

theorem wfN_internal (lo hi : Option Nat) (entries : List (Nat × BptNode)) :
    wfN lo hi (.internal entries) =
      (!entries.isEmpty &&
       chainLtB ((entries.map Prod.fst).drop 1) &&
       ((entries.map Prod.fst).drop 1).all (fun s => lbOkS lo s && ubOk hi s) &&
       wfRow lo hi entries) := by
  rw [wfN]

theorem wfRow_single (lo hi : Option Nat) (e : Nat × BptNode) :
    wfRow lo hi [e] = wfN lo hi e.2 := by
  rw [wfRow]

theorem wfRow_cons2 (lo hi : Option Nat) (e e2 : Nat × BptNode) (rest : List (Nat × BptNode)) :
    wfRow lo hi (e :: e2 :: rest) =
      (wfN lo (some e2.1) e.2 && wfRow (some e2.1) hi (e2 :: rest)) := by
  rw [wfRow]

/-- The concatenated key/value lists of an entry row's children. -/
def rowList (entries : List (Nat × BptNode)) : List (Nat × Nat) :=
  (entries.map (fun e => toList e.2)).flatten

theorem toList_internal' (entries : List (Nat × BptNode)) :
    toList (.internal entries) = rowList entries :=
  toList_internal entries

theorem rowList_cons (e : Nat × BptNode) (rest : List (Nat × BptNode)) :
    rowList (e :: rest) = toList e.2 ++ rowList rest := by
  simp [rowList]

theorem rowList_append (A B : List (Nat × BptNode)) :
    rowList (A ++ B) = rowList A ++ rowList B := by
  simp [rowList]

theorem lbOk_of_le (lo : Option Nat) (a k : Nat) (h1 : lbOk lo a = true) (h2 : a ≤ k) :
    lbOk lo k = true := by
  cases lo <;> simp [lbOk] at * <;> omega

theorem ubOk_of_lt_ubOkLe (hi : Option Nat) (a k : Nat) (h1 : k < a) (h2 : ubOkLe hi a = true) :
    ubOk hi k = true := by
  cases hi <;> simp [ubOk, ubOkLe] at * <;> omega

theorem ubOk_of_le_ubOk (hi : Option Nat) (a k : Nat) (h1 : k ≤ a) (h2 : ubOk hi a = true) :
    ubOk hi k = true := by
  cases hi <;> simp [ubOk] at * <;> omega

theorem ubOkLe_of_ubOk (hi : Option Nat) (k : Nat) (h : ubOk hi k = true) :
    ubOkLe hi k = true := by
  cases hi <;> simp [ubOk, ubOkLe] at * <;> omega

theorem ubOkLe_of_le (hi : Option Nat) (a k : Nat) (h1 : k ≤ a) (h2 : ubOkLe hi a = true) :
    ubOkLe hi k = true := by
  cases hi <;> simp [ubOkLe] at * <;> omega

theorem lbOk_of_lbOkS (lo : Option Nat) (k : Nat) (h : lbOkS lo k = true) :
    lbOk lo k = true := by
  cases lo <;> simp [lbOk, lbOkS] at * <;> omega

theorem lbOkS_of_lt_lbOk (lo : Option Nat) (a k : Nat) (h1 : lbOk lo a = true)
    (h2 : a < k) : lbOkS lo k = true := by
  cases lo <;> simp [lbOk, lbOkS] at * <;> omega

theorem lbOkS_of_le (lo : Option Nat) (a k : Nat) (h1 : lbOkS lo a = true)
    (h2 : a ≤ k) : lbOkS lo k = true := by
  cases lo <;> simp [lbOkS] at * <;> omega

theorem bndOk_split (lo hi : Option Nat) (k : Nat) :
    bndOk lo hi k = true ↔ (lbOk lo k = true ∧ ubOk hi k = true) := by
  simp [bndOk]

/-- Keys of a row's children lie in the row's interval (given per-child
bound facts, separator sortedness and separator bounds). -/
theorem rowList_bnd (key0 : Unit) :
    ∀ (entries : List (Nat × BptNode)) (lo hi : Option Nat),
      (∀ e ∈ entries, ∀ lo' hi' : Option Nat, wfN lo' hi' e.2 = true →
        ∀ kv ∈ toList e.2, bndOk lo' hi' kv.1 = true) →
      wfRow lo hi entries = true →
      List.Pairwise (· ≤ ·) ((entries.map Prod.fst).drop 1) →
      (∀ s ∈ (entries.map Prod.fst).drop 1, lbOk lo s = true ∧ ubOkLe hi s = true) →
      ∀ kv ∈ rowList entries, bndOk lo hi kv.1 = true
  | [], lo, hi, _, _, _, _ => by simp [rowList]
  | [e], lo, hi, hch, hrow, _, _ => by
    rw [wfRow_single] at hrow
    intro kv hkv
    rw [rowList_cons] at hkv
    simp only [rowList, List.map_nil, List.flatten_nil, List.append_nil] at hkv
    exact hch e (by simp) lo hi hrow kv hkv
  | e :: e2 :: rest, lo, hi, hch, hrow, hss, hsb => by
    rw [wfRow_cons2, Bool.and_eq_true] at hrow
    obtain ⟨hwf1, hrow2⟩ := hrow
    simp only [List.map_cons, List.drop_succ_cons, List.drop_zero] at hss hsb
    have hsb2 : e2.1 ∈ (e2.1 :: rest.map Prod.fst) := by simp
    have he2 := hsb e2.1 hsb2
    intro kv hkv
    rw [rowList_cons] at hkv
    rcases List.mem_append.mp hkv with hkv | hkv
    · have := hch e (by simp) lo (some e2.1) hwf1 kv hkv
      rw [bndOk_split] at this ⊢
      exact ⟨this.1, ubOk_of_lt_ubOkLe hi e2.1 kv.1 (by simpa [ubOk] using this.2) he2.2⟩
    · have hrec := rowList_bnd () (e2 :: rest) (some e2.1) hi
        (fun x hx => hch x (by simp [hx]))
        hrow2
        (by
          simp only [List.map_cons, List.drop_succ_cons, List.drop_zero]
          exact (List.pairwise_cons.mp hss).2)
        (by
          simp only [List.map_cons, List.drop_succ_cons, List.drop_zero]
          intro s hsmem
          have hle : e2.1 ≤ s := (List.pairwise_cons.mp hss).1 s hsmem
          refine ⟨by simpa [lbOk] using hle, (hsb s (by simp [hsmem])).2⟩)
        kv hkv
      rw [bndOk_split] at hrec ⊢
      refine ⟨lbOk_of_le lo e2.1 kv.1 he2.1 (by simpa [lbOk] using hrec.1), hrec.2⟩

theorem wfRow_nil (lo hi : Option Nat) : wfRow lo hi [] = true := by
  rw [wfRow]

/-- Propositional form of leaf well-formedness. -/
theorem wfN_leaf_iff (lo hi : Option Nat) (kvs : List (Nat × Nat)) :
    wfN lo hi (.leaf kvs) = true ↔
      (List.Pairwise (· < ·) (kvs.map Prod.fst) ∧
       ∀ kv ∈ kvs, bndOk lo hi kv.1 = true) := by
  rw [wfN_leaf, Bool.and_eq_true, chainLtB_pairwise, List.all_eq_true]

/-- Propositional form of internal well-formedness. -/
theorem wfN_internal_iff (lo hi : Option Nat) (entries : List (Nat × BptNode)) :
    wfN lo hi (.internal entries) = true ↔
      (entries ≠ [] ∧
       List.Pairwise (· < ·) ((entries.map Prod.fst).drop 1) ∧
       (∀ s ∈ (entries.map Prod.fst).drop 1, lbOkS lo s = true ∧ ubOk hi s = true) ∧
       wfRow lo hi entries = true) := by
  rw [wfN_internal]
  have hne : (!entries.isEmpty) = true ↔ entries ≠ [] := by
    cases entries <;> simp
  simp only [Bool.and_eq_true, chainLtB_pairwise, List.all_eq_true, Bool.and_eq_true,
    and_assoc, hne]

theorem wfX_leaf (kvs : List (Nat × Nat)) : wfX (.leaf kvs) = true := by
  rw [wfX]

/-- Propositional form of structural well-formedness at an internal node. -/
theorem wfX_internal_iff (entries : List (Nat × BptNode)) :
    wfX (.internal entries) = true ↔
      (2 ≤ entries.length ∧
       (∀ e ∈ entries, isLeafB e.2 = isLeafB (entries.headD (0, .leaf [])).2) ∧
       (∀ e ∈ entries, wfX e.2 = true)) := by
  rw [wfX]
  simp only [Bool.and_eq_true, List.all_eq_true, decide_eq_true_eq, beq_iff_eq,
    List.mem_attach, true_implies, Subtype.forall, and_assoc]

/-- The head entry's key plays no role in the row invariant. -/
theorem wfRow_headKey (lo hi : Option Nat) (k k' : Nat) (c : BptNode)
    (rest : List (Nat × BptNode)) :
    wfRow lo hi ((k, c) :: rest) = wfRow lo hi ((k', c) :: rest) := by
  cases rest with
  | nil => rw [wfRow_single, wfRow_single]
  | cons e2 r => rw [wfRow_cons2, wfRow_cons2]

/-- The slot-0 key of an internal node plays no role in its ordering
invariant. -/
theorem wfN_int_headKey (lo hi : Option Nat) (k k' : Nat) (c : BptNode)
    (rest : List (Nat × BptNode)) :
    wfN lo hi (.internal ((k, c) :: rest)) = wfN lo hi (.internal ((k', c) :: rest)) := by
  rw [wfN_internal, wfN_internal]
  simp only [List.map_cons, List.drop_succ_cons, List.isEmpty_cons]
  rw [wfRow_headKey lo hi k k' c rest]

/-- The row invariant splits at any interior entry. -/
theorem wfRow_append (hi : Option Nat) (bk : Nat) (bc : BptNode)
    (B : List (Nat × BptNode)) :
    ∀ (A : List (Nat × BptNode)) (lo : Option Nat), A ≠ [] →
      wfRow lo hi (A ++ (bk, bc) :: B) =
        (wfRow lo (some bk) A && wfRow (some bk) hi ((bk, bc) :: B))
  | [], _, h => absurd rfl h
  | [e], lo, _ => by
    rw [List.cons_append, List.nil_append, wfRow_cons2, wfRow_single]
  | e :: e2 :: A', lo, _ => by
    rw [List.cons_append, List.cons_append, wfRow_cons2, ← List.cons_append,
      wfRow_append hi bk bc B (e2 :: A') (some e2.1) (by simp),
      wfRow_cons2 lo (some bk) e e2 A', Bool.and_assoc]

/-- The key of a row segment's first entry. -/
def segKey (seg : List (Nat × BptNode)) : Nat :=
  (seg.headD (0, .leaf [])).1

/-- Lower bound of a row segment preceded by `A` in a row with lower bound
`lo`. -/
def rowLo (lo : Option Nat) (A : List (Nat × BptNode)) (k : Nat) : Option Nat :=
  if A.isEmpty then lo else some k

/-- Upper bound of a row segment followed by `B` in a row with upper bound
`hi`. -/
def rowHi (hi : Option Nat) : List (Nat × BptNode) → Option Nat
  | [] => hi
  | b :: _ => some b.1

/-- The row invariant of `A ++ seg ++ B` decomposes into the invariants of
the three parts over the carved-out intervals. -/
theorem wfRow_split3 (lo hi : Option Nat) (A seg B : List (Nat × BptNode))
    (hseg : seg ≠ []) :
    wfRow lo hi (A ++ seg ++ B) = true ↔
      (wfRow lo (some (segKey seg)) A = true ∧
       wfRow (rowLo lo A (segKey seg)) (rowHi hi B) seg = true ∧
       wfRow (rowHi hi B) hi B = true) := by
  obtain ⟨⟨sk, sc⟩, segR, rfl⟩ : ∃ s0 segR, seg = s0 :: segR := by
    cases seg with
    | nil => exact absurd rfl hseg
    | cons s0 segR => exact ⟨s0, segR, rfl⟩
  cases A with
  | nil =>
    cases B with
    | nil =>
      simp [wfRow_nil, rowLo, rowHi, segKey]
    | cons b B' =>
      obtain ⟨bk, bc⟩ := b
      rw [List.nil_append,
        wfRow_append hi bk bc B' ((sk, sc) :: segR) lo (by simp)]
      simp [wfRow_nil, rowLo, rowHi, segKey]
  | cons a A' =>
    cases B with
    | nil =>
      rw [List.append_nil,
        wfRow_append hi sk sc segR (a :: A') lo (by simp)]
      simp [wfRow_nil, rowLo, rowHi, segKey]
    | cons b B' =>
      obtain ⟨bk, bc⟩ := b
      rw [wfRow_append hi bk bc B' ((a :: A') ++ (sk, sc) :: segR) lo (by simp),
        wfRow_append (some bk) sk sc segR (a :: A') lo (by simp)]
      simp only [Bool.and_eq_true, rowLo, rowHi, segKey, List.isEmpty_cons,
        List.headD_cons, and_assoc, Bool.false_eq_true, if_false]

/-! ### Positional access and surgery on entry rows -/

theorem getQ_at_len {α : Type} : ∀ (A : List α) (x : α) (B : List α),
    (A ++ x :: B).get? A.length = some x
  | [], x, B => rfl
  | a :: A, x, B => by
    rw [List.cons_append, List.length_cons, List.get?_cons_succ]
    exact getQ_at_len A x B

theorem getD_at_len {α : Type} : ∀ (A : List α) (x : α) (B : List α) (d : α),
    (A ++ x :: B).getD A.length d = x
  | [], x, B, d => rfl
  | a :: A, x, B, d => by
    rw [List.cons_append, List.length_cons, List.getD_cons_succ]
    exact getD_at_len A x B d

theorem getD_at_len1 {α : Type} : ∀ (A : List α) (x y : α) (B : List α) (d : α),
    (A ++ x :: y :: B).getD (A.length + 1) d = y
  | [], x, y, B, d => rfl
  | a :: A, x, y, B, d => by
    rw [List.cons_append, List.length_cons, List.getD_cons_succ]
    exact getD_at_len1 A x y B d

theorem set_at_len {α : Type} : ∀ (A : List α) (x : α) (B : List α) (y : α),
    (A ++ x :: B).set A.length y = A ++ y :: B
  | [], x, B, y => rfl
  | a :: A, x, B, y => by
    rw [List.cons_append, List.length_cons, List.set_cons_succ, set_at_len A x B y,
      List.cons_append]

theorem eraseIdx_at_len {α : Type} : ∀ (A : List α) (x : α) (B : List α),
    (A ++ x :: B).eraseIdx A.length = A ++ B
  | [], x, B => rfl
  | a :: A, x, B => by
    rw [List.cons_append, List.length_cons, List.eraseIdx_cons_succ,
      eraseIdx_at_len A x B, List.cons_append]

theorem insertIdx_at_len1 {α : Type} : ∀ (A : List α) (x : α) (B : List α) (y : α),
    (A ++ x :: B).insertIdx (A.length + 1) y = A ++ x :: y :: B
  | [], x, B, y => rfl
  | a :: A, x, B, y => by
    rw [List.cons_append, List.length_cons, List.insertIdx_succ_cons,
      insertIdx_at_len1 A x B y, List.cons_append]

/-- A list with a hit at index `i` decomposes around that element. -/
theorem decomp_get {α : Type} (l : List α) (i : Nat) (e : α) (h : l.get? i = some e) :
    l = l.take i ++ e :: l.drop (i + 1) ∧ (l.take i).length = i := by
  have hlt : i < l.length := List.get?_eq_some.mp h |>.1
  have hget : l[i] = e := by
    obtain ⟨h1, h2⟩ := List.get?_eq_some.mp h
    simpa using h2
  constructor
  · conv_lhs => rw [← List.take_append_drop i l]
    rw [List.drop_eq_getElem_cons hlt, hget]
  · simp [List.length_take, Nat.min_eq_left (Nat.le_of_lt hlt)]

theorem setChildAt_at (A : List (Nat × BptNode)) (x : Nat × BptNode)
    (B : List (Nat × BptNode)) (c : BptNode) :
    setChildAt (A ++ x :: B) A.length c = A ++ (x.1, c) :: B := by
  rw [setChildAt, getQ_at_len]
  exact set_at_len A x B (x.1, c)

theorem setKeyAt_at (A : List (Nat × BptNode)) (x : Nat × BptNode)
    (B : List (Nat × BptNode)) (k : Nat) :
    setKeyAt (A ++ x :: B) A.length k = A ++ (k, x.2) :: B := by
  rw [setKeyAt, getQ_at_len]
  exact set_at_len A x B (k, x.2)

theorem setChildAt_at1 (A : List (Nat × BptNode)) (x y : Nat × BptNode)
    (B : List (Nat × BptNode)) (c : BptNode) :
    setChildAt (A ++ x :: y :: B) (A.length + 1) c = A ++ x :: (y.1, c) :: B := by
  have h := setChildAt_at (A ++ [x]) y B c
  simpa using h

theorem setKeyAt_at1 (A : List (Nat × BptNode)) (x y : Nat × BptNode)
    (B : List (Nat × BptNode)) (k : Nat) :
    setKeyAt (A ++ x :: y :: B) (A.length + 1) k = A ++ x :: (k, y.2) :: B := by
  have h := setKeyAt_at (A ++ [x]) y B k
  simpa using h

theorem getD_at_len2 {α : Type} : ∀ (A : List α) (x y z : α) (B : List α) (d : α),
    (A ++ x :: y :: z :: B).getD (A.length + 1 + 1) d = z
  | [], x, y, z, B, d => rfl
  | a :: A, x, y, z, B, d => by
    rw [List.cons_append, List.length_cons, List.getD_cons_succ]
    exact getD_at_len2 A x y z B d

theorem getQ_at_len2 {α : Type} : ∀ (A : List α) (x y z : α) (B : List α),
    (A ++ x :: y :: z :: B).get? (A.length + 1 + 1) = some z
  | [], x, y, z, B => rfl
  | a :: A, x, y, z, B => by
    rw [List.cons_append, List.length_cons, List.get?_cons_succ]
    exact getQ_at_len2 A x y z B

theorem set_at_len2 {α : Type} : ∀ (A : List α) (x y z : α) (B : List α) (w : α),
    (A ++ x :: y :: z :: B).set (A.length + 1 + 1) w = A ++ x :: y :: w :: B
  | [], x, y, z, B, w => rfl
  | a :: A, x, y, z, B, w => by
    rw [List.cons_append, List.length_cons, List.set_cons_succ,
      set_at_len2 A x y z B w, List.cons_append]

theorem setChildAt_at2 (A : List (Nat × BptNode)) (x y z : Nat × BptNode)
    (B : List (Nat × BptNode)) (c : BptNode) :
    setChildAt (A ++ x :: y :: z :: B) (A.length + 1 + 1) c =
      A ++ x :: y :: (z.1, c) :: B := by
  rw [setChildAt, getQ_at_len2]
  exact set_at_len2 A x y z B (z.1, c)

theorem setKeyAt_at2 (A : List (Nat × BptNode)) (x y z : Nat × BptNode)
    (B : List (Nat × BptNode)) (k : Nat) :
    setKeyAt (A ++ x :: y :: z :: B) (A.length + 1 + 1) k =
      A ++ x :: y :: (k, z.2) :: B := by
  rw [setKeyAt, getQ_at_len2]
  exact set_at_len2 A x y z B (k, z.2)

theorem eraseIdx_at_len1 {α : Type} : ∀ (A : List α) (x y : α) (B : List α),
    (A ++ x :: y :: B).eraseIdx (A.length + 1) = A ++ x :: B
  | [], x, y, B => rfl
  | a :: A, x, y, B => by
    rw [List.cons_append, List.length_cons, List.eraseIdx_cons_succ,
      eraseIdx_at_len1 A x y B, List.cons_append]

/-! ### Characterisation of the routed child slot -/

theorem getD_take_lt {α : Type} (d : α) :
    ∀ (l : List α) (n j : Nat), j < n → (l.take n).getD j d = l.getD j d
  | [], _, _, _ => by simp
  | _ :: _, n + 1, 0, _ => by simp
  | a :: l, n + 1, j + 1, h => by
    rw [List.take_succ_cons, List.getD_cons_succ, List.getD_cons_succ]
    exact getD_take_lt d l n j (by omega)
  | _ :: _, 0, _, h => absurd h (by omega)

theorem take_takeWhile_len {α : Type} (p : α → Bool) :
    ∀ l : List α, l.take ((l.takeWhile p).length) = l.takeWhile p
  | [] => rfl
  | a :: l => by
    by_cases h : p a
    · rw [List.takeWhile_cons_of_pos h, List.length_cons, List.take_succ_cons,
        take_takeWhile_len p l]
    · rw [List.takeWhile_cons_of_neg h]
      rfl

theorem getD_takeWhile_len {α : Type} (p : α → Bool) (d : α) :
    ∀ l : List α, (l.takeWhile p).length < l.length →
      p (l.getD ((l.takeWhile p).length) d) = false
  | [], h => absurd h (by simp)
  | a :: l, h => by
    by_cases hp : p a
    · rw [List.takeWhile_cons_of_pos hp] at h ⊢
      rw [List.length_cons, List.getD_cons_succ]
      exact getD_takeWhile_len p d l (by simpa using h)
    · rw [List.takeWhile_cons_of_neg hp]
      simpa using hp

theorem getD_mem_of_lt {α : Type} (l : List α) (n : Nat) (d : α) (h : n < l.length) :
    l.getD n d ∈ l := by
  rw [l.getD_eq_getElem d h]
  exact List.getElem_mem h

theorem childIdxSpec_le_len (key : Nat) (ks : List Nat) :
    childIdxSpec key ks ≤ ks.length - 1 := by
  unfold childIdxSpec
  have h : ((ks.drop 1).takeWhile (fun a => decide (a ≤ key))).length ≤
      (ks.drop 1).length := (List.takeWhile_sublist _).length_le
  simpa using h

/-- Separators strictly before the routed slot are `≤ key`. -/
theorem childIdxSpec_mono_le (key : Nat) (ks : List Nat) :
    ∀ j, j < childIdxSpec key ks → ks.getD (j + 1) 0 ≤ key := by
  intro j hj
  unfold childIdxSpec at hj
  have hjlen : j < (ks.drop 1).length :=
    Nat.lt_of_lt_of_le hj ((List.takeWhile_sublist _).length_le)
  have hmem : (ks.drop 1).getD j 0 ∈ (ks.drop 1).takeWhile (fun a => decide (a ≤ key)) := by
    rw [← take_takeWhile_len (fun a => decide (a ≤ key)) (ks.drop 1),
      ← getD_take_lt 0 (ks.drop 1) _ j hj]
    apply getD_mem_of_lt
    simp only [List.length_take]
    omega
  have := List.mem_takeWhile_imp hmem
  rw [dropOne_getD] at this
  simpa using this

/-- The separator at the routed slot (when it exists) is `> key`. -/
theorem childIdxSpec_boundary (key : Nat) (ks : List Nat)
    (h : childIdxSpec key ks + 1 < ks.length) :
    key < ks.getD (childIdxSpec key ks + 1) 0 := by
  have hlen : childIdxSpec key ks < (ks.drop 1).length := by simp; omega
  have := getD_takeWhile_len (fun a => decide (a ≤ key)) 0 (ks.drop 1) hlen
  rw [dropOne_getD] at this
  unfold childIdxSpec
  simpa using this

/-- Uniqueness: a slot whose interval brackets `key` is the routed slot. -/
theorem childIdxSpec_eq (key : Nat) (ks : List Nat) (i : Nat)
    (hs : List.Pairwise (· ≤ ·) (ks.drop 1))
    (hile : i ≤ ks.length - 1)
    (hlo : ∀ j, j < i → ks.getD (j + 1) 0 ≤ key)
    (hhi : i + 1 < ks.length → key < ks.getD (i + 1) 0) :
    childIdxSpec key ks = i := by
  unfold childIdxSpec
  refine takeWhile_length_eq _ (ks.drop 1) i (by simp; omega) ?_ ?_
  · intro j hj
    rw [dropOne_getD]
    simpa using hlo j hj
  · intro j hij hjlen
    have hjlen' : j + 1 < ks.length := by simp at hjlen; omega
    have hb : key < ks.getD (i + 1) 0 := hhi (by omega)
    have hmono : ks.getD (i + 1) 0 ≤ ks.getD (j + 1) 0 := by
      have := sorted_getD_le (ks.drop 1) hs i j hij (by simp; omega)
      rwa [dropOne_getD, dropOne_getD] at this
    rw [dropOne_getD]
    simpa using Nat.not_le.mpr (Nat.lt_of_lt_of_le hb hmono)

/-! ### Separator-list surgery -/

theorem drop1_append {α : Type} (l1 l2 : List α) (h : l1 ≠ []) :
    (l1 ++ l2).drop 1 = l1.drop 1 ++ l2 := by
  cases l1 with
  | nil => exact absurd rfl h
  | cons a l => simp

theorem pairwise_seg_facts {α : Type} {R : α → α → Prop} (X S Y : List α)
    (h : List.Pairwise R (X ++ S ++ Y)) :
    List.Pairwise R X ∧ List.Pairwise R S ∧ List.Pairwise R Y ∧
    (∀ x ∈ X, ∀ s ∈ S, R x s) ∧ (∀ s ∈ S, ∀ y ∈ Y, R s y) ∧
    (∀ x ∈ X, ∀ y ∈ Y, R x y) := by
  rw [List.pairwise_append, List.pairwise_append] at h
  obtain ⟨⟨hX, hS, hXS⟩, hY, hXSY⟩ := h
  refine ⟨hX, hS, hY, hXS, ?_, ?_⟩
  · intro s hs y hy
    exact hXSY s (by simp [hs]) y hy
  · intro x hx y hy
    exact hXSY x (by simp [hx]) y hy

theorem pairwise_replace_seg {α : Type} {R : α → α → Prop} (X S S' Y : List α)
    (h : List.Pairwise R (X ++ S ++ Y))
    (hS' : List.Pairwise R S')
    (hlo : ∀ s ∈ S', ∀ x ∈ X, R x s)
    (hhi : ∀ s ∈ S', ∀ y ∈ Y, R s y) :
    List.Pairwise R (X ++ S' ++ Y) := by
  obtain ⟨hX, _, hY, _, _, hXY⟩ := pairwise_seg_facts X S Y h
  rw [List.pairwise_append, List.pairwise_append]
  refine ⟨⟨hX, hS', fun x hx s hs => hlo s hs x hx⟩, hY, ?_⟩
  intro a ha y hy
  rcases List.mem_append.mp ha with ha | ha
  · exact hXY a ha y hy
  · exact hhi a ha y hy

/-- The entries strictly before the routed slot. -/
def routeA (key : Nat) (entries : List (Nat × BptNode)) : List (Nat × BptNode) :=
  entries.take (childIdxSpec key (entries.map Prod.fst))

/-- The entries strictly after the routed slot. -/
def routeB (key : Nat) (entries : List (Nat × BptNode)) : List (Nat × BptNode) :=
  entries.drop (childIdxSpec key (entries.map Prod.fst) + 1)

/-- Keys of a well-formed subtree lie in its interval. -/
theorem toList_bnd : ∀ t : BptNode, ∀ lo hi : Option Nat, wfN lo hi t = true →
    ∀ kv ∈ toList t, bndOk lo hi kv.1 = true := by
  intro t
  induction t using BptNode.strongInd with
  | hleaf kvs =>
    intro lo hi hwf kv hkv
    rw [wfN_leaf, Bool.and_eq_true] at hwf
    rw [toList] at hkv
    exact List.all_eq_true.mp hwf.2 kv hkv
  | hint entries ih =>
    intro lo hi hwf kv hkv
    rw [wfN_internal, Bool.and_eq_true, Bool.and_eq_true, Bool.and_eq_true] at hwf
    obtain ⟨⟨⟨hne, hch⟩, hsb⟩, hrow⟩ := hwf
    rw [toList_internal'] at hkv
    refine rowList_bnd () entries lo hi (fun e he lo' hi' hwf' => ih e he lo' hi' hwf')
      hrow (((chainLtB_pairwise _).mp hch).imp (fun h => Nat.le_of_lt h))
      (fun s hs => ?_) kv hkv
    have := List.all_eq_true.mp hsb s hs
    rw [Bool.and_eq_true] at this
    exact ⟨lbOk_of_lbOkS lo s this.1, ubOkLe_of_ubOk hi s this.2⟩

/-- `rowList_bnd` with the per-child hypothesis discharged by `toList_bnd`. -/
theorem rowList_bnd2 (lo hi : Option Nat) (entries : List (Nat × BptNode))
    (hrow : wfRow lo hi entries = true)
    (hs : List.Pairwise (· ≤ ·) ((entries.map Prod.fst).drop 1))
    (hb : ∀ s ∈ (entries.map Prod.fst).drop 1, lbOk lo s = true ∧ ubOkLe hi s = true) :
    ∀ kv ∈ rowList entries, bndOk lo hi kv.1 = true :=
  rowList_bnd () entries lo hi (fun e _ lo' hi' hwf => toList_bnd e.2 lo' hi' hwf) hrow hs hb

/-- A nonempty entry row decomposes around its routed slot. -/
theorem route_split (key : Nat) (entries : List (Nat × BptNode)) (hne : entries ≠ []) :
    ∃ e, entries.get? (childIdxSpec key (entries.map Prod.fst)) = some e ∧
      entries = routeA key entries ++ e :: routeB key entries ∧
      (routeA key entries).length = childIdxSpec key (entries.map Prod.fst) := by
  have hlen1 : 1 ≤ entries.length := by
    cases entries with
    | nil => exact absurd rfl hne
    | cons _ _ => simp
  have hidxle := childIdxSpec_le_len key (entries.map Prod.fst)
  have hidxlt : childIdxSpec key (entries.map Prod.fst) < entries.length := by
    simp only [List.length_map] at hidxle
    omega
  have hq := List.get?_eq_get hidxlt
  exact ⟨entries.get ⟨_, hidxlt⟩, hq, (decomp_get entries _ _ hq).1,
    (decomp_get entries _ _ hq).2⟩

/-- A slot whose carved-out interval brackets the key is the routed slot. -/
theorem childIdx_bracket (key' : Nat) (A B : List (Nat × BptNode)) (e : Nat × BptNode)
    (hsort : List.Pairwise (· ≤ ·) (((A ++ e :: B).map Prod.fst).drop 1))
    (h1 : A ≠ [] → e.1 ≤ key')
    (h2 : ∀ b B', B = b :: B' → key' < b.1) :
    childIdxSpec key' ((A ++ e :: B).map Prod.fst) = A.length := by
  have hmap : (A ++ e :: B).map Prod.fst = A.map Prod.fst ++ e.1 :: B.map Prod.fst := by
    simp
  have hAmaplen : (A.map Prod.fst).length = A.length := by simp
  have hgetA : ((A ++ e :: B).map Prod.fst).getD A.length 0 = e.1 := by
    rw [hmap, ← hAmaplen]
    exact getD_at_len _ _ _ 0
  refine childIdxSpec_eq key' _ A.length hsort (by simp) ?_ ?_
  · intro j hj
    have hAne : A ≠ [] := by
      cases A with
      | nil => simp at hj
      | cons _ _ => simp
    have hA0 : 0 < A.length := List.length_pos.mpr hAne
    have hje : ((A ++ e :: B).map Prod.fst).getD (j + 1) 0 ≤
        ((A ++ e :: B).map Prod.fst).getD A.length 0 := by
      have hlen : A.length - 1 < (((A ++ e :: B).map Prod.fst).drop 1).length := by
        simp
        omega
      have := sorted_getD_le (((A ++ e :: B).map Prod.fst).drop 1) hsort j (A.length - 1)
        (by omega) hlen
      rw [dropOne_getD, dropOne_getD] at this
      have hAl : A.length - 1 + 1 = A.length := by omega
      rwa [hAl] at this
    rw [hgetA] at hje
    exact Nat.le_trans hje (h1 hAne)
  · intro hlt
    simp only [List.length_map, List.length_append, List.length_cons] at hlt
    obtain ⟨b, B', rfl⟩ : ∃ b B', B = b :: B' := by
      cases B with
      | nil => simp at hlt
      | cons b B' => exact ⟨b, B', rfl⟩
    have hgetB : ((A ++ e :: b :: B').map Prod.fst).getD (A.length + 1) 0 = b.1 := by
      have : (A ++ e :: b :: B').map Prod.fst =
          A.map Prod.fst ++ e.1 :: b.1 :: B'.map Prod.fst := by simp
      rw [this, ← hAmaplen]
      exact getD_at_len1 _ _ _ _ 0
    rw [hgetB]
    exact h2 b B' rfl

/-- Interval and key-bound facts at the routed slot of a well-formed
internal node, in explicitly decomposed form. -/
theorem routed_facts (lo hi : Option Nat) (key : Nat) (A B : List (Nat × BptNode))
    (e : Nat × BptNode)
    (hwf : wfN lo hi (.internal (A ++ e :: B)) = true)
    (hkey : bndOk lo hi key = true)
    (hroute : childIdxSpec key ((A ++ e :: B).map Prod.fst) = A.length) :
    wfRow lo (some e.1) A = true ∧
    wfN (rowLo lo A e.1) (rowHi hi B) e.2 = true ∧
    wfRow (rowHi hi B) hi B = true ∧
    lbOk (rowLo lo A e.1) key = true ∧
    ubOk (rowHi hi B) key = true ∧
    (∀ kv ∈ rowList A, kv.1 < key) ∧
    (∀ kv ∈ rowList B, key < kv.1) := by
  rw [wfN_internal_iff] at hwf
  obtain ⟨hne, hsort, hbnd, hrow⟩ := hwf
  have hsortle : List.Pairwise (· ≤ ·) (((A ++ e :: B).map Prod.fst).drop 1) :=
    hsort.imp (fun h => Nat.le_of_lt h)
  obtain ⟨hlok, hhik⟩ := (bndOk_split lo hi key).mp hkey
  have hmap : (A ++ e :: B).map Prod.fst = A.map Prod.fst ++ e.1 :: B.map Prod.fst := by
    simp
  have hAmaplen : (A.map Prod.fst).length = A.length := by simp
  have hsplit := (wfRow_split3 lo hi A [e] B (by simp)).mp
    (by rw [show A ++ [e] ++ B = A ++ e :: B by simp]; exact hrow)
  have hsk : segKey [e] = e.1 := rfl
  rw [hsk] at hsplit
  obtain ⟨hrowA, hrowE, hrowB⟩ := hsplit
  rw [wfRow_single] at hrowE
  have he1le : A ≠ [] → e.1 ≤ key := by
    intro hAne
    have h1 : 0 < A.length := List.length_pos.mpr hAne
    have h2 := childIdxSpec_mono_le key ((A ++ e :: B).map Prod.fst) (A.length - 1)
      (by rw [hroute]; omega)
    have h3 : A.length - 1 + 1 = A.length := by omega
    rw [h3, hmap, ← hAmaplen, getD_at_len] at h2
    exact h2
  have hblt : ∀ b B', B = b :: B' → key < b.1 := by
    intro b B' hB
    have hlen : childIdxSpec key ((A ++ e :: B).map Prod.fst) + 1 <
        ((A ++ e :: B).map Prod.fst).length := by
      rw [hroute]
      subst hB
      simp only [List.length_map, List.length_append, List.length_cons]
      omega
    have h2 := childIdxSpec_boundary key ((A ++ e :: B).map Prod.fst) hlen
    rw [hroute, hmap] at h2
    subst hB
    simp only [List.map_cons] at h2
    rw [← hAmaplen, getD_at_len1] at h2
    exact h2
  refine ⟨hrowA, hrowE, hrowB, ?_, ?_, ?_, ?_⟩
  · cases A with
    | nil => simpa [rowLo] using hlok
    | cons a A' =>
      have := he1le (by simp)
      simpa [rowLo, lbOk] using this
  · cases B with
    | nil => simpa [rowHi] using hhik
    | cons b B' =>
      have := hblt b B' rfl
      simpa [rowHi, ubOk] using this
  · cases A with
    | nil => simp [rowList]
    | cons a A' =>
      intro kv hkv
      have hsepdec : (((a :: A') ++ e :: B).map Prod.fst).drop 1 =
          ((a :: A').map Prod.fst).drop 1 ++ [e.1] ++ B.map Prod.fst := by
        rw [hmap, drop1_append ((a :: A').map Prod.fst) _ (by simp)]
        simp [List.append_assoc]
      obtain ⟨hpX, _, _, hXe, _, _⟩ := pairwise_seg_facts _ _ _ (hsepdec ▸ hsortle)
      have hbA : ∀ s ∈ ((a :: A').map Prod.fst).drop 1,
          lbOk lo s = true ∧ ubOkLe (some e.1) s = true := by
        intro s hs
        have hmem : s ∈ (((a :: A') ++ e :: B).map Prod.fst).drop 1 := by
          rw [hsepdec, List.append_assoc]
          exact List.mem_append.mpr (Or.inl hs)
        refine ⟨lbOk_of_lbOkS lo s (hbnd s hmem).1, ?_⟩
        have := hXe s hs e.1 (by simp)
        simpa [ubOkLe] using this
      have hb := rowList_bnd2 lo (some e.1) (a :: A') hrowA hpX hbA kv hkv
      rw [bndOk_split] at hb
      have h1 : kv.1 < e.1 := by simpa [ubOk] using hb.2
      have h2 := he1le (by simp)
      omega
  · cases B with
    | nil => simp [rowList]
    | cons b B' =>
      intro kv hkv
      have hsufY : ((A ++ e :: b :: B').map Prod.fst).drop 1 =
          ((A ++ [e]).map Prod.fst).drop 1 ++ b.1 :: B'.map Prod.fst := by
        cases A with
        | nil => simp
        | cons a A' =>
          rw [show ((a :: A') ++ e :: b :: B').map Prod.fst =
            (a :: A').map Prod.fst ++ e.1 :: b.1 :: B'.map Prod.fst by simp,
            drop1_append ((a :: A').map Prod.fst) _ (by simp)]
          rw [show ((a :: A') ++ [e]).map Prod.fst =
            (a :: A').map Prod.fst ++ [e.1] by simp,
            drop1_append ((a :: A').map Prod.fst) _ (by simp)]
          simp [List.append_assoc]
      have hpairY : List.Pairwise (· ≤ ·) (b.1 :: B'.map Prod.fst) :=
        (List.pairwise_append.mp (hsufY ▸ hsortle)).2.1
      obtain ⟨hb1, hpB'⟩ := List.pairwise_cons.mp hpairY
      have hbB : ∀ s ∈ ((b :: B').map Prod.fst).drop 1,
          lbOk (some b.1) s = true ∧ ubOkLe hi s = true := by
        intro s hs
        simp only [List.map_cons, List.drop_succ_cons, List.drop_zero] at hs
        refine ⟨by simpa [lbOk] using hb1 s hs, ?_⟩
        have hmem : s ∈ ((A ++ e :: b :: B').map Prod.fst).drop 1 := by
          rw [hsufY]
          exact List.mem_append.mpr (Or.inr (List.mem_cons_of_mem _ hs))
        exact ubOkLe_of_ubOk hi s (hbnd s hmem).2
      have hrowB' : wfRow (some b.1) hi (b :: B') = true := by
        simpa [rowHi] using hrowB
      have hb := rowList_bnd2 (some b.1) hi (b :: B') hrowB'
        (by simpa using hpB') hbB kv hkv
      rw [bndOk_split] at hb
      have h1 : b.1 ≤ kv.1 := by simpa [lbOk] using hb.1
      have h2 := hblt b B' rfl
      omega

/-! ### `GetValue` computes association-list lookup -/

/-- The descent of `GetValue` computes `lookupKV` on the flattened subtree. -/
theorem nodeSearch_eq : ∀ t : BptNode, ∀ lo hi key, wfN lo hi t = true →
    bndOk lo hi key = true → nodeSearch t key = lookupKV key (toList t) := by
  intro t
  induction t using BptNode.strongInd with
  | hleaf kvs =>
    intro lo hi key hwf _
    rw [wfN_leaf_iff] at hwf
    have hple : List.Pairwise (· ≤ ·) (kvs.map Prod.fst) :=
      hwf.1.imp Nat.le_of_lt
    rw [nodeSearch, toList, leafBinarySearch_eq _ _ hple]
    exact get_firstGe_lookup key kvs hple
  | hint entries ih =>
    intro lo hi key hwf hkey
    have hiff := (wfN_internal_iff lo hi entries).mp hwf
    obtain ⟨hne, hsort, hbnd, hrow⟩ := hiff
    obtain ⟨e, hq, hdec, hAlen⟩ := route_split key entries hne
    have hibs : internalBinarySearch (entries.map Prod.fst) key =
        childIdxSpec key (entries.map Prod.fst) :=
      internalBinarySearch_eq _ _ (hsort.imp (fun h => Nat.le_of_lt h))
    obtain ⟨hrowA, hrowE, hrowB, hlb, hub, hAk, hBk⟩ :=
      routed_facts lo hi key (routeA key entries) (routeB key entries) e
        (by rw [← hdec]; exact hwf) hkey (by rw [← hdec]; exact hAlen.symm)
    have hrec : nodeSearch e.2 key = lookupKV key (toList e.2) := by
      refine ih e ?_ _ _ key hrowE ((bndOk_split _ _ key).mpr ⟨hlb, hub⟩)
      rw [hdec]
      exact List.mem_append.mpr (Or.inr (by simp))
    rw [nodeSearch]
    split
    next e2 heq =>
      rw [hibs, hq] at heq
      rw [show e2 = e from (Option.some.inj heq).symm]
      rw [hrec, toList_internal']
      conv_rhs => rw [hdec]
      rw [show routeA key entries ++ e :: routeB key entries =
        routeA key entries ++ (e :: routeB key entries) from rfl,
        rowList_append, rowList_cons]
      rw [lookupKV_append_left_none key _ _
        (fun a ha => Nat.ne_of_lt (hAk a ha)),
        lookupKV_append_right_none key _ _
        (fun b hb => Nat.ne_of_gt (hBk b hb))]
    next heq =>
      rw [hibs, hq] at heq
      simp at heq

/-! ### `Insert` correctness -/

theorem toList_leaf (kvs : List (Nat × Nat)) : toList (.leaf kvs) = kvs := by
  rw [toList]

/-- Build structural well-formedness from a uniform child kind. -/
theorem wfX_internal_of (entries : List (Nat × BptNode)) (h2 : 2 ≤ entries.length)
    (b : Bool) (hk : ∀ e ∈ entries, isLeafB e.2 = b)
    (hx : ∀ e ∈ entries, wfX e.2 = true) : wfX (.internal entries) = true := by
  rw [wfX_internal_iff]
  refine ⟨h2, ?_, hx⟩
  intro e he
  have hhead : entries.headD (0, .leaf []) ∈ entries := by
    cases entries with
    | nil => simp at h2
    | cons x xs => simp
  rw [hk e he, hk _ hhead]

theorem lookupKV_append (key : Nat) :
    ∀ A B : List (Nat × Nat), lookupKV key (A ++ B) =
      (match lookupKV key A with
       | some v => some v
       | none => lookupKV key B)
  | [], B => rfl
  | a :: A, B => by
    rw [List.cons_append, lookupKV, lookupKV]
    by_cases h : a.1 = key
    · rw [if_pos h, if_pos h]
    · rw [if_neg h, if_neg h]
      exact lookupKV_append key A B

theorem not_mem_fst_of_lookup_none (key : Nat) (l : List (Nat × Nat))
    (h : lookupKV key l = none) : key ∉ l.map Prod.fst := by
  intro hmem
  obtain ⟨p, hp, hpk⟩ := List.mem_map.mp hmem
  exact (lookupKV_eq_none_iff key l).mp h p hp hpk

/-- `wfRow_append` with an undestructured pivot entry. -/
theorem wfRow_append' (hi : Option Nat) (b : Nat × BptNode)
    (B A : List (Nat × BptNode)) (lo : Option Nat) (hA : A ≠ []) :
    wfRow lo hi (A ++ b :: B) =
      (wfRow lo (some b.1) A && wfRow (some b.1) hi (b :: B)) := by
  obtain ⟨bk, bc⟩ := b
  exact wfRow_append hi bk bc B A lo hA

theorem insLeafGrow_ne_dup (lm : Nat) (g : List (Nat × Nat)) :
    insLeafGrow lm g ≠ .dup := by
  rw [insLeafGrow]
  split <;> simp

theorem insInternalGrow_ne_dup (im : Nat) (row : List (Nat × BptNode)) :
    insInternalGrow im row ≠ .dup := by
  rw [insInternalGrow]
  split <;> simp

/-- Splitting a sorted bounded leaf list at an interior index yields two
well-formed leaves with the key at the split point as separator. -/
theorem leaf_split_wf (lo hi : Option Nat) (g : List (Nat × Nat)) (i : Nat)
    (hp : List.Pairwise (· < ·) (g.map Prod.fst))
    (hb : ∀ kv ∈ g, bndOk lo hi kv.1 = true)
    (hilt : i < g.length) :
    wfN lo (some ((g.getD i (0, 0)).1)) (.leaf (g.take i)) = true ∧
    wfN (some ((g.getD i (0, 0)).1)) hi (.leaf (g.drop i)) = true ∧
    bndOk lo hi ((g.getD i (0, 0)).1) = true ∧
    (0 < i → lbOkS lo ((g.getD i (0, 0)).1) = true) := by
  have hgd : g.getD i (0, 0) = g[i] := g.getD_eq_getElem (0, 0) hilt
  have hdropeq : g.drop i = g.getD i (0, 0) :: g.drop (i + 1) := by
    rw [hgd]
    exact List.drop_eq_getElem_cons hilt
  have hdec : g = g.take i ++ g.getD i (0, 0) :: g.drop (i + 1) := by
    conv_lhs => rw [← List.take_append_drop i g]
    rw [hdropeq]
  have hkeys : g.map Prod.fst = (g.take i).map Prod.fst ++
      ((g.getD i (0, 0)).1 :: (g.drop (i + 1)).map Prod.fst) := by
    conv_lhs => rw [hdec]
    simp
  obtain ⟨hpX, hpPY, hcross⟩ := List.pairwise_append.mp (hkeys ▸ hp)
  obtain ⟨hpP, hpY⟩ := List.pairwise_cons.mp hpPY
  have hmemP : g.getD i (0, 0) ∈ g := getD_mem_of_lt g i (0, 0) hilt
  refine ⟨?_, ?_, hb _ hmemP, ?_⟩
  · rw [wfN_leaf_iff]
    refine ⟨hpX, ?_⟩
    intro kv hkv
    have hing : kv ∈ g := List.mem_of_mem_take hkv
    have hlt : kv.1 < (g.getD i (0, 0)).1 :=
      hcross kv.1 (List.mem_map_of_mem Prod.fst hkv) _ (by simp)
    rw [bndOk_split]
    exact ⟨((bndOk_split lo hi kv.1).mp (hb kv hing)).1, by simpa [ubOk] using hlt⟩
  · rw [wfN_leaf_iff]
    constructor
    · rw [hdropeq]
      simpa using hpPY
    · intro kv hkv
      have hing : kv ∈ g := List.mem_of_mem_drop hkv
      rw [hdropeq] at hkv
      have hge : (g.getD i (0, 0)).1 ≤ kv.1 := by
        rcases List.mem_cons.mp hkv with rfl | hkv
        · exact Nat.le_refl _
        · exact Nat.le_of_lt (hpP kv.1 (List.mem_map_of_mem Prod.fst hkv))
      rw [bndOk_split]
      exact ⟨by simpa [lbOk] using hge, ((bndOk_split lo hi kv.1).mp (hb kv hing)).2⟩
  · intro hipos
    have hX0 : 0 < (g.take i).length := by
      simp only [List.length_take]
      omega
    obtain ⟨x0, hx0⟩ := List.exists_mem_of_length_pos hX0
    have hx0lt : x0.1 < (g.getD i (0, 0)).1 :=
      hcross x0.1 (List.mem_map_of_mem Prod.fst hx0) _ (by simp)
    have hx0b := (bndOk_split lo hi x0.1).mp (hb x0 (List.mem_of_mem_take hx0))
    exact lbOkS_of_lt_lbOk lo x0.1 _ hx0b.1 hx0lt

/-- Specification bundle for one insert step's result, relative to the
node's interval, kind and updated flat list. -/
def InsOk (lo hi : Option Nat) (kind : Bool) (L : List (Nat × Nat)) : InsResult → Prop
  | .dup => True
  | .one t' => toList t' = L ∧ wfN lo hi t' = true ∧ wfX t' = true ∧ isLeafB t' = kind
  | .split l sep r =>
      toList l ++ toList r = L ∧
      wfN lo (some sep) l = true ∧ wfN (some sep) hi r = true ∧
      wfX l = true ∧ wfX r = true ∧
      lbOkS lo sep = true ∧ ubOk hi sep = true ∧
      isLeafB l = kind ∧ isLeafB r = kind

/-- The leaf size check and split of `Insert` meets the insert bundle. -/
theorem insLeafGrow_spec (lm : Nat) (hlm : 1 ≤ lm) (lo hi : Option Nat)
    (g : List (Nat × Nat))
    (hp : List.Pairwise (· < ·) (g.map Prod.fst))
    (hb : ∀ kv ∈ g, bndOk lo hi kv.1 = true) :
    InsOk lo hi true g (insLeafGrow lm g) := by
  rw [insLeafGrow]
  by_cases h : g.length > lm
  · rw [if_pos h]
    have hilt : g.length / 2 < g.length := by omega
    have hipos : 0 < g.length / 2 := by omega
    obtain ⟨hl, hr, hbnd, hs⟩ := leaf_split_wf lo hi g (g.length / 2) hp hb hilt
    refine ⟨?_, hl, hr, wfX_leaf _, wfX_leaf _, hs hipos,
      ((bndOk_split lo hi _).mp hbnd).2, rfl, rfl⟩
    rw [toList_leaf, toList_leaf, List.take_append_drop]
  · rw [if_neg h]
    exact ⟨toList_leaf g, (wfN_leaf_iff lo hi g).mpr ⟨hp, hb⟩, wfX_leaf g, rfl⟩

/-- The internal size check and split of `Insert` meets the insert bundle. -/
theorem insInternalGrow_spec (im : Nat) (him : 3 ≤ im) (lo hi : Option Nat)
    (row : List (Nat × BptNode)) (b : Bool)
    (hwf : wfN lo hi (.internal row) = true)
    (h2 : 2 ≤ row.length)
    (hk : ∀ e ∈ row, isLeafB e.2 = b)
    (hx : ∀ e ∈ row, wfX e.2 = true) :
    InsOk lo hi false (rowList row) (insInternalGrow im row) := by
  rw [insInternalGrow]
  by_cases h : row.length > im
  · rw [if_pos h]
    have hm4 : 4 ≤ row.length := by omega
    have hilt : row.length / 2 < row.length := by omega
    have hT2 : 2 ≤ row.length / 2 := by omega
    have hD2 : 2 ≤ row.length - row.length / 2 := by omega
    have hgd : row.getD (row.length / 2) (0, .leaf []) = row[row.length / 2] :=
      row.getD_eq_getElem (0, .leaf []) hilt
    have hdropeq : row.drop (row.length / 2) =
        row.getD (row.length / 2) (0, .leaf []) :: row.drop (row.length / 2 + 1) := by
      rw [hgd]
      exact List.drop_eq_getElem_cons hilt
    have hdec : row = row.take (row.length / 2) ++
        row.getD (row.length / 2) (0, .leaf []) :: row.drop (row.length / 2 + 1) := by
      conv_lhs => rw [← List.take_append_drop (row.length / 2) row]
      rw [hdropeq]
    have hTne : row.take (row.length / 2) ≠ [] := by
      have : 0 < (row.take (row.length / 2)).length := by
        simp only [List.length_take]
        omega
      exact List.ne_nil_of_length_pos this
    have hTmapne : (row.take (row.length / 2)).map Prod.fst ≠ [] := by
      cases hc : row.take (row.length / 2) with
      | nil => exact absurd hc hTne
      | cons _ _ => simp
    rw [wfN_internal_iff] at hwf
    obtain ⟨hne, hsort, hbnd, hrow⟩ := hwf
    have hkeys : row.map Prod.fst = (row.take (row.length / 2)).map Prod.fst ++
        (row.getD (row.length / 2) (0, .leaf [])).1 ::
        (row.drop (row.length / 2 + 1)).map Prod.fst := by
      conv_lhs => rw [hdec]
      simp
    have hsepdec : (row.map Prod.fst).drop 1 =
        ((row.take (row.length / 2)).map Prod.fst).drop 1 ++
        [(row.getD (row.length / 2) (0, .leaf [])).1] ++
        (row.drop (row.length / 2 + 1)).map Prod.fst := by
      rw [hkeys, drop1_append _ _ hTmapne]
      simp [List.append_assoc]
    obtain ⟨hpX, _, hpY, hXp, hpYc, hXY⟩ := pairwise_seg_facts _ _ _ (hsepdec ▸ hsort)
    have hrowsplit := hrow
    rw [hdec, wfRow_append' hi _ _ _ lo hTne, Bool.and_eq_true] at hrowsplit
    obtain ⟨hrowT, hrowD⟩ := hrowsplit
    have hmemsep : (row.getD (row.length / 2) (0, .leaf [])).1 ∈
        (row.map Prod.fst).drop 1 := by
      rw [hsepdec, List.append_assoc]
      exact List.mem_append.mpr (Or.inr (by simp))
    have hsepb := hbnd _ hmemsep
    refine ⟨?_, ?_, ?_, ?_, ?_, hsepb.1, hsepb.2, rfl, rfl⟩
    · rw [toList_internal', toList_internal', hdropeq]
      conv_rhs => rw [hdec]
      rw [rowList_append]
    · rw [wfN_internal_iff]
      refine ⟨hTne, hpX, ?_, hrowT⟩
      intro s hs
      have hmem : s ∈ (row.map Prod.fst).drop 1 := by
        rw [hsepdec, List.append_assoc]
        exact List.mem_append.mpr (Or.inl hs)
      refine ⟨(hbnd s hmem).1, ?_⟩
      have := hXp s hs ((row.getD (row.length / 2) (0, .leaf [])).1) (by simp)
      simpa [ubOk] using this
    · rw [hdropeq, wfN_internal_iff]
      refine ⟨by simp, ?_, ?_, hrowD⟩
      · simpa using hpY
      · intro s hs
        simp only [List.map_cons, List.drop_succ_cons, List.drop_zero] at hs
        have hmem : s ∈ (row.map Prod.fst).drop 1 := by
          rw [hsepdec, List.append_assoc]
          exact List.mem_append.mpr (Or.inr (List.mem_cons_of_mem _ hs))
        refine ⟨?_, (hbnd s hmem).2⟩
        have := hpYc ((row.getD (row.length / 2) (0, .leaf [])).1) (by simp) s hs
        simpa [lbOkS] using this
    · refine wfX_internal_of _ ?_ b ?_ ?_
      · simp only [List.length_take]
        omega
      · exact fun x hx' => hk x (List.mem_of_mem_take hx')
      · exact fun x hx' => hx x (List.mem_of_mem_take hx')
    · rw [hdropeq]
      refine wfX_internal_of _ ?_ b ?_ ?_
      · simp only [List.length_cons, List.length_drop]
        omega
      · intro x hx'
        rw [← hdropeq] at hx'
        exact hk x (List.mem_of_mem_drop hx')
      · intro x hx'
        rw [← hdropeq] at hx'
        exact hx x (List.mem_of_mem_drop hx')
  · rw [if_neg h]
    exact ⟨toList_internal' row, hwf, wfX_internal_of row h2 b hk hx, rfl⟩

/-- The descent of `Insert` refuses exactly the duplicate keys, and
otherwise produces nodes flattening to the sorted insertion of the new
pair, preserving the ordering and structural invariants. -/
theorem insertNode_spec (lm im : Nat) (hlm : 2 ≤ lm) (him : 3 ≤ im) :
    ∀ t : BptNode, ∀ lo hi key value,
      wfN lo hi t = true → wfX t = true → bndOk lo hi key = true →
      (insertNode lm im t key value = .dup ↔ lookupKV key (toList t) ≠ none) ∧
      InsOk lo hi (isLeafB t) (insKV key value (toList t))
        (insertNode lm im t key value) := by
  intro t
  induction t using BptNode.strongInd with
  | hleaf kvs =>
    intro lo hi key value hwf _ hkey
    rw [wfN_leaf_iff] at hwf
    obtain ⟨hp, hb⟩ := hwf
    have hple : List.Pairwise (· ≤ ·) (kvs.map Prod.fst) :=
      hp.imp (fun h => Nat.le_of_lt h)
    rw [insertNode, leafBinarySearch_eq _ _ hple, toList_leaf]
    by_cases hfound :
        (kvs.get? (firstGeIdx key (kvs.map Prod.fst))).any (fun kv => kv.1 = key) = true
    · rw [if_pos hfound]
      exact ⟨iff_of_true rfl ((anyFound_iff_lookup key kvs hple).mp hfound), trivial⟩
    · rw [if_neg hfound]
      have hnone : lookupKV key kvs = none := by
        by_contra hc
        exact hfound ((anyFound_iff_lookup key kvs hple).mpr hc)
      rw [insertIdx_firstGe]
      have hkmem : key ∉ kvs.map Prod.fst := not_mem_fst_of_lookup_none key kvs hnone
      refine ⟨iff_of_false (insLeafGrow_ne_dup lm _) (by simp [hnone]), ?_⟩
      exact insLeafGrow_spec lm (by omega) lo hi _
        (insKV_pairwise key value kvs hp hkmem)
        (insKV_bnd key value lo hi kvs hb hkey)
  | hint entries ih =>
    intro lo hi key value hwf hX hkey
    have hiff := (wfN_internal_iff lo hi entries).mp hwf
    obtain ⟨hne, hsort, hbnd, hrow⟩ := hiff
    have hsortle : List.Pairwise (· ≤ ·) ((entries.map Prod.fst).drop 1) :=
      hsort.imp (fun h => Nat.le_of_lt h)
    obtain ⟨e, hq, hdec, hAlen⟩ := route_split key entries hne
    obtain ⟨A, hA⟩ : ∃ A, routeA key entries = A := ⟨_, rfl⟩
    obtain ⟨B, hB⟩ : ∃ B, routeB key entries = B := ⟨_, rfl⟩
    rw [hA] at hdec hAlen
    rw [hB] at hdec
    have hibs : internalBinarySearch (entries.map Prod.fst) key =
        childIdxSpec key (entries.map Prod.fst) :=
      internalBinarySearch_eq _ _ hsortle
    have hroute : childIdxSpec key ((A ++ e :: B).map Prod.fst) = A.length := by
      rw [← hdec]
      exact hAlen.symm
    obtain ⟨hrowA, hrowE, hrowB, hlb, hub, hAk, hBk⟩ :=
      routed_facts lo hi key A B e (by rw [← hdec]; exact hwf) hkey hroute
    rw [wfX_internal_iff] at hX
    obtain ⟨h2len, hkind, hchX⟩ := hX
    have hemem : e ∈ entries := by
      rw [hdec]
      exact List.mem_append.mpr (Or.inr (by simp))
    have hAmem : ∀ x ∈ A, x ∈ entries := fun x hx' => by
      rw [hdec]
      exact List.mem_append.mpr (Or.inl hx')
    have hBmem : ∀ x ∈ B, x ∈ entries := fun x hx' => by
      rw [hdec]
      exact List.mem_append.mpr (Or.inr (List.mem_cons_of_mem _ hx'))
    have hkmem : ∀ x ∈ entries, isLeafB x.2 = isLeafB e.2 := by
      intro x hx'
      rw [hkind x hx', hkind e hemem]
    have heX : wfX e.2 = true := hchX e hemem
    obtain ⟨hchiff, hchok⟩ := ih e hemem (rowLo lo A e.1) (rowHi hi B) key value
      hrowE heX ((bndOk_split _ _ _).mpr ⟨hlb, hub⟩)
    have htl : toList (.internal entries) =
        rowList A ++ (toList e.2 ++ rowList B) := by
      rw [toList_internal']
      conv_lhs => rw [hdec]
      rw [rowList_append, rowList_cons]
    have hlnode : lookupKV key (toList (.internal entries)) =
        lookupKV key (toList e.2) := by
      rw [htl, lookupKV_append_left_none key _ _
          (fun kv hkv => Nat.ne_of_lt (hAk kv hkv)),
        lookupKV_append_right_none key _ _
          (fun kv hkv => Nat.ne_of_gt (hBk kv hkv))]
    rw [insertNode]
    split
    next heq =>
      rw [hibs, hq] at heq
      simp at heq
    next e2 heq =>
      rw [hibs, hq] at heq
      rw [show e2 = e from (Option.some.inj heq).symm]
      split
      next heq2 =>
        refine ⟨iff_of_true rfl ?_, trivial⟩
        rw [hlnode]
        exact hchiff.mp heq2
      next c heq2 =>
        have hchok2 := hchok
        rw [heq2] at hchok2
        obtain ⟨htc, hwc, hxc, hkc⟩ := hchok2
        have hchnone : lookupKV key (toList e.2) = none := by
          by_contra hcon
          have := hchiff.mpr hcon
          rw [heq2] at this
          simp at this
        have hsetc : setChildAt entries
            (internalBinarySearch (entries.map Prod.fst) key) c
            = A ++ (e.1, c) :: B := by
          rw [hibs, ← hAlen]
          conv_lhs => rw [hdec]
          exact setChildAt_at A e B c
        rw [hsetc]
        refine ⟨iff_of_false (by simp) (by rw [hlnode, hchnone]; simp), ?_, ?_, ?_, rfl⟩
        · rw [toList_internal', rowList_append, rowList_cons, htc, htl]
          simp only [← List.append_assoc]
          exact (insKV_append_mid key value (rowList A) (toList e.2) (rowList B)
            hAk hBk).symm
        · rw [wfN_internal_iff]
          refine ⟨by simp, ?_, ?_, ?_⟩
          · have hkeq : ((A ++ (e.1, c) :: B).map Prod.fst) =
                ((A ++ e :: B).map Prod.fst) := by simp
            rw [hkeq, ← hdec]
            exact hsort
          · intro s hs
            have hkeq : ((A ++ (e.1, c) :: B).map Prod.fst) =
                ((A ++ e :: B).map Prod.fst) := by simp
            rw [hkeq, ← hdec] at hs
            exact hbnd s hs
          · have hsh : A ++ [(e.1, c)] ++ B = A ++ (e.1, c) :: B := by simp
            rw [← hsh]
            refine (wfRow_split3 lo hi A [(e.1, c)] B (by simp)).mpr ⟨hrowA, ?_, hrowB⟩
            rw [wfRow_single]
            exact hwc
        · refine wfX_internal_of _ ?_ (isLeafB e.2) ?_ ?_
          · have hleq : (A ++ (e.1, c) :: B).length = entries.length := by
              rw [hdec]
              simp
            omega
          · intro x hxm
            rcases List.mem_append.mp hxm with hxm | hxm
            · exact hkmem x (hAmem x hxm)
            · rcases List.mem_cons.mp hxm with rfl | hxm
              · exact hkc
              · exact hkmem x (hBmem x hxm)
          · intro x hxm
            rcases List.mem_append.mp hxm with hxm | hxm
            · exact hchX x (hAmem x hxm)
            · rcases List.mem_cons.mp hxm with rfl | hxm
              · exact hxc
              · exact hchX x (hBmem x hxm)
      next l sep r heq2 =>
        have hchok2 := hchok
        rw [heq2] at hchok2
        obtain ⟨htlr, hwl, hwr, hxl, hxr, hsl, hsu, hkl, hkr⟩ := hchok2
        have hchnone : lookupKV key (toList e.2) = none := by
          by_contra hcon
          have := hchiff.mpr hcon
          rw [heq2] at this
          simp at this
        have hA1le : A ≠ [] → e.1 < sep := by
          intro hAne
          have hrl : rowLo lo A e.1 = some e.1 := by
            cases A with
            | nil => exact absurd rfl hAne
            | cons _ _ => simp [rowLo]
          rw [hrl] at hsl
          simpa [lbOkS] using hsl
        have hBgt : ∀ b B', B = b :: B' → sep < b.1 := by
          intro b B' hBeq
          have hrh : rowHi hi B = some b.1 := by
            rw [hBeq]
            rfl
          rw [hrh] at hsu
          simpa [ubOk] using hsu
        have hroute2 : childIdxSpec sep ((A ++ e :: B).map Prod.fst) = A.length := by
          refine childIdx_bracket sep A B e (by rw [← hdec]; exact hsortle) ?_ hBgt
          exact fun hAne => Nat.le_of_lt (hA1le hAne)
        have hibs2 : internalBinarySearch (entries.map Prod.fst) sep = A.length := by
          rw [internalBinarySearch_eq _ _ hsortle]
          conv_lhs => rw [hdec]
          exact hroute2
        have hrownew : (setChildAt entries
              (internalBinarySearch (entries.map Prod.fst) sep) l).insertIdx
              (internalBinarySearch (entries.map Prod.fst) sep + 1) (sep, r) =
            A ++ (e.1, l) :: (sep, r) :: B := by
          rw [hibs2]
          have h1 : setChildAt entries A.length l = A ++ (e.1, l) :: B := by
            conv_lhs => rw [hdec]
            exact setChildAt_at A e B l
          rw [h1]
          exact insertIdx_at_len1 A (e.1, l) B (sep, r)
        rw [hrownew]
        have hemem1 : A ≠ [] → e.1 ∈ (entries.map Prod.fst).drop 1 := by
          intro hAne
          have hAm : A.map Prod.fst ≠ [] := by
            cases A with
            | nil => exact absurd rfl hAne
            | cons _ _ => simp
          have hkeysd : entries.map Prod.fst =
              A.map Prod.fst ++ e.1 :: B.map Prod.fst := by
            rw [hdec]
            simp
          rw [hkeysd, drop1_append _ _ hAm]
          exact List.mem_append.mpr (Or.inr (by simp))
        have hbmem1 : ∀ b B', B = b :: B' → b.1 ∈ (entries.map Prod.fst).drop 1 := by
          intro b B' hBeq
          have hkeysd : entries.map Prod.fst =
              A.map Prod.fst ++ e.1 :: B.map Prod.fst := by
            rw [hdec]
            simp
          subst hBeq
          rw [hkeysd]
          cases A with
          | nil => simp
          | cons a A' => simp
        have hslo : lbOkS lo sep = true := by
          by_cases hAe : A = []
          · subst hAe
            simpa [rowLo] using hsl
          · have h1 := (hbnd e.1 (hemem1 hAe)).1
            exact lbOkS_of_le lo e.1 sep h1 (Nat.le_of_lt (hA1le hAe))
        have hsup : ubOk hi sep = true := by
          by_cases hBe : B = []
          · subst hBe
            simpa [rowHi] using hsu
          · obtain ⟨b, B', rfl⟩ : ∃ b B', B = b :: B' := by
              cases B with
              | nil => exact absurd rfl hBe
              | cons b B' => exact ⟨b, B', rfl⟩
            exact ubOk_of_le_ubOk hi b.1 sep (Nat.le_of_lt (hBgt b B' rfl))
              (hbnd b.1 (hbmem1 b B' rfl)).2
        have hPB : List.Pairwise (· < ·) (B.map Prod.fst) ∧
            (∀ s ∈ B.map Prod.fst, lbOkS lo s = true ∧ ubOk hi s = true) := by
          by_cases hAe : A = []
          · have hsd : (entries.map Prod.fst).drop 1 = B.map Prod.fst := by
              rw [hdec, hAe]
              simp
            rw [hsd] at hsort hbnd
            exact ⟨hsort, hbnd⟩
          · have hAm : A.map Prod.fst ≠ [] := by
              cases A with
              | nil => exact absurd rfl hAe
              | cons _ _ => simp
            have hsd : (entries.map Prod.fst).drop 1 =
                (A.map Prod.fst).drop 1 ++ [e.1] ++ B.map Prod.fst := by
              rw [hdec]
              simp only [List.map_append, List.map_cons]
              rw [drop1_append _ _ hAm]
              simp [List.append_assoc]
            rw [hsd] at hsort hbnd
            refine ⟨(pairwise_seg_facts _ _ _ hsort).2.2.1, ?_⟩
            intro s hs
            refine hbnd s ?_
            rw [List.append_assoc]
            exact List.mem_append.mpr (Or.inr (List.mem_cons_of_mem _ hs))
        have hsepBmap : ∀ y ∈ B.map Prod.fst, sep < y := by
          intro y hy
          obtain ⟨b, B', rfl⟩ : ∃ b B', B = b :: B' := by
            cases B with
            | nil => simp at hy
            | cons b B' => exact ⟨b, B', rfl⟩
          simp only [List.map_cons, List.mem_cons] at hy
          rcases hy with rfl | hy
          · exact hBgt b B' rfl
          · exact Nat.lt_trans (hBgt b B' rfl)
              ((List.pairwise_cons.mp (by simpa using hPB.1)).1 y hy)
        have hwfnew : wfN lo hi (.internal (A ++ (e.1, l) :: (sep, r) :: B)) = true := by
          rw [wfN_internal_iff]
          refine ⟨by simp, ?_, ?_, ?_⟩
          · by_cases hAe : A = []
            · subst hAe
              simp only [List.nil_append, List.map_cons, List.drop_succ_cons,
                List.drop_zero]
              exact List.pairwise_cons.mpr ⟨hsepBmap, hPB.1⟩
            · have hAm : A.map Prod.fst ≠ [] := by
                cases A with
                | nil => exact absurd rfl hAe
                | cons _ _ => simp
              have holdseps : (entries.map Prod.fst).drop 1 =
                  (A.map Prod.fst).drop 1 ++ [e.1] ++ B.map Prod.fst := by
                rw [hdec]
                simp only [List.map_append, List.map_cons]
                rw [drop1_append _ _ hAm]
                simp [List.append_assoc]
              have hnewseps : ((A ++ (e.1, l) :: (sep, r) :: B).map Prod.fst).drop 1 =
                  (A.map Prod.fst).drop 1 ++ [e.1, sep] ++ B.map Prod.fst := by
                simp only [List.map_append, List.map_cons]
                rw [drop1_append _ _ hAm]
                simp [List.append_assoc]
              rw [hnewseps]
              rw [holdseps] at hsort
              obtain ⟨hpX, _, hpY, hXe, hEY, hXY⟩ := pairwise_seg_facts _ _ _ hsort
              refine pairwise_replace_seg _ _ _ _ hsort ?_ ?_ ?_
              · refine List.pairwise_cons.mpr ⟨?_, List.pairwise_singleton _ _⟩
                intro y hy
                simp only [List.mem_singleton] at hy
                subst hy
                exact hA1le hAe
              · intro s' hs' x hx
                rcases List.mem_cons.mp hs' with rfl | hs'
                · exact hXe x hx e.1 (by simp)
                · simp only [List.mem_singleton] at hs'
                  subst hs'
                  exact Nat.lt_trans (hXe x hx e.1 (by simp)) (hA1le hAe)
              · intro s' hs' y hy
                rcases List.mem_cons.mp hs' with rfl | hs'
                · exact hEY e.1 (by simp) y hy
                · simp only [List.mem_singleton] at hs'
                  subst hs'
                  exact hsepBmap y hy
          · intro s hs
            by_cases hAe : A = []
            · subst hAe
              simp only [List.nil_append, List.map_cons, List.drop_succ_cons,
                List.drop_zero, List.mem_cons] at hs
              rcases hs with rfl | hs
              · exact ⟨hslo, hsup⟩
              · exact hPB.2 s hs
            · have hAm : A.map Prod.fst ≠ [] := by
                cases A with
                | nil => exact absurd rfl hAe
                | cons _ _ => simp
              have hnewseps : ((A ++ (e.1, l) :: (sep, r) :: B).map Prod.fst).drop 1 =
                  (A.map Prod.fst).drop 1 ++ [e.1, sep] ++ B.map Prod.fst := by
                simp only [List.map_append, List.map_cons]
                rw [drop1_append _ _ hAm]
                simp [List.append_assoc]
              have holdseps : (entries.map Prod.fst).drop 1 =
                  (A.map Prod.fst).drop 1 ++ [e.1] ++ B.map Prod.fst := by
                rw [hdec]
                simp only [List.map_append, List.map_cons]
                rw [drop1_append _ _ hAm]
                simp [List.append_assoc]
              rw [hnewseps, List.append_assoc] at hs
              rcases List.mem_append.mp hs with hs | hs
              · refine hbnd s ?_
                rw [holdseps, List.append_assoc]
                exact List.mem_append.mpr (Or.inl hs)
              · simp only [List.cons_append, List.mem_cons] at hs
                rcases hs with rfl | hs
                · exact hbnd e.1 (hemem1 hAe)
                · rcases hs with rfl | hs
                  · exact ⟨hslo, hsup⟩
                  · refine hbnd s ?_
                    rw [holdseps, List.append_assoc]
                    simp only [List.nil_append] at hs
                    exact List.mem_append.mpr (Or.inr (List.mem_cons_of_mem _ hs))
          · have hsh : A ++ [(e.1, l), (sep, r)] ++ B = A ++ (e.1, l) :: (sep, r) :: B := by
              simp
            rw [← hsh]
            refine (wfRow_split3 lo hi A [(e.1, l), (sep, r)] B (by simp)).mpr
              ⟨hrowA, ?_, hrowB⟩
            rw [wfRow_cons2, Bool.and_eq_true, wfRow_single]
            exact ⟨hwl, hwr⟩
        have hrlnew : rowList (A ++ (e.1, l) :: (sep, r) :: B) =
            insKV key value (toList (.internal entries)) := by
          rw [rowList_append, rowList_cons, rowList_cons, htl]
          simp only [← List.append_assoc]
          rw [insKV_append_mid key value (rowList A) (toList e.2) (rowList B) hAk hBk,
            ← htlr]
          simp [List.append_assoc]
        have hG := insInternalGrow_spec im him lo hi (A ++ (e.1, l) :: (sep, r) :: B)
          (isLeafB e.2) hwfnew
          (by simp only [List.length_append, List.length_cons]; omega)
          (by
            intro x hxm
            rcases List.mem_append.mp hxm with hxm | hxm
            · exact hkmem x (hAmem x hxm)
            · rcases List.mem_cons.mp hxm with rfl | hxm
              · exact hkl
              · rcases List.mem_cons.mp hxm with rfl | hxm
                · exact hkr
                · exact hkmem x (hBmem x hxm))
          (by
            intro x hxm
            rcases List.mem_append.mp hxm with hxm | hxm
            · exact hchX x (hAmem x hxm)
            · rcases List.mem_cons.mp hxm with rfl | hxm
              · exact hxl
              · rcases List.mem_cons.mp hxm with rfl | hxm
                · exact hxr
                · exact hchX x (hBmem x hxm))
        rw [hrlnew] at hG
        exact ⟨iff_of_false (insInternalGrow_ne_dup im _)
          (by rw [hlnode, hchnone]; simp), hG⟩

/-- The flattened key/value list of a whole tree. -/
def BPlusTree.toListT (t : BPlusTree) : List (Nat × Nat) :=
  match t.root with
  | none => []
  | some r => toList r

/-- `GetValue` at the tree level computes `lookupKV` on the tree's list. -/
theorem getValueT_eq (t : BPlusTree) (key : Nat) (hwf : t.wfT = true) :
    t.getValueT key = lookupKV key t.toListT := by
  rcases t with ⟨root, lm, im⟩
  cases root with
  | none => rfl
  | some r =>
    rw [BPlusTree.wfT] at hwf
    simp only at hwf
    rw [Bool.and_eq_true] at hwf
    rw [BPlusTree.getValueT, BPlusTree.toListT]
    exact nodeSearch_eq r none none key hwf.1 rfl

/-! ### `Remove` prerequisites -/

theorem getD_last {α : Type} (l : List α) (d : α) (h : l ≠ []) :
    l.getD (l.length - 1) d = l.getLast h := by
  have hlen : 0 < l.length := List.length_pos.mpr h
  rw [l.getD_eq_getElem d (by omega), List.getLast_eq_getElem]

/-- In a list with strictly sorted projections, every element of `dropLast`
projects below the last element. -/
theorem map_dropLast_lt_getLast {α : Type} (f : α → Nat) (l : List α)
    (hp : List.Pairwise (· < ·) (l.map f)) (h : l ≠ []) :
    ∀ x ∈ l.dropLast, f x < f (l.getLast h) := by
  intro x hx
  have hp2 : List.Pairwise (· < ·) ((l.dropLast ++ [l.getLast h]).map f) := by
    rw [List.dropLast_append_getLast h]
    exact hp
  rw [List.map_append] at hp2
  obtain ⟨_, _, hcross⟩ := List.pairwise_append.mp hp2
  exact hcross (f x) (List.mem_map_of_mem f hx) (f (l.getLast h)) (by simp)

theorem delKV_length (key : Nat) :
    ∀ l : List (Nat × Nat), l.length ≤ (delKV key l).length + 1
  | [] => by simp [delKV]
  | kv :: rest => by
    rw [delKV]
    by_cases h : kv.1 = key
    · simp [h]
    · simp only [h, if_false, List.length_cons]
      have := delKV_length key rest
      omega

theorem isLeafB_leaf_eq (c : BptNode) (h : isLeafB c = true) :
    c = .leaf (leafKvsOf c) := by
  cases c with
  | leaf kvs => rfl
  | internal es => simp [isLeafB] at h

theorem isLeafB_internal_eq (c : BptNode) (h : isLeafB c = false) :
    c = .internal (entriesOf c) := by
  cases c with
  | leaf kvs => simp [isLeafB] at h
  | internal es => rfl

/-- Ordering well-formedness survives replacing a row segment by another
segment with the same head key, well-formed over the segment's carved-out
interval, with strictly sorted keys strictly inside that interval. -/
theorem wfN_replace_seg (lo hi : Option Nat) (A B S S' : List (Nat × BptNode))
    (hwf : wfN lo hi (.internal (A ++ S ++ B)) = true)
    (hSne : S ≠ []) (hS'ne : S' ≠ [])
    (hkey : segKey S' = segKey S)
    (hrow' : wfRow (rowLo lo A (segKey S)) (rowHi hi B) S' = true)
    (hct : List.Pairwise (· < ·) ((S'.map Prod.fst).drop 1))
    (hinner : ∀ s ∈ (S'.map Prod.fst).drop 1,
       lbOkS (rowLo lo A (segKey S)) s = true ∧ ubOk (rowHi hi B) s = true) :
    wfN lo hi (.internal (A ++ S' ++ B)) = true := by
  obtain ⟨sk, sc, S0, rfl⟩ : ∃ sk sc S0, S = (sk, sc) :: S0 := by
    cases S with
    | nil => exact absurd rfl hSne
    | cons s0 S0 =>
      obtain ⟨sk, sc⟩ := s0
      exact ⟨sk, sc, S0, rfl⟩
  obtain ⟨sc', S0', rfl⟩ : ∃ sc' S0', S' = (sk, sc') :: S0' := by
    cases S' with
    | nil => exact absurd rfl hS'ne
    | cons s0 S0' =>
      obtain ⟨sk', sc'⟩ := s0
      have h1 : sk' = sk := hkey
      subst h1
      exact ⟨sc', S0', rfl⟩
  rw [wfN_internal_iff] at hwf
  obtain ⟨hne, hsort, hbnd, hrow⟩ := hwf
  have hsk : segKey ((sk, sc) :: S0) = sk := rfl
  rw [hsk] at hrow' hinner
  have hrowparts := (wfRow_split3 lo hi A ((sk, sc) :: S0) B (by simp)).mp hrow
  rw [hsk] at hrowparts
  obtain ⟨hrowA, _, hrowB⟩ := hrowparts
  have hBlow : ∀ y ∈ B.map Prod.fst, ∀ s : Nat,
      ubOk (rowHi hi B) s = true → s < y := by
    intro y hy s hs
    obtain ⟨b, B', rfl⟩ : ∃ b B', B = b :: B' := by
      cases B with
      | nil => simp at hy
      | cons b B' => exact ⟨b, B', rfl⟩
    have hsb : s < b.1 := by simpa [rowHi, ubOk] using hs
    simp only [List.map_cons, List.mem_cons] at hy
    have hPB : List.Pairwise (· < ·) (b.1 :: B'.map Prod.fst) := by
      by_cases hAe : A = []
      · subst hAe
        simp only [List.nil_append, List.map_append, List.map_cons] at hsort
        rw [drop1_append _ _ (by simp)] at hsort
        exact (List.pairwise_append.mp hsort).2.1
      · have hAm : A.map Prod.fst ≠ [] := by
          cases A with
          | nil => exact absurd rfl hAe
          | cons _ _ => simp
        have hd : (((A ++ (sk, sc) :: S0) ++ b :: B').map Prod.fst).drop 1 =
            (A.map Prod.fst).drop 1 ++ ((sk :: S0.map Prod.fst) ++
              (b.1 :: B'.map Prod.fst)) := by
          simp only [List.map_append, List.map_cons]
          rw [List.append_assoc, drop1_append _ _ hAm]
        rw [hd] at hsort
        exact (List.pairwise_append.mp
          (List.pairwise_append.mp hsort).2.1).2.1
    rcases hy with rfl | hy
    · exact hsb
    · exact Nat.lt_trans hsb ((List.pairwise_cons.mp hPB).1 y hy)
  have hskmem : A ≠ [] → sk ∈ (((A ++ (sk, sc) :: S0) ++ B).map Prod.fst).drop 1 := by
    intro hAe
    have hAm : A.map Prod.fst ≠ [] := by
      cases A with
      | nil => exact absurd rfl hAe
      | cons _ _ => simp
    simp only [List.map_append, List.map_cons]
    rw [List.append_assoc, drop1_append _ _ hAm]
    simp
  have hsklt : A ≠ [] → ∀ s ∈ S0'.map Prod.fst, sk < s := by
    intro hAe s hs
    have := (hinner s (by simpa using hs)).1
    have hrl : rowLo lo A sk = some sk := by
      cases A with
      | nil => exact absurd rfl hAe
      | cons _ _ => simp [rowLo]
    rw [hrl] at this
    simpa [lbOkS] using this
  have hS0'lo : ∀ s ∈ S0'.map Prod.fst, lbOkS lo s = true := by
    intro s hs
    by_cases hAe : A = []
    · have := (hinner s (by simpa using hs)).1
      have hrl : rowLo lo A sk = lo := by
        rw [hAe]
        rfl
      rwa [hrl] at this
    · exact lbOkS_of_le lo sk s ((hbnd sk (hskmem hAe)).1)
        (Nat.le_of_lt (hsklt hAe s hs))
  have hS0'hi : ∀ s ∈ S0'.map Prod.fst, ubOk hi s = true := by
    intro s hs
    by_cases hBe : B = []
    · have := (hinner s (by simpa using hs)).2
      have hrh : rowHi hi B = hi := by
        rw [hBe]
        rfl
      rwa [hrh] at this
    · obtain ⟨b, B', rfl⟩ : ∃ b B', B = b :: B' := by
        cases B with
        | nil => exact absurd rfl hBe
        | cons b B' => exact ⟨b, B', rfl⟩
      have hs1 : s < b.1 := by
        have := (hinner s (by simpa using hs)).2
        simpa [rowHi, ubOk] using this
      have hbm : b.1 ∈ (((A ++ (sk, sc) :: S0) ++ b :: B').map Prod.fst).drop 1 := by
        by_cases hAe : A = []
        · subst hAe
          simp
        · have hAm : A.map Prod.fst ≠ [] := by
            cases A with
            | nil => exact absurd rfl hAe
            | cons _ _ => simp
          simp only [List.map_append, List.map_cons]
          rw [List.append_assoc, drop1_append _ _ hAm]
          simp
      exact ubOk_of_le_ubOk hi b.1 s (Nat.le_of_lt hs1) (hbnd b.1 hbm).2
  rw [wfN_internal_iff]
  refine ⟨by simp, ?_, ?_, ?_⟩
  · by_cases hAe : A = []
    · subst hAe
      simp only [List.nil_append, List.map_append, List.map_cons] at hsort ⊢
      rw [drop1_append _ _ (by simp)] at hsort ⊢
      simp only [List.drop_succ_cons, List.drop_zero] at hsort ⊢
      rw [List.pairwise_append] at hsort ⊢
      obtain ⟨_, hPB, _⟩ := hsort
      refine ⟨?_, hPB, ?_⟩
      · simpa using hct
      · intro s hs y hy
        exact hBlow y hy s (hinner s (by simpa using hs)).2
    · have hAm : A.map Prod.fst ≠ [] := by
        cases A with
        | nil => exact absurd rfl hAe
        | cons _ _ => simp
      have hd : ∀ (T : List (Nat × BptNode)),
          (((A ++ T) ++ B).map Prod.fst).drop 1 =
            ((A.map Prod.fst).drop 1 ++ T.map Prod.fst) ++ B.map Prod.fst := by
        intro T
        simp only [List.map_append]
        rw [drop1_append _ _ (by simp [hAm]), drop1_append _ _ hAm]
      rw [hd] at hsort ⊢
      have hchain' : List.Pairwise (· < ·) (((sk, sc') :: S0').map Prod.fst) := by
        simp only [List.map_cons]
        refine List.pairwise_cons.mpr ⟨?_, by simpa using hct⟩
        intro s hs
        exact hsklt hAe s hs
      refine pairwise_replace_seg _ _ _ _ hsort hchain' ?_ ?_
      · intro s hs x hx
        have hxsk : x < sk := by
          obtain ⟨_, _, _, hXS, _, _⟩ := pairwise_seg_facts _ _ _ hsort
          exact hXS x hx sk (by simp)
        simp only [List.map_cons, List.mem_cons] at hs
        rcases hs with rfl | hs
        · exact hxsk
        · exact Nat.lt_trans hxsk (hsklt hAe s hs)
      · intro s hs y hy
        simp only [List.map_cons, List.mem_cons] at hs
        rcases hs with rfl | hs
        · obtain ⟨_, _, _, _, hSY, _⟩ := pairwise_seg_facts _ _ _ hsort
          exact hSY s (by simp) y hy
        · exact hBlow y hy s (hinner s (by simpa using hs)).2
  · intro s hs
    by_cases hAe : A = []
    · subst hAe
      simp only [List.nil_append, List.map_append, List.map_cons] at hs
      rw [drop1_append _ _ (by simp)] at hs
      simp only [List.drop_succ_cons, List.drop_zero] at hs
      rcases List.mem_append.mp hs with hs | hs
      · exact ⟨hS0'lo s hs, hS0'hi s hs⟩
      · refine hbnd s ?_
        simp only [List.nil_append, List.map_append, List.map_cons]
        rw [drop1_append _ _ (by simp)]
        simp only [List.drop_succ_cons, List.drop_zero]
        exact List.mem_append.mpr (Or.inr hs)
    · have hAm : A.map Prod.fst ≠ [] := by
        cases A with
        | nil => exact absurd rfl hAe
        | cons _ _ => simp
      have hd : ∀ (T : List (Nat × BptNode)),
          (((A ++ T) ++ B).map Prod.fst).drop 1 =
            ((A.map Prod.fst).drop 1 ++ T.map Prod.fst) ++ B.map Prod.fst := by
        intro T
        simp only [List.map_append]
        rw [drop1_append _ _ (by simp [hAm]), drop1_append _ _ hAm]
      rw [hd] at hs
      rcases List.mem_append.mp hs with hs | hs
      · rcases List.mem_append.mp hs with hs | hs
        · refine hbnd s ?_
          rw [hd]
          exact List.mem_append.mpr (Or.inl (List.mem_append.mpr (Or.inl hs)))
        · simp only [List.map_cons, List.mem_cons] at hs
          rcases hs with rfl | hs
          · exact hbnd s (hskmem hAe)
          · exact ⟨hS0'lo s hs, hS0'hi s hs⟩
      · refine hbnd s ?_
        rw [hd]
        exact List.mem_append.mpr (Or.inr hs)
  · refine (wfRow_split3 lo hi A ((sk, sc') :: S0') B (by simp)).mpr
      ⟨?_, ?_, hrowB⟩
    · exact hrowA
    · exact hrow'

/-- What a well-formed internal node guarantees about any of its row
segments: the segment row is well-formed over its carved-out interval, and
the segment's separators are strictly sorted, strictly inside that
interval, and strictly above the segment's head key when a left flank
exists. -/
theorem wfN_seg_facts (lo hi : Option Nat) (A B S : List (Nat × BptNode))
    (hwf : wfN lo hi (.internal (A ++ S ++ B)) = true) (hSne : S ≠ []) :
    wfRow (rowLo lo A (segKey S)) (rowHi hi B) S = true ∧
    List.Pairwise (· < ·) ((S.map Prod.fst).drop 1) ∧
    (∀ s ∈ (S.map Prod.fst).drop 1,
       lbOkS (rowLo lo A (segKey S)) s = true ∧ ubOk (rowHi hi B) s = true) := by
  obtain ⟨sk, sc, S0, rfl⟩ : ∃ sk sc S0, S = (sk, sc) :: S0 := by
    cases S with
    | nil => exact absurd rfl hSne
    | cons s0 S0 =>
      obtain ⟨sk, sc⟩ := s0
      exact ⟨sk, sc, S0, rfl⟩
  rw [wfN_internal_iff] at hwf
  obtain ⟨hne, hsort, hbnd, hrow⟩ := hwf
  have hsk : segKey ((sk, sc) :: S0) = sk := rfl
  rw [hsk]
  refine ⟨by
    have := (wfRow_split3 lo hi A ((sk, sc) :: S0) B (by simp)).mp hrow
    rw [hsk] at this
    exact this.2.1, ?_, ?_⟩
  all_goals
    simp only [List.map_cons, List.drop_succ_cons, List.drop_zero]
  · by_cases hAe : A = []
    · subst hAe
      simp only [List.nil_append, List.map_append, List.map_cons] at hsort
      rw [drop1_append _ _ (by simp)] at hsort
      simp only [List.drop_succ_cons, List.drop_zero] at hsort
      exact (List.pairwise_append.mp hsort).1
    · have hAm : A.map Prod.fst ≠ [] := by
        cases A with
        | nil => exact absurd rfl hAe
        | cons _ _ => simp
      have hd : (((A ++ (sk, sc) :: S0) ++ B).map Prod.fst).drop 1 =
          ((A.map Prod.fst).drop 1 ++ (sk :: S0.map Prod.fst)) ++ B.map Prod.fst := by
        simp only [List.map_append, List.map_cons]
        rw [drop1_append _ _ (by simp [hAm]), drop1_append _ _ hAm]
      rw [hd] at hsort
      have h1 := (List.pairwise_append.mp (List.pairwise_append.mp hsort).1).2.1
      exact (List.pairwise_cons.mp h1).2
  · intro s hs
    by_cases hAe : A = []
    · subst hAe
      have hd : ((([] ++ (sk, sc) :: S0) ++ B).map Prod.fst).drop 1 =
          S0.map Prod.fst ++ B.map Prod.fst := by
        simp
      rw [hd] at hsort hbnd
      refine ⟨?_, ?_⟩
      · have := (hbnd s (List.mem_append.mpr (Or.inl hs))).1
        simpa [rowLo] using this
      · cases B with
        | nil => simpa [rowHi] using (hbnd s (List.mem_append.mpr (Or.inl hs))).2
        | cons b B' =>
          obtain ⟨_, hPB, hcross⟩ := List.pairwise_append.mp hsort
          have h1 : s < b.1 := hcross s hs b.1 (by simp)
          simpa [rowHi, ubOk] using h1
    · have hAm : A.map Prod.fst ≠ [] := by
        cases A with
        | nil => exact absurd rfl hAe
        | cons _ _ => simp
      have hd : (((A ++ (sk, sc) :: S0) ++ B).map Prod.fst).drop 1 =
          ((A.map Prod.fst).drop 1 ++ (sk :: S0.map Prod.fst)) ++ B.map Prod.fst := by
        simp only [List.map_append, List.map_cons]
        rw [drop1_append _ _ (by simp [hAm]), drop1_append _ _ hAm]
      rw [hd] at hsort hbnd
      have hrl : rowLo lo A sk = some sk := by
        cases A with
        | nil => exact absurd rfl hAe
        | cons _ _ => simp [rowLo]
      obtain ⟨hXS, hPB, hcross⟩ := List.pairwise_append.mp hsort
      have hsS : s ∈ (A.map Prod.fst).drop 1 ++ (sk :: S0.map Prod.fst) :=
        List.mem_append.mpr (Or.inr (List.mem_cons_of_mem _ hs))
      refine ⟨?_, ?_⟩
      · have h1 := (List.pairwise_append.mp hXS).2.1
        have h2 : sk < s := (List.pairwise_cons.mp h1).1 s hs
        rw [hrl]
        simpa [lbOkS] using h2
      · cases B with
        | nil => simpa [rowHi] using (hbnd s (List.mem_append.mpr (Or.inl hsS))).2
        | cons b B' =>
          have h1 : s < b.1 := hcross s hsS b.1 (by simp)
          simpa [rowHi, ubOk] using h1

/-- Borrowing the left sibling's last pair into an underflowing leaf keeps
the flattened row and the ordering invariant. -/
theorem fixBL_leaf (lo hi : Option Nat) (A' B : List (Nat × BptNode)) (kL kI : Nat)
    (lbro cur : List (Nat × Nat))
    (hwf : wfN lo hi (.internal (A' ++ (kL, .leaf lbro) :: (kI, .leaf cur) :: B)) = true)
    (hlb2 : 2 ≤ lbro.length) :
    rowList (A' ++ (kL, .leaf lbro.dropLast) ::
        ((lbro.getD (lbro.length - 1) (0, 0)).1,
          .leaf (lbro.getD (lbro.length - 1) (0, 0) :: cur)) :: B) =
      rowList (A' ++ (kL, .leaf lbro) :: (kI, .leaf cur) :: B) ∧
    wfN lo hi (.internal (A' ++ (kL, .leaf lbro.dropLast) ::
        ((lbro.getD (lbro.length - 1) (0, 0)).1,
          .leaf (lbro.getD (lbro.length - 1) (0, 0) :: cur)) :: B)) = true := by
  have hlne : lbro ≠ [] := by
    cases lbro with
    | nil => simp at hlb2
    | cons _ _ => simp
  have hpget : lbro.getD (lbro.length - 1) (0, 0) = lbro.getLast hlne :=
    getD_last lbro (0, 0) hlne
  rw [hpget]
  have hwf' : wfN lo hi
      (.internal (A' ++ [(kL, .leaf lbro), (kI, .leaf cur)] ++ B)) = true := by
    rw [show A' ++ [(kL, BptNode.leaf lbro), (kI, BptNode.leaf cur)] ++ B =
      A' ++ (kL, BptNode.leaf lbro) :: (kI, BptNode.leaf cur) :: B by simp]
    exact hwf
  obtain ⟨hrowS, hchS, hinnS⟩ := wfN_seg_facts lo hi A' B _ hwf' (by simp)
  have hsk : segKey [(kL, BptNode.leaf lbro), (kI, BptNode.leaf cur)] = kL := rfl
  rw [hsk] at hrowS hinnS
  rw [wfRow_cons2, Bool.and_eq_true, wfRow_single] at hrowS
  obtain ⟨hwlb, hwcur⟩ := hrowS
  rw [wfN_leaf_iff] at hwlb hwcur
  obtain ⟨hplb, hblb⟩ := hwlb
  obtain ⟨hpcur, hbcur⟩ := hwcur
  have hkIbnd := hinnS kI (by simp)
  have hpmem : lbro.getLast hlne ∈ lbro := List.getLast_mem hlne
  have hplt : (lbro.getLast hlne).1 < kI := by
    have h1 := hblb _ hpmem
    rw [bndOk_split] at h1
    simpa [ubOk] using h1.2
  have hxlt : ∀ x ∈ lbro.dropLast, x.1 < (lbro.getLast hlne).1 :=
    map_dropLast_lt_getLast Prod.fst lbro hplb hlne
  obtain ⟨x0, lrest, rfl⟩ : ∃ x0 lrest, lbro = x0 :: lrest := by
    cases lbro with
    | nil => exact absurd rfl hlne
    | cons x0 lrest => exact ⟨x0, lrest, rfl⟩
  have hlrne : lrest ≠ [] := by
    cases lrest with
    | nil => simp at hlb2
    | cons _ _ => simp
  have hx0mem : x0 ∈ (x0 :: lrest).dropLast := by
    cases lrest with
    | nil => exact absurd rfl hlrne
    | cons y ys => simp
  have hlbOkS : lbOkS (rowLo lo A' kL) ((x0 :: lrest).getLast hlne).1 = true := by
    have h1 := hblb x0 (by simp)
    rw [bndOk_split] at h1
    exact lbOkS_of_lt_lbOk _ x0.1 _ h1.1 (hxlt x0 hx0mem)
  have hpub : ubOk (rowHi hi B) ((x0 :: lrest).getLast hlne).1 = true :=
    ubOk_of_le_ubOk _ kI _ (Nat.le_of_lt hplt) hkIbnd.2
  have hseg : (x0 :: lrest).dropLast ++ (x0 :: lrest).getLast hlne :: cur =
      (x0 :: lrest) ++ cur := by
    rw [List.append_cons, List.dropLast_append_getLast]
  constructor
  · rw [rowList_append, rowList_cons, rowList_cons,
      rowList_append, rowList_cons, rowList_cons,
      toList_leaf, toList_leaf, toList_leaf, toList_leaf]
    refine congrArg (rowList A' ++ ·) ?_
    rw [← List.append_assoc, hseg, List.append_assoc]
  · rw [show A' ++ (kL, BptNode.leaf (x0 :: lrest).dropLast) ::
        (((x0 :: lrest).getLast hlne).1,
          BptNode.leaf ((x0 :: lrest).getLast hlne :: cur)) :: B =
        A' ++ [(kL, BptNode.leaf (x0 :: lrest).dropLast),
          (((x0 :: lrest).getLast hlne).1,
            BptNode.leaf ((x0 :: lrest).getLast hlne :: cur))] ++ B from by simp]
    refine wfN_replace_seg lo hi A' B
      [(kL, .leaf (x0 :: lrest)), (kI, .leaf cur)]
      [(kL, .leaf (x0 :: lrest).dropLast),
        (((x0 :: lrest).getLast hlne).1, .leaf ((x0 :: lrest).getLast hlne :: cur))]
      hwf' (by simp) (by simp) rfl ?_ (by simp) ?_
    · rw [hsk, wfRow_cons2, Bool.and_eq_true, wfRow_single]
      constructor
      · rw [wfN_leaf_iff]
        refine ⟨hplb.sublist (List.Sublist.map Prod.fst (List.dropLast_sublist _)), ?_⟩
        intro kv hkv
        rw [bndOk_split]
        have h1 := hblb kv (List.dropLast_subset _ hkv)
        rw [bndOk_split] at h1
        refine ⟨h1.1, ?_⟩
        simpa [ubOk] using hxlt kv hkv
      · rw [wfN_leaf_iff]
        constructor
        · simp only [List.map_cons]
          refine List.pairwise_cons.mpr ⟨?_, hpcur⟩
          intro y hy
          obtain ⟨q, hq, rfl⟩ := List.mem_map.mp hy
          have h1 := hbcur q hq
          rw [bndOk_split] at h1
          have h2 : kI ≤ q.1 := by simpa [lbOk] using h1.1
          omega
        · intro kv hkv
          rw [bndOk_split]
          rcases List.mem_cons.mp hkv with rfl | hkv
          · exact ⟨by simp [lbOk], hpub⟩
          · have h1 := hbcur kv hkv
            rw [bndOk_split] at h1
            have h2 : kI ≤ kv.1 := by simpa [lbOk] using h1.1
            refine ⟨by simp [lbOk]; omega, h1.2⟩
    · intro s hs
      simp only [List.map_cons, List.map_nil, List.drop_succ_cons, List.drop_zero,
        List.mem_cons, List.not_mem_nil, or_false] at hs
      subst hs
      exact ⟨hlbOkS, hpub⟩

/-- Borrowing the right sibling's first pair into an underflowing leaf keeps
the flattened row and the ordering invariant. -/
theorem fixBR_leaf (lo hi : Option Nat) (A B : List (Nat × BptNode)) (kI kR : Nat)
    (cur rbro : List (Nat × Nat))
    (hwf : wfN lo hi (.internal (A ++ (kI, .leaf cur) :: (kR, .leaf rbro) :: B)) = true)
    (hrb2 : 2 ≤ rbro.length) :
    rowList (A ++ (kI, .leaf (cur ++ [rbro.getD 0 (0, 0)])) ::
        ((rbro.getD 1 (0, 0)).1, .leaf (rbro.drop 1)) :: B) =
      rowList (A ++ (kI, .leaf cur) :: (kR, .leaf rbro) :: B) ∧
    wfN lo hi (.internal (A ++ (kI, .leaf (cur ++ [rbro.getD 0 (0, 0)])) ::
        ((rbro.getD 1 (0, 0)).1, .leaf (rbro.drop 1)) :: B)) = true := by
  obtain ⟨r0, r1, rrest, rfl⟩ : ∃ r0 r1 rrest, rbro = r0 :: r1 :: rrest := by
    cases rbro with
    | nil => simp at hrb2
    | cons r0 rtl =>
      cases rtl with
      | nil => simp at hrb2
      | cons r1 rrest => exact ⟨r0, r1, rrest, rfl⟩
  simp only [List.getD_cons_zero, List.getD_cons_succ, List.drop_succ_cons,
    List.drop_zero]
  have hwf' : wfN lo hi
      (.internal (A ++ [(kI, .leaf cur), (kR, .leaf (r0 :: r1 :: rrest))] ++ B)) = true := by
    rw [show A ++ [(kI, BptNode.leaf cur), (kR, BptNode.leaf (r0 :: r1 :: rrest))] ++ B =
      A ++ (kI, BptNode.leaf cur) :: (kR, BptNode.leaf (r0 :: r1 :: rrest)) :: B by simp]
    exact hwf
  obtain ⟨hrowS, hchS, hinnS⟩ := wfN_seg_facts lo hi A B _ hwf' (by simp)
  have hsk : segKey [(kI, BptNode.leaf cur),
      (kR, BptNode.leaf (r0 :: r1 :: rrest))] = kI := rfl
  rw [hsk] at hrowS hinnS
  rw [wfRow_cons2, Bool.and_eq_true, wfRow_single] at hrowS
  obtain ⟨hwcur, hwrb⟩ := hrowS
  rw [wfN_leaf_iff] at hwcur hwrb
  obtain ⟨hpcur, hbcur⟩ := hwcur
  obtain ⟨hprb, hbrb⟩ := hwrb
  have hkRbnd := hinnS kR (by simp)
  have hr0lb : kR ≤ r0.1 := by
    have h1 := hbrb r0 (by simp)
    rw [bndOk_split] at h1
    simpa [lbOk] using h1.1
  have hr01 : r0.1 < r1.1 := by
    simp only [List.map_cons] at hprb
    exact (List.pairwise_cons.mp hprb).1 r1.1 (by simp)
  have hcurlt : ∀ c ∈ cur, c.1 < kR := by
    intro c hc
    have h1 := hbcur c hc
    rw [bndOk_split] at h1
    simpa [ubOk] using h1.2
  have hr1ub : ubOk (rowHi hi B) r1.1 = true := by
    have h1 := hbrb r1 (by simp)
    rw [bndOk_split] at h1
    exact h1.2
  have hlor1 : lbOkS (rowLo lo A kI) r1.1 = true :=
    lbOkS_of_le _ kR _ hkRbnd.1 (by omega)
  constructor
  · rw [rowList_append, rowList_cons, rowList_cons,
      rowList_append, rowList_cons, rowList_cons,
      toList_leaf, toList_leaf, toList_leaf, toList_leaf]
    refine congrArg (rowList A ++ ·) ?_
    rw [← List.append_assoc]
    simp
  · rw [show A ++ (kI, BptNode.leaf (cur ++ [r0])) ::
        (r1.1, BptNode.leaf (r1 :: rrest)) :: B =
        A ++ [(kI, BptNode.leaf (cur ++ [r0])),
          (r1.1, BptNode.leaf (r1 :: rrest))] ++ B from by simp]
    refine wfN_replace_seg lo hi A B
      [(kI, .leaf cur), (kR, .leaf (r0 :: r1 :: rrest))]
      [(kI, .leaf (cur ++ [r0])), (r1.1, .leaf (r1 :: rrest))]
      hwf' (by simp) (by simp) rfl ?_ (by simp) ?_
    · rw [hsk, wfRow_cons2, Bool.and_eq_true, wfRow_single]
      constructor
      · rw [wfN_leaf_iff]
        constructor
        · rw [List.map_append]
          rw [List.pairwise_append]
          refine ⟨hpcur, by simp, ?_⟩
          intro a ha b hb
          simp only [List.map_cons, List.map_nil, List.mem_singleton] at hb
          subst hb
          obtain ⟨c, hc, rfl⟩ := List.mem_map.mp ha
          exact Nat.lt_of_lt_of_le (hcurlt c hc) hr0lb
        · intro kv hkv
          rw [bndOk_split]
          rcases List.mem_append.mp hkv with hkv | hkv
          · have h1 := hbcur kv hkv
            rw [bndOk_split] at h1
            refine ⟨h1.1, ?_⟩
            have := hcurlt kv hkv
            simp only [ubOk]
            simp only [decide_eq_true_eq]
            omega
          · simp only [List.mem_singleton] at hkv
            subst hkv
            refine ⟨lbOk_of_lbOkS _ _ (lbOkS_of_le _ kR _ hkRbnd.1 hr0lb), ?_⟩
            simp only [ubOk, decide_eq_true_eq]
            omega
      · rw [wfN_leaf_iff]
        constructor
        · simp only [List.map_cons] at hprb ⊢
          exact (List.pairwise_cons.mp hprb).2
        · intro kv hkv
          rw [bndOk_split]
          have h1 := hbrb kv (List.mem_cons_of_mem r0 hkv)
          rw [bndOk_split] at h1
          refine ⟨?_, h1.2⟩
          rcases List.mem_cons.mp hkv with rfl | hkv
          · simp [lbOk]
          · simp only [List.map_cons] at hprb
            have h2 := (List.pairwise_cons.mp (List.pairwise_cons.mp hprb).2).1
              kv.1 (List.mem_map_of_mem Prod.fst hkv)
            simp only [lbOk, decide_eq_true_eq]
            omega
    · intro s hs
      simp only [List.map_cons, List.map_nil, List.drop_succ_cons, List.drop_zero,
        List.mem_cons, List.not_mem_nil, or_false] at hs
      subst hs
      exact ⟨hlor1, hr1ub⟩

/-- Two adjacent leaves separated by `kM` concatenate into one well-formed
leaf over the joint interval. -/
theorem wfN_leaf_merge (lo hi : Option Nat) (kM : Nat) (xs ys : List (Nat × Nat))
    (hx : wfN lo (some kM) (.leaf xs) = true)
    (hy : wfN (some kM) hi (.leaf ys) = true)
    (hlb : lbOk lo kM = true) (hub : ubOk hi kM = true) :
    wfN lo hi (.leaf (xs ++ ys)) = true := by
  rw [wfN_leaf_iff] at hx hy ⊢
  obtain ⟨hpx, hbx⟩ := hx
  obtain ⟨hpy, hby⟩ := hy
  constructor
  · rw [List.map_append, List.pairwise_append]
    refine ⟨hpx, hpy, ?_⟩
    intro a ha b hb
    obtain ⟨p, hp, rfl⟩ := List.mem_map.mp ha
    obtain ⟨q, hq, rfl⟩ := List.mem_map.mp hb
    have h1 := hbx p hp
    rw [bndOk_split] at h1
    have h2 := hby q hq
    rw [bndOk_split] at h2
    have h3 : p.1 < kM := by simpa [ubOk] using h1.2
    have h4 : kM ≤ q.1 := by simpa [lbOk] using h2.1
    omega
  · intro kv hkv
    rw [bndOk_split]
    rcases List.mem_append.mp hkv with hkv | hkv
    · have h1 := hbx kv hkv
      rw [bndOk_split] at h1
      have h3 : kv.1 < kM := by simpa [ubOk] using h1.2
      exact ⟨h1.1, ubOk_of_le_ubOk hi kM kv.1 (Nat.le_of_lt h3) hub⟩
    · have h2 := hby kv hkv
      rw [bndOk_split] at h2
      have h4 : kM ≤ kv.1 := by simpa [lbOk] using h2.1
      exact ⟨lbOk_of_le lo kM kv.1 hlb h4, h2.2⟩

/-- Merging an underflowing leaf into its left sibling keeps the flattened
row and the ordering invariant. -/
theorem fixML_leaf (lo hi : Option Nat) (A' B : List (Nat × BptNode)) (kL kI : Nat)
    (lbro cur : List (Nat × Nat))
    (hwf : wfN lo hi (.internal (A' ++ (kL, .leaf lbro) :: (kI, .leaf cur) :: B)) = true) :
    rowList (A' ++ (kL, .leaf (lbro ++ cur)) :: B) =
      rowList (A' ++ (kL, .leaf lbro) :: (kI, .leaf cur) :: B) ∧
    wfN lo hi (.internal (A' ++ (kL, .leaf (lbro ++ cur)) :: B)) = true := by
  have hwf' : wfN lo hi
      (.internal (A' ++ [(kL, .leaf lbro), (kI, .leaf cur)] ++ B)) = true := by
    rw [show A' ++ [(kL, BptNode.leaf lbro), (kI, BptNode.leaf cur)] ++ B =
      A' ++ (kL, BptNode.leaf lbro) :: (kI, BptNode.leaf cur) :: B by simp]
    exact hwf
  obtain ⟨hrowS, hchS, hinnS⟩ := wfN_seg_facts lo hi A' B _ hwf' (by simp)
  have hsk : segKey [(kL, BptNode.leaf lbro), (kI, BptNode.leaf cur)] = kL := rfl
  rw [hsk] at hrowS hinnS
  rw [wfRow_cons2, Bool.and_eq_true, wfRow_single] at hrowS
  obtain ⟨hwlb, hwcur⟩ := hrowS
  have hkIbnd := hinnS kI (by simp)
  constructor
  · rw [rowList_append, rowList_cons, rowList_append, rowList_cons, rowList_cons,
      toList_leaf, toList_leaf, toList_leaf]
    simp
  · rw [show A' ++ (kL, BptNode.leaf (lbro ++ cur)) :: B =
        A' ++ [(kL, BptNode.leaf (lbro ++ cur))] ++ B from by simp]
    refine wfN_replace_seg lo hi A' B
      [(kL, .leaf lbro), (kI, .leaf cur)] [(kL, .leaf (lbro ++ cur))]
      hwf' (by simp) (by simp) rfl ?_ (by simp) (by simp)
    rw [hsk, wfRow_single]
    exact wfN_leaf_merge (rowLo lo A' kL) (rowHi hi B) kI lbro cur hwlb hwcur
      (lbOk_of_lbOkS _ _ hkIbnd.1) hkIbnd.2

/-- Merging the right sibling into an underflowing slot-0 leaf (the head key
moving up is immaterial to the invariant) keeps the flattened row and the
ordering invariant. -/
theorem fixM0_leaf (lo hi : Option Nat) (B : List (Nat × BptNode)) (k0 k1 : Nat)
    (cur rkvs : List (Nat × Nat))
    (hwf : wfN lo hi (.internal ((k0, .leaf cur) :: (k1, .leaf rkvs) :: B)) = true) :
    rowList ((k1, .leaf (cur ++ rkvs)) :: B) =
      rowList ((k0, .leaf cur) :: (k1, .leaf rkvs) :: B) ∧
    wfN lo hi (.internal ((k1, .leaf (cur ++ rkvs)) :: B)) = true := by
  have hwf' : wfN lo hi
      (.internal (([] : List (Nat × BptNode)) ++
        [(k0, .leaf cur), (k1, .leaf rkvs)] ++ B)) = true := by
    simpa using hwf
  obtain ⟨hrowS, hchS, hinnS⟩ := wfN_seg_facts lo hi [] B _ hwf' (by simp)
  have hsk : segKey [(k0, BptNode.leaf cur), (k1, BptNode.leaf rkvs)] = k0 := rfl
  rw [hsk] at hrowS hinnS
  rw [wfRow_cons2, Bool.and_eq_true, wfRow_single] at hrowS
  obtain ⟨hwcur, hwr⟩ := hrowS
  have hk1bnd := hinnS k1 (by simp)
  have hrl : rowLo lo ([] : List (Nat × BptNode)) k0 = lo := rfl
  rw [hrl] at hwcur hk1bnd
  constructor
  · rw [rowList_cons, rowList_cons, rowList_cons, toList_leaf, toList_leaf, toList_leaf]
    simp
  · rw [wfN_int_headKey lo hi k1 k0]
    rw [show (k0, BptNode.leaf (cur ++ rkvs)) :: B =
        ([] : List (Nat × BptNode)) ++ [(k0, BptNode.leaf (cur ++ rkvs))] ++ B from by simp]
    refine wfN_replace_seg lo hi [] B
      [(k0, .leaf cur), (k1, .leaf rkvs)] [(k0, .leaf (cur ++ rkvs))]
      hwf' (by simp) (by simp) rfl ?_ (by simp) (by simp)
    rw [hsk, hrl, wfRow_single]
    exact wfN_leaf_merge lo (rowHi hi B) k1 cur rkvs hwcur hwr
      (lbOk_of_lbOkS _ _ hk1bnd.1) hk1bnd.2

/-- Two adjacent internal nodes separated by `kM` concatenate into one
well-formed internal node once `kM` is written over the right node's unused
slot-0 key. -/
theorem wfN_int_merge (lo hi : Option Nat) (kM ky : Nat) (cy : BptNode)
    (xs ys' : List (Nat × BptNode))
    (hx : wfN lo (some kM) (.internal xs) = true)
    (hy : wfN (some kM) hi (.internal ((ky, cy) :: ys')) = true)
    (hlb : lbOkS lo kM = true) (hub : ubOk hi kM = true) :
    wfN lo hi (.internal (xs ++ (kM, cy) :: ys')) = true := by
  rw [wfN_internal_iff] at hx hy ⊢
  obtain ⟨hxne, hxp, hxb, hxr⟩ := hx
  obtain ⟨-, hyp, hyb, hyr⟩ := hy
  simp only [List.map_cons, List.drop_succ_cons, List.drop_zero] at hyp hyb
  have hxm : xs.map Prod.fst ≠ [] := by
    cases xs with
    | nil => exact absurd rfl hxne
    | cons _ _ => simp
  have hd : ((xs ++ (kM, cy) :: ys').map Prod.fst).drop 1 =
      (xs.map Prod.fst).drop 1 ++ kM :: ys'.map Prod.fst := by
    simp only [List.map_append, List.map_cons]
    rw [drop1_append _ _ hxm]
  refine ⟨by simp [hxne], ?_, ?_, ?_⟩
  · rw [hd, List.pairwise_append]
    refine ⟨hxp, ?_, ?_⟩
    · refine List.pairwise_cons.mpr ⟨?_, hyp⟩
      intro s hs
      simpa [lbOkS] using (hyb s hs).1
    · intro a ha b hb
      have h2 : a < kM := by simpa [ubOk] using (hxb a ha).2
      rcases List.mem_cons.mp hb with rfl | hb
      · exact h2
      · have h3 : kM < b := by simpa [lbOkS] using (hyb b hb).1
        omega
  · rw [hd]
    intro s hs
    rcases List.mem_append.mp hs with hs | hs
    · have h1 := hxb s hs
      have h2 : s < kM := by simpa [ubOk] using h1.2
      exact ⟨h1.1, ubOk_of_le_ubOk hi kM s (Nat.le_of_lt h2) hub⟩
    · rcases List.mem_cons.mp hs with rfl | hs
      · exact ⟨hlb, hub⟩
      · have h1 := hyb s hs
        have h2 : kM < s := by simpa [lbOkS] using h1.1
        exact ⟨lbOkS_of_le lo kM s hlb (Nat.le_of_lt h2), h1.2⟩
  · rw [wfRow_append' hi (kM, cy) ys' xs lo hxne, Bool.and_eq_true]
    refine ⟨hxr, ?_⟩
    rw [wfRow_headKey (some kM) hi kM ky cy ys']
    exact hyr

/-- Merging an underflowing internal node into its left sibling (with the
parent separator pulled down over the unused slot-0 key) keeps the flattened
row and the ordering invariant. -/
theorem fixML_int (lo hi : Option Nat) (A' B : List (Nat × BptNode)) (kL kI : Nat)
    (lbro : List (Nat × BptNode)) (c0 : Nat × BptNode) (cur' : List (Nat × BptNode))
    (hwf : wfN lo hi (.internal (A' ++ (kL, .internal lbro) ::
        (kI, .internal (c0 :: cur')) :: B)) = true) :
    rowList (A' ++ (kL, .internal (lbro ++ (kI, c0.2) :: cur')) :: B) =
      rowList (A' ++ (kL, .internal lbro) :: (kI, .internal (c0 :: cur')) :: B) ∧
    wfN lo hi (.internal (A' ++
        (kL, .internal (lbro ++ (kI, c0.2) :: cur')) :: B)) = true := by
  have hwf' : wfN lo hi
      (.internal (A' ++ [(kL, .internal lbro), (kI, .internal (c0 :: cur'))] ++ B)) = true := by
    rw [show A' ++ [(kL, BptNode.internal lbro), (kI, BptNode.internal (c0 :: cur'))] ++ B =
      A' ++ (kL, BptNode.internal lbro) :: (kI, BptNode.internal (c0 :: cur')) :: B by simp]
    exact hwf
  obtain ⟨hrowS, hchS, hinnS⟩ := wfN_seg_facts lo hi A' B _ hwf' (by simp)
  have hsk : segKey [(kL, BptNode.internal lbro),
      (kI, BptNode.internal (c0 :: cur'))] = kL := rfl
  rw [hsk] at hrowS hinnS
  rw [wfRow_cons2, Bool.and_eq_true, wfRow_single] at hrowS
  obtain ⟨hwlb, hwcur⟩ := hrowS
  have hkIbnd := hinnS kI (by simp)
  constructor
  · simp [rowList, toList_internal']
  · rw [show A' ++ (kL, BptNode.internal (lbro ++ (kI, c0.2) :: cur')) :: B =
        A' ++ [(kL, BptNode.internal (lbro ++ (kI, c0.2) :: cur'))] ++ B from by simp]
    refine wfN_replace_seg lo hi A' B
      [(kL, .internal lbro), (kI, .internal (c0 :: cur'))]
      [(kL, .internal (lbro ++ (kI, c0.2) :: cur'))]
      hwf' (by simp) (by simp) rfl ?_ (by simp) (by simp)
    rw [hsk, wfRow_single]
    exact wfN_int_merge (rowLo lo A' kL) (rowHi hi B) kI c0.1 c0.2 lbro cur'
      hwlb hwcur hkIbnd.1 hkIbnd.2

/-- Merging the right sibling into an underflowing slot-0 internal node
(the promoted separator being written over the right node's slot-0 key)
keeps the flattened row and the ordering invariant. -/
theorem fixM0_int (lo hi : Option Nat) (B : List (Nat × BptNode)) (k0 k1 : Nat)
    (cur : List (Nat × BptNode)) (r0 : Nat × BptNode) (re' : List (Nat × BptNode))
    (hwf : wfN lo hi (.internal ((k0, .internal cur) ::
        (k1, .internal (r0 :: re')) :: B)) = true) :
    rowList ((k1, .internal (cur ++ (k1, r0.2) :: re')) :: B) =
      rowList ((k0, .internal cur) :: (k1, .internal (r0 :: re')) :: B) ∧
    wfN lo hi (.internal ((k1, .internal (cur ++ (k1, r0.2) :: re')) :: B)) = true := by
  have hwf' : wfN lo hi
      (.internal (([] : List (Nat × BptNode)) ++
        [(k0, .internal cur), (k1, .internal (r0 :: re'))] ++ B)) = true := by
    simpa using hwf
  obtain ⟨hrowS, hchS, hinnS⟩ := wfN_seg_facts lo hi [] B _ hwf' (by simp)
  have hsk : segKey [(k0, BptNode.internal cur),
      (k1, BptNode.internal (r0 :: re'))] = k0 := rfl
  rw [hsk] at hrowS hinnS
  rw [wfRow_cons2, Bool.and_eq_true, wfRow_single] at hrowS
  obtain ⟨hwcur, hwr⟩ := hrowS
  have hk1bnd := hinnS k1 (by simp)
  have hrl : rowLo lo ([] : List (Nat × BptNode)) k0 = lo := rfl
  rw [hrl] at hwcur hk1bnd
  constructor
  · simp [rowList, toList_internal']
  · rw [wfN_int_headKey lo hi k1 k0]
    rw [show (k0, BptNode.internal (cur ++ (k1, r0.2) :: re')) :: B =
        ([] : List (Nat × BptNode)) ++
          [(k0, BptNode.internal (cur ++ (k1, r0.2) :: re'))] ++ B from by simp]
    refine wfN_replace_seg lo hi [] B
      [(k0, .internal cur), (k1, .internal (r0 :: re'))]
      [(k0, .internal (cur ++ (k1, r0.2) :: re'))]
      hwf' (by simp) (by simp) rfl ?_ (by simp) (by simp)
    rw [hsk, hrl, wfRow_single]
    exact wfN_int_merge lo (rowHi hi B) k1 r0.1 r0.2 cur re'
      hwcur hwr hk1bnd.1 hk1bnd.2

/-- Borrowing the left sibling's last entry into an underflowing internal
node (rotating keys through the parent separator) keeps the flattened row
and the ordering invariant. -/
theorem fixBL_int (lo hi : Option Nat) (A' B : List (Nat × BptNode)) (kL kI : Nat)
    (lbro : List (Nat × BptNode)) (c0 : Nat × BptNode) (cur' : List (Nat × BptNode))
    (hwf : wfN lo hi (.internal (A' ++ (kL, .internal lbro) ::
        (kI, .internal (c0 :: cur')) :: B)) = true)
    (hlb2 : 2 ≤ lbro.length) :
    rowList (A' ++ (kL, .internal lbro.dropLast) ::
        ((lbro.getD (lbro.length - 1) (0, .leaf [])).1,
          .internal (lbro.getD (lbro.length - 1) (0, .leaf []) ::
            (kI, c0.2) :: cur')) :: B) =
      rowList (A' ++ (kL, .internal lbro) :: (kI, .internal (c0 :: cur')) :: B) ∧
    wfN lo hi (.internal (A' ++ (kL, .internal lbro.dropLast) ::
        ((lbro.getD (lbro.length - 1) (0, .leaf [])).1,
          .internal (lbro.getD (lbro.length - 1) (0, .leaf []) ::
            (kI, c0.2) :: cur')) :: B)) = true := by
  rcases List.eq_nil_or_concat lbro with rfl | ⟨lb', p, rfl⟩
  · simp at hlb2
  obtain ⟨kP, cP⟩ := p
  simp only [List.concat_eq_append] at hwf hlb2 ⊢
  have hlen1 : (lb' ++ [(kP, cP)]).length - 1 = lb'.length := by simp
  rw [hlen1, getD_at_len, List.dropLast_concat]
  have hlb'ne : lb' ≠ [] := by
    simp only [List.length_append, List.length_cons, List.length_nil] at hlb2
    cases lb' with
    | nil => simp at hlb2
    | cons _ _ => simp
  have hlbm : lb'.map Prod.fst ≠ [] := by
    cases lb' with
    | nil => exact absurd rfl hlb'ne
    | cons _ _ => simp
  have hwf' : wfN lo hi
      (.internal (A' ++ [(kL, .internal (lb' ++ [(kP, cP)])),
        (kI, .internal (c0 :: cur'))] ++ B)) = true := by
    rw [show A' ++ [(kL, BptNode.internal (lb' ++ [(kP, cP)])),
        (kI, BptNode.internal (c0 :: cur'))] ++ B =
      A' ++ (kL, BptNode.internal (lb' ++ [(kP, cP)])) ::
        (kI, BptNode.internal (c0 :: cur')) :: B by simp]
    exact hwf
  obtain ⟨hrowS, hchS, hinnS⟩ := wfN_seg_facts lo hi A' B _ hwf' (by simp)
  have hsk : segKey [(kL, BptNode.internal (lb' ++ [(kP, cP)])),
      (kI, BptNode.internal (c0 :: cur'))] = kL := rfl
  rw [hsk] at hrowS hinnS
  rw [wfRow_cons2, Bool.and_eq_true, wfRow_single] at hrowS
  obtain ⟨hwlb, hwcur⟩ := hrowS
  have hkIbnd := hinnS kI (by simp)
  rw [wfN_internal_iff] at hwlb hwcur
  obtain ⟨-, hlbp, hlbb, hlbr⟩ := hwlb
  obtain ⟨-, hcp, hcb, hcr⟩ := hwcur
  simp only [List.map_cons, List.drop_succ_cons, List.drop_zero] at hcp hcb
  have hsepdec : (((lb' ++ [(kP, cP)]).map Prod.fst).drop 1) =
      (lb'.map Prod.fst).drop 1 ++ [kP] := by
    simp only [List.map_append, List.map_cons, List.map_nil]
    rw [drop1_append _ _ hlbm]
  rw [hsepdec] at hlbp hlbb
  have hkPb := hlbb kP (List.mem_append.mpr (Or.inr (by simp)))
  have hkPlt : kP < kI := by simpa [ubOk] using hkPb.2
  obtain ⟨hpre, -, hcross⟩ := List.pairwise_append.mp hlbp
  rw [wfRow_append' (some kI) (kP, cP) ([] : List (Nat × BptNode)) lb'
    (rowLo lo A' kL) hlb'ne, Bool.and_eq_true] at hlbr
  obtain ⟨hlbrowA, hlbrowP⟩ := hlbr
  rw [wfRow_single] at hlbrowP
  constructor
  · simp [rowList, toList_internal']
  · rw [show A' ++ (kL, BptNode.internal lb') ::
        (kP, BptNode.internal ((kP, cP) :: (kI, c0.2) :: cur')) :: B =
        A' ++ [(kL, BptNode.internal lb'),
          (kP, BptNode.internal ((kP, cP) :: (kI, c0.2) :: cur'))] ++ B from by simp]
    refine wfN_replace_seg lo hi A' B
      [(kL, .internal (lb' ++ [(kP, cP)])), (kI, .internal (c0 :: cur'))]
      [(kL, .internal lb'), (kP, .internal ((kP, cP) :: (kI, c0.2) :: cur'))]
      hwf' (by simp) (by simp) rfl ?_ (by simp) ?_
    · rw [hsk, wfRow_cons2, Bool.and_eq_true, wfRow_single]
      constructor
      · rw [wfN_internal_iff]
        refine ⟨hlb'ne, hpre, ?_, hlbrowA⟩
        intro s hs
        refine ⟨(hlbb s (List.mem_append.mpr (Or.inl hs))).1, ?_⟩
        have h1 : s < kP := hcross s hs kP (by simp)
        simpa [ubOk] using h1
      · rw [wfN_internal_iff]
        refine ⟨by simp, ?_, ?_, ?_⟩
        · simp only [List.map_cons, List.drop_succ_cons, List.drop_zero]
          refine List.pairwise_cons.mpr ⟨?_, hcp⟩
          intro s hs
          simpa [lbOkS] using (hcb s hs).1
        · simp only [List.map_cons, List.drop_succ_cons, List.drop_zero]
          intro s hs
          rcases List.mem_cons.mp hs with rfl | hs
          · exact ⟨by simpa [lbOkS] using hkPlt, hkIbnd.2⟩
          · have h1 := hcb s hs
            have h2 : kI < s := by simpa [lbOkS] using h1.1
            exact ⟨by simp [lbOkS]; omega, h1.2⟩
        · rw [wfRow_cons2, Bool.and_eq_true]
          refine ⟨hlbrowP, ?_⟩
          rw [wfRow_headKey (some kI) (rowHi hi B) kI c0.1 c0.2 cur']
          exact hcr
    · intro s hs
      simp only [List.map_cons, List.map_nil, List.drop_succ_cons, List.drop_zero,
        List.mem_cons, List.not_mem_nil, or_false] at hs
      subst hs
      exact ⟨hkPb.1, ubOk_of_le_ubOk _ kI _ (Nat.le_of_lt hkPlt) hkIbnd.2⟩

/-- Borrowing the right sibling's first entry into an underflowing internal
node (the parent separator coming down onto the borrowed child, the right
sibling's next key moving up) keeps the flattened row and the ordering
invariant. -/
theorem fixBR_int (lo hi : Option Nat) (A B : List (Nat × BptNode)) (kI kR : Nat)
    (cur rbro : List (Nat × BptNode))
    (hwf : wfN lo hi (.internal (A ++ (kI, .internal cur) ::
        (kR, .internal rbro) :: B)) = true)
    (hrb2 : 2 ≤ rbro.length) :
    rowList (A ++ (kI, .internal (cur ++ [(kR, (rbro.getD 0 (0, .leaf [])).2)])) ::
        ((rbro.getD 1 (0, .leaf [])).1, .internal (rbro.drop 1)) :: B) =
      rowList (A ++ (kI, .internal cur) :: (kR, .internal rbro) :: B) ∧
    wfN lo hi (.internal (A ++
        (kI, .internal (cur ++ [(kR, (rbro.getD 0 (0, .leaf [])).2)])) ::
        ((rbro.getD 1 (0, .leaf [])).1, .internal (rbro.drop 1)) :: B)) = true := by
  obtain ⟨r0, r1, rr', rfl⟩ : ∃ r0 r1 rr', rbro = r0 :: r1 :: rr' := by
    cases rbro with
    | nil => simp at hrb2
    | cons r0 rtl =>
      cases rtl with
      | nil => simp at hrb2
      | cons r1 rr' => exact ⟨r0, r1, rr', rfl⟩
  simp only [List.getD_cons_zero, List.getD_cons_succ, List.drop_succ_cons,
    List.drop_zero]
  have hwf' : wfN lo hi
      (.internal (A ++ [(kI, .internal cur),
        (kR, .internal (r0 :: r1 :: rr'))] ++ B)) = true := by
    rw [show A ++ [(kI, BptNode.internal cur),
        (kR, BptNode.internal (r0 :: r1 :: rr'))] ++ B =
      A ++ (kI, BptNode.internal cur) ::
        (kR, BptNode.internal (r0 :: r1 :: rr')) :: B by simp]
    exact hwf
  obtain ⟨hrowS, hchS, hinnS⟩ := wfN_seg_facts lo hi A B _ hwf' (by simp)
  have hsk : segKey [(kI, BptNode.internal cur),
      (kR, BptNode.internal (r0 :: r1 :: rr'))] = kI := rfl
  rw [hsk] at hrowS hinnS
  rw [wfRow_cons2, Bool.and_eq_true, wfRow_single] at hrowS
  obtain ⟨hwcur, hwrb⟩ := hrowS
  have hkRbnd := hinnS kR (by simp)
  rw [wfN_internal_iff] at hwcur hwrb
  obtain ⟨hcne, hcp, hcb, hcr⟩ := hwcur
  obtain ⟨-, hrp, hrb, hrr⟩ := hwrb
  simp only [List.map_cons, List.drop_succ_cons, List.drop_zero] at hrp hrb
  have hcm : cur.map Prod.fst ≠ [] := by
    cases cur with
    | nil => exact absurd rfl hcne
    | cons _ _ => simp
  have hr1lb : kR < r1.1 := by simpa [lbOkS] using (hrb r1.1 (by simp)).1
  have hr1ub : ubOk (rowHi hi B) r1.1 = true := (hrb r1.1 (by simp)).2
  rw [wfRow_cons2, Bool.and_eq_true] at hrr
  obtain ⟨hr0wf, hrtail⟩ := hrr
  constructor
  · simp [rowList, toList_internal']
  · rw [show A ++ (kI, BptNode.internal (cur ++ [(kR, r0.2)])) ::
        (r1.1, BptNode.internal (r1 :: rr')) :: B =
        A ++ [(kI, BptNode.internal (cur ++ [(kR, r0.2)])),
          (r1.1, BptNode.internal (r1 :: rr'))] ++ B from by simp]
    refine wfN_replace_seg lo hi A B
      [(kI, .internal cur), (kR, .internal (r0 :: r1 :: rr'))]
      [(kI, .internal (cur ++ [(kR, r0.2)])), (r1.1, .internal (r1 :: rr'))]
      hwf' (by simp) (by simp) rfl ?_ (by simp) ?_
    · rw [hsk, wfRow_cons2, Bool.and_eq_true, wfRow_single]
      constructor
      · rw [wfN_internal_iff]
        have hsepdec : ((cur ++ [(kR, r0.2)]).map Prod.fst).drop 1 =
            (cur.map Prod.fst).drop 1 ++ [kR] := by
          simp only [List.map_append, List.map_cons, List.map_nil]
          rw [drop1_append _ _ hcm]
        rw [hsepdec]
        refine ⟨by simp [hcne], ?_, ?_, ?_⟩
        · rw [List.pairwise_append]
          refine ⟨hcp, by simp, ?_⟩
          intro a ha b hb
          simp only [List.mem_singleton] at hb
          subst hb
          simpa [ubOk] using (hcb a ha).2
        · intro s hs
          rcases List.mem_append.mp hs with hs | hs
          · refine ⟨(hcb s hs).1, ?_⟩
            have h1 : s < kR := by simpa [ubOk] using (hcb s hs).2
            simp only [ubOk, decide_eq_true_eq]
            omega
          · simp only [List.mem_singleton] at hs
            subst hs
            exact ⟨hkRbnd.1, by simpa [ubOk] using hr1lb⟩
        · rw [wfRow_append' (some r1.1) (kR, r0.2) ([] : List (Nat × BptNode)) cur
            (rowLo lo A kI) hcne, Bool.and_eq_true]
          refine ⟨hcr, ?_⟩
          rw [wfRow_single]
          exact hr0wf
      · rw [wfN_internal_iff]
        refine ⟨by simp, ?_, ?_, ?_⟩
        · simp only [List.map_cons, List.drop_succ_cons, List.drop_zero]
          exact (List.pairwise_cons.mp hrp).2
        · simp only [List.map_cons, List.drop_succ_cons, List.drop_zero]
          intro s hs
          refine ⟨?_, (hrb s (List.mem_cons_of_mem _ hs)).2⟩
          have h1 : r1.1 < s := (List.pairwise_cons.mp hrp).1 s hs
          simp only [lbOkS, decide_eq_true_eq]
          omega
        · exact hrtail
    · intro s hs
      simp only [List.map_cons, List.map_nil, List.drop_succ_cons, List.drop_zero,
        List.mem_cons, List.not_mem_nil, or_false] at hs
      subst hs
      exact ⟨lbOkS_of_le _ kR _ hkRbnd.1 (Nat.le_of_lt hr1lb), hr1ub⟩

/-- `fixLeafUnderflow` at slot `A.length` of a well-formed leaf row keeps the
flattened row and the ordering invariant, and drops at most one parent
entry. -/
theorem fixLeafUnderflow_spec (leafMin : Nat) (hmin : 1 ≤ leafMin)
    (lo hi : Option Nat) (A B : List (Nat × BptNode)) (kI : Nat)
    (cur : List (Nat × Nat))
    (hwf : wfN lo hi (.internal (A ++ (kI, .leaf cur) :: B)) = true)
    (hkinds : ∀ e ∈ A ++ (kI, .leaf cur) :: B, isLeafB e.2 = true)
    (h2 : 2 ≤ (A ++ (kI, .leaf cur) :: B).length) :
    ∀ es cont,
      fixLeafUnderflow leafMin (A ++ (kI, .leaf cur) :: B) A.length cur = (es, cont) →
      rowList es = rowList (A ++ (kI, .leaf cur) :: B) ∧
      wfN lo hi (.internal es) = true ∧
      (A ++ (kI, .leaf cur) :: B).length ≤ es.length + 1 ∧
      1 ≤ es.length := by
  intro es cont heq
  rcases List.eq_nil_or_concat A with rfl | ⟨A', pL, rfl⟩
  · simp only [List.nil_append, List.length_nil] at heq hwf hkinds h2 ⊢
    cases B with
    | nil => simp at h2
    | cons b B' =>
      obtain ⟨kR, cR⟩ := b
      obtain ⟨rkvs, rfl⟩ : ∃ kvs, cR = .leaf kvs :=
        ⟨leafKvsOf cR, isLeafB_leaf_eq cR (hkinds (kR, cR) (by simp))⟩
      by_cases hrb : rkvs.length > leafMin
      · have heval : fixLeafUnderflow leafMin
            ((kI, .leaf cur) :: (kR, .leaf rkvs) :: B') 0 cur =
            ((kI, .leaf (cur ++ [rkvs.getD 0 (0, 0)])) ::
              ((rkvs.getD 1 (0, 0)).1, .leaf (rkvs.drop 1)) :: B', false) := by
          have hne2 : (0 + 1 : Nat) ≠
              ((kI, BptNode.leaf cur) :: (kR, BptNode.leaf rkvs) :: B').length := by
            simp only [List.length_cons]
            omega
          simp [fixLeafUnderflow, leafKvsOf, setChildAt, setKeyAt, hrb, hne2]
        rw [heval] at heq
        injection heq with h1 h2'
        subst h1
        have hb := fixBR_leaf lo hi [] B' kI kR cur rkvs (by simpa using hwf)
          (by omega)
        simp only [List.nil_append] at hb
        exact ⟨hb.1, hb.2, by simp, by simp⟩
      · have heval : fixLeafUnderflow leafMin
            ((kI, .leaf cur) :: (kR, .leaf rkvs) :: B') 0 cur =
            ((kR, .leaf (cur ++ rkvs)) :: B', true) := by
          simp [fixLeafUnderflow, leafKvsOf, hrb]
        rw [heval] at heq
        injection heq with h1 h2'
        subst h1
        have hb := fixM0_leaf lo hi B' kI kR cur rkvs hwf
        exact ⟨hb.1, hb.2, by simp, by simp⟩
  · obtain ⟨kL, cL⟩ := pL
    simp only [List.concat_eq_append, List.append_assoc, List.singleton_append,
      List.length_append, List.length_cons, List.length_nil, Nat.zero_add] at heq hwf hkinds h2 ⊢
    obtain ⟨lkvs, rfl⟩ : ∃ kvs, cL = .leaf kvs :=
      ⟨leafKvsOf cL, isLeafB_leaf_eq cL (hkinds (kL, cL) (by simp))⟩
    by_cases hlb : lkvs.length > leafMin
    · have heval : fixLeafUnderflow leafMin
          (A' ++ (kL, .leaf lkvs) :: (kI, .leaf cur) :: B) (A'.length + 1) cur =
          (A' ++ (kL, .leaf lkvs.dropLast) ::
            ((lkvs.getD (lkvs.length - 1) (0, 0)).1,
              .leaf (lkvs.getD (lkvs.length - 1) (0, 0) :: cur)) :: B, false) := by
        simp only [fixLeafUnderflow]
        rw [Nat.add_sub_cancel, getD_at_len]
        simp only [leafKvsOf]
        rw [if_pos ⟨by omega, hlb⟩]
        rw [setChildAt_at, setChildAt_at1, setKeyAt_at1]
      rw [heval] at heq
      injection heq with h1 h2'
      subst h1
      have hb := fixBL_leaf lo hi A' B kL kI lkvs cur hwf (by omega)
      refine ⟨hb.1, hb.2, ?_, ?_⟩ <;>
        simp only [List.length_append, List.length_cons, List.length_nil] <;> omega
    · cases B with
      | nil =>
        have heval : fixLeafUnderflow leafMin
            (A' ++ (kL, .leaf lkvs) :: (kI, .leaf cur) :: []) (A'.length + 1) cur =
            (A' ++ (kL, .leaf (lkvs ++ cur)) :: [], true) := by
          simp only [fixLeafUnderflow]
          rw [Nat.add_sub_cancel, getD_at_len]
          simp only [leafKvsOf]
          rw [if_neg (fun h => hlb h.2)]
          rw [if_neg (fun h => h.1 (by simp))]
          rw [if_pos (by omega : A'.length + 1 ≠ 0)]
          rw [setChildAt_at, eraseIdx_at_len1]
        rw [heval] at heq
        injection heq with h1 h2'
        subst h1
        have hb := fixML_leaf lo hi A' [] kL kI lkvs cur hwf
        refine ⟨hb.1, hb.2, ?_, ?_⟩ <;>
          simp only [List.length_append, List.length_cons, List.length_nil] <;> omega
      | cons b B' =>
        obtain ⟨kR, cR⟩ := b
        obtain ⟨rkvs, rfl⟩ : ∃ kvs, cR = .leaf kvs :=
          ⟨leafKvsOf cR, isLeafB_leaf_eq cR (hkinds (kR, cR) (by simp))⟩
        by_cases hrb : rkvs.length > leafMin
        · have heval : fixLeafUnderflow leafMin
              (A' ++ (kL, .leaf lkvs) :: (kI, .leaf cur) :: (kR, .leaf rkvs) :: B')
              (A'.length + 1) cur =
              (A' ++ (kL, .leaf lkvs) :: (kI, .leaf (cur ++ [rkvs.getD 0 (0, 0)])) ::
                ((rkvs.getD 1 (0, 0)).1, .leaf (rkvs.drop 1)) :: B', false) := by
            simp only [fixLeafUnderflow]
            rw [Nat.add_sub_cancel, getD_at_len, getD_at_len2]
            simp only [leafKvsOf]
            rw [if_neg (fun h => hlb h.2)]
            rw [if_pos ⟨by
              simp only [List.length_append, List.length_cons]
              omega, hrb⟩]
            rw [setChildAt_at1, setChildAt_at2, setKeyAt_at2]
          rw [heval] at heq
          injection heq with h1 h2'
          subst h1
          have hb := fixBR_leaf lo hi (A' ++ [(kL, .leaf lkvs)]) B' kI kR cur rkvs
            (by simpa using hwf) (by omega)
          simp only [List.append_assoc, List.singleton_append] at hb
          refine ⟨hb.1, hb.2, ?_, ?_⟩ <;>
            simp only [List.length_append, List.length_cons, List.length_nil] <;> omega
        · have heval : fixLeafUnderflow leafMin
              (A' ++ (kL, .leaf lkvs) :: (kI, .leaf cur) :: (kR, .leaf rkvs) :: B')
              (A'.length + 1) cur =
              (A' ++ (kL, .leaf (lkvs ++ cur)) :: (kR, .leaf rkvs) :: B', true) := by
            simp only [fixLeafUnderflow]
            rw [Nat.add_sub_cancel, getD_at_len, getD_at_len2]
            simp only [leafKvsOf]
            rw [if_neg (fun h => hlb h.2)]
            rw [if_neg (fun h => hrb h.2)]
            rw [if_pos (by omega : A'.length + 1 ≠ 0)]
            rw [setChildAt_at, eraseIdx_at_len1]
          rw [heval] at heq
          injection heq with h1 h2'
          subst h1
          have hb := fixML_leaf lo hi A' ((kR, .leaf rkvs) :: B') kL kI lkvs cur hwf
          refine ⟨hb.1, hb.2, ?_, ?_⟩ <;>
            simp only [List.length_append, List.length_cons, List.length_nil] <;> omega

theorem wfN_int_child_ne (lo hi : Option Nat) (A B : List (Nat × BptNode)) (k : Nat)
    (cs : List (Nat × BptNode))
    (hwf : wfN lo hi (.internal (A ++ (k, .internal cs) :: B)) = true) : cs ≠ [] := by
  have hwf' : wfN lo hi (.internal (A ++ [(k, .internal cs)] ++ B)) = true := by
    rw [show A ++ [(k, BptNode.internal cs)] ++ B =
      A ++ (k, BptNode.internal cs) :: B by simp]
    exact hwf
  obtain ⟨hrow, -, -⟩ := wfN_seg_facts lo hi A B _ hwf' (by simp)
  rw [wfRow_single] at hrow
  exact ((wfN_internal_iff _ _ _).mp hrow).1

/-- `fixInternalUnderflow` at slot `A.length` of a well-formed internal row
keeps the flattened row and the ordering invariant, and drops at most one
parent entry. -/
theorem fixInternalUnderflow_spec (internalMin : Nat) (hmin : 1 ≤ internalMin)
    (lo hi : Option Nat) (A B : List (Nat × BptNode)) (kI : Nat)
    (cur : List (Nat × BptNode))
    (hwf : wfN lo hi (.internal (A ++ (kI, .internal cur) :: B)) = true)
    (hkinds : ∀ e ∈ A ++ (kI, .internal cur) :: B, isLeafB e.2 = false)
    (h2 : 2 ≤ (A ++ (kI, .internal cur) :: B).length) :
    ∀ es cont,
      fixInternalUnderflow internalMin (A ++ (kI, .internal cur) :: B) A.length cur =
        (es, cont) →
      rowList es = rowList (A ++ (kI, .internal cur) :: B) ∧
      wfN lo hi (.internal es) = true ∧
      (A ++ (kI, .internal cur) :: B).length ≤ es.length + 1 ∧
      1 ≤ es.length := by
  intro es cont heq
  obtain ⟨c0, cur', rfl⟩ : ∃ c0 cur', cur = c0 :: cur' := by
    have h := wfN_int_child_ne lo hi A B kI cur hwf
    cases cur with
    | nil => exact absurd rfl h
    | cons c0 cur' => exact ⟨c0, cur', rfl⟩
  rcases List.eq_nil_or_concat A with rfl | ⟨A', pL, rfl⟩
  · simp only [List.nil_append, List.length_nil] at heq hwf hkinds h2 ⊢
    cases B with
    | nil => simp at h2
    | cons b B' =>
      obtain ⟨kR, cR⟩ := b
      obtain ⟨res, rfl⟩ : ∃ cs, cR = .internal cs :=
        ⟨entriesOf cR, isLeafB_internal_eq cR (hkinds (kR, cR) (by simp))⟩
      by_cases hrb : res.length > internalMin
      · have heval : fixInternalUnderflow internalMin
            ((kI, .internal (c0 :: cur')) :: (kR, .internal res) :: B') 0 (c0 :: cur') =
            ((kI, .internal ((c0 :: cur') ++ [(kR, (res.getD 0 (0, .leaf [])).2)])) ::
              ((res.getD 1 (0, .leaf [])).1, .internal (res.drop 1)) :: B', false) := by
          have hne2 : (0 + 1 : Nat) ≠
              ((kI, BptNode.internal (c0 :: cur')) :: (kR, BptNode.internal res) :: B').length := by
            simp only [List.length_cons]
            omega
          simp [fixInternalUnderflow, entriesOf, setChildAt, setKeyAt, hrb, hne2]
        rw [heval] at heq
        injection heq with h1 h2'
        subst h1
        have hb := fixBR_int lo hi [] B' kI kR (c0 :: cur') res (by simpa using hwf)
          (by omega)
        simp only [List.nil_append] at hb
        exact ⟨hb.1, hb.2, by simp, by simp⟩
      · obtain ⟨r0, re', rfl⟩ : ∃ r0 re', res = r0 :: re' := by
          have h := wfN_int_child_ne lo hi [(kI, .internal (c0 :: cur'))] B' kR res
            (by simpa using hwf)
          cases res with
          | nil => exact absurd rfl h
          | cons r0 re' => exact ⟨r0, re', rfl⟩
        have heval : fixInternalUnderflow internalMin
            ((kI, .internal (c0 :: cur')) :: (kR, .internal (r0 :: re')) :: B') 0
              (c0 :: cur') =
            ((kR, .internal ((c0 :: cur') ++ (kR, r0.2) :: re')) :: B', true) := by
          have hrb' : re'.length + 1 ≤ internalMin := by simpa using hrb
          simp [fixInternalUnderflow, entriesOf, hrb']
        rw [heval] at heq
        injection heq with h1 h2'
        subst h1
        have hb := fixM0_int lo hi B' kI kR (c0 :: cur') r0 re' hwf
        exact ⟨hb.1, hb.2, by simp, by simp⟩
  · obtain ⟨kL, cL⟩ := pL
    simp only [List.concat_eq_append, List.append_assoc, List.singleton_append,
      List.length_append, List.length_cons, List.length_nil, Nat.zero_add] at heq hwf hkinds h2 ⊢
    obtain ⟨les, rfl⟩ : ∃ cs, cL = .internal cs :=
      ⟨entriesOf cL, isLeafB_internal_eq cL (hkinds (kL, cL) (by simp))⟩
    by_cases hlb : les.length > internalMin
    · have heval : fixInternalUnderflow internalMin
          (A' ++ (kL, .internal les) :: (kI, .internal (c0 :: cur')) :: B)
          (A'.length + 1) (c0 :: cur') =
          (A' ++ (kL, .internal les.dropLast) ::
            ((les.getD (les.length - 1) (0, .leaf [])).1,
              .internal (les.getD (les.length - 1) (0, .leaf []) ::
                (kI, c0.2) :: cur')) :: B, false) := by
        simp only [fixInternalUnderflow]
        rw [Nat.add_sub_cancel, getD_at_len, getD_at_len1]
        simp only [entriesOf]
        rw [if_pos ⟨by omega, hlb⟩]
        rw [setChildAt_at, setChildAt_at1, setKeyAt_at1]
        simp
      rw [heval] at heq
      injection heq with h1 h2'
      subst h1
      have hb := fixBL_int lo hi A' B kL kI les c0 cur' hwf (by omega)
      refine ⟨hb.1, hb.2, ?_, ?_⟩ <;>
        simp only [List.length_append, List.length_cons, List.length_nil] <;> omega
    · cases B with
      | nil =>
        have heval : fixInternalUnderflow internalMin
            (A' ++ (kL, .internal les) :: (kI, .internal (c0 :: cur')) :: [])
            (A'.length + 1) (c0 :: cur') =
            (A' ++ (kL, .internal (les ++ (kI, c0.2) :: cur')) :: [], true) := by
          simp only [fixInternalUnderflow]
          rw [Nat.add_sub_cancel, getD_at_len, getD_at_len1]
          simp only [entriesOf]
          rw [if_neg (fun h => hlb h.2)]
          rw [if_neg (fun h => h.1 (by simp))]
          rw [if_pos (by omega : A'.length + 1 ≠ 0)]
          rw [setChildAt_at, eraseIdx_at_len1]
          simp
        rw [heval] at heq
        injection heq with h1 h2'
        subst h1
        have hb := fixML_int lo hi A' [] kL kI les c0 cur' hwf
        refine ⟨hb.1, hb.2, ?_, ?_⟩ <;>
          simp only [List.length_append, List.length_cons, List.length_nil] <;> omega
      | cons b B' =>
        obtain ⟨kR, cR⟩ := b
        obtain ⟨res, rfl⟩ : ∃ cs, cR = .internal cs :=
          ⟨entriesOf cR, isLeafB_internal_eq cR (hkinds (kR, cR) (by simp))⟩
        by_cases hrb : res.length > internalMin
        · have heval : fixInternalUnderflow internalMin
              (A' ++ (kL, .internal les) :: (kI, .internal (c0 :: cur')) ::
                (kR, .internal res) :: B') (A'.length + 1) (c0 :: cur') =
              (A' ++ (kL, .internal les) ::
                (kI, .internal ((c0 :: cur') ++ [(kR, (res.getD 0 (0, .leaf [])).2)])) ::
                ((res.getD 1 (0, .leaf [])).1, .internal (res.drop 1)) :: B', false) := by
            simp only [fixInternalUnderflow]
            rw [Nat.add_sub_cancel, getD_at_len, getD_at_len1, getD_at_len2]
            simp only [entriesOf]
            rw [if_neg (fun h => hlb h.2)]
            rw [if_pos ⟨by
              simp only [List.length_append, List.length_cons]
              omega, hrb⟩]
            rw [setChildAt_at1, setChildAt_at2, setKeyAt_at2]
          rw [heval] at heq
          injection heq with h1 h2'
          subst h1
          have hb := fixBR_int lo hi (A' ++ [(kL, .internal les)]) B' kI kR
            (c0 :: cur') res (by simpa using hwf) (by omega)
          simp only [List.append_assoc, List.singleton_append] at hb
          refine ⟨hb.1, hb.2, ?_, ?_⟩ <;>
            simp only [List.length_append, List.length_cons, List.length_nil] <;> omega
        · have heval : fixInternalUnderflow internalMin
              (A' ++ (kL, .internal les) :: (kI, .internal (c0 :: cur')) ::
                (kR, .internal res) :: B') (A'.length + 1) (c0 :: cur') =
              (A' ++ (kL, .internal (les ++ (kI, c0.2) :: cur')) ::
                (kR, .internal res) :: B', true) := by
            simp only [fixInternalUnderflow]
            rw [Nat.add_sub_cancel, getD_at_len, getD_at_len1, getD_at_len2]
            simp only [entriesOf]
            rw [if_neg (fun h => hlb h.2)]
            rw [if_neg (fun h => hrb h.2)]
            rw [if_pos (by omega : A'.length + 1 ≠ 0)]
            rw [setChildAt_at, eraseIdx_at_len1]
            simp
          rw [heval] at heq
          injection heq with h1 h2'
          subst h1
          have hb := fixML_int lo hi A' ((kR, .internal res) :: B') kL kI les c0 cur' hwf
          refine ⟨hb.1, hb.2, ?_, ?_⟩ <;>
            simp only [List.length_append, List.length_cons, List.length_nil] <;> omega

/-- Replacing the routed child by another node that is well-formed over the
same interval preserves the parent's invariant. -/
theorem wfN_set_child (lo hi : Option Nat) (A B : List (Nat × BptNode))
    (e : Nat × BptNode) (c : BptNode)
    (hwf : wfN lo hi (.internal (A ++ e :: B)) = true)
    (hwc : wfN (rowLo lo A e.1) (rowHi hi B) c = true) :
    wfN lo hi (.internal (A ++ (e.1, c) :: B)) = true := by
  rw [show A ++ (e.1, c) :: B = A ++ [(e.1, c)] ++ B from by simp]
  refine wfN_replace_seg lo hi A B [e] [(e.1, c)]
    (by rw [show A ++ [e] ++ B = A ++ e :: B by simp]; exact hwf)
    (by simp) (by simp) rfl ?_ (by simp) (by simp)
  rw [wfRow_single]
  exact hwc

/-- `removeNode` refuses exactly the absent keys; otherwise it rebuilds the
subtree as the sorted deletion on its flattened list, preserving the
ordering invariant and the node kind and dropping at most one entry from
the top row. -/
theorem removeNode_spec (lm im : Nat) (hlm : 2 ≤ lm) (him : 3 ≤ im) :
    ∀ t : BptNode, ∀ lo hi key,
      wfN lo hi t = true → wfX t = true → bndOk lo hi key = true →
      (removeNode lm im t key = none ↔ lookupKV key (toList t) = none) ∧
      (∀ t' chain, removeNode lm im t key = some (t', chain) →
        toList t' = delKV key (toList t) ∧
        wfN lo hi t' = true ∧
        isLeafB t' = isLeafB t ∧
        nodeSize t ≤ nodeSize t' + 1) := by
  intro t
  induction t using BptNode.strongInd with
  | hleaf kvs =>
    intro lo hi key hwf _ hkey
    rw [wfN_leaf_iff] at hwf
    obtain ⟨hp, hb⟩ := hwf
    have hple : List.Pairwise (· ≤ ·) (kvs.map Prod.fst) :=
      hp.imp (fun h => Nat.le_of_lt h)
    rw [removeNode, leafBinarySearch_eq _ _ hple, toList_leaf]
    by_cases hfound :
        (kvs.get? (firstGeIdx key (kvs.map Prod.fst))).any (fun kv => kv.1 = key) = true
    · rw [if_pos hfound]
      refine ⟨iff_of_false (by simp) ((anyFound_iff_lookup key kvs hple).mp hfound), ?_⟩
      intro t' chain h
      rw [Option.some.injEq, Prod.mk.injEq] at h
      obtain ⟨h1, h2⟩ := h
      subst h1
      rw [eraseIdx_firstGe key kvs hfound]
      refine ⟨toList_leaf _, ?_, rfl, ?_⟩
      · rw [wfN_leaf_iff]
        exact ⟨delKV_pairwise key kvs hp,
          fun kv hkv => hb kv (mem_delKV key kvs kv hkv)⟩
      · simpa [nodeSize] using delKV_length key kvs
    · rw [if_neg hfound]
      have hnone : lookupKV key kvs = none := by
        by_contra hc
        exact hfound ((anyFound_iff_lookup key kvs hple).mpr hc)
      exact ⟨iff_of_true rfl hnone, fun t' chain h => by simp at h⟩
  | hint entries ih =>
    intro lo hi key hwf hX hkey
    have hiff := (wfN_internal_iff lo hi entries).mp hwf
    obtain ⟨hne, hsort, hbnd, hrow⟩ := hiff
    have hsortle : List.Pairwise (· ≤ ·) ((entries.map Prod.fst).drop 1) :=
      hsort.imp (fun h => Nat.le_of_lt h)
    obtain ⟨e, hq, hdec, hAlen⟩ := route_split key entries hne
    obtain ⟨A, hA⟩ : ∃ A, routeA key entries = A := ⟨_, rfl⟩
    obtain ⟨B, hB⟩ : ∃ B, routeB key entries = B := ⟨_, rfl⟩
    rw [hA] at hdec hAlen
    rw [hB] at hdec
    have hibs : internalBinarySearch (entries.map Prod.fst) key =
        childIdxSpec key (entries.map Prod.fst) :=
      internalBinarySearch_eq _ _ hsortle
    have hroute : childIdxSpec key ((A ++ e :: B).map Prod.fst) = A.length := by
      rw [← hdec]
      exact hAlen.symm
    obtain ⟨hrowA, hrowE, hrowB, hlb, hub, hAk, hBk⟩ :=
      routed_facts lo hi key A B e (by rw [← hdec]; exact hwf) hkey hroute
    rw [wfX_internal_iff] at hX
    obtain ⟨h2len, hkind, hchX⟩ := hX
    have hemem : e ∈ entries := by
      rw [hdec]
      exact List.mem_append.mpr (Or.inr (by simp))
    have hAmem : ∀ x ∈ A, x ∈ entries := fun x hx' => by
      rw [hdec]
      exact List.mem_append.mpr (Or.inl hx')
    have hBmem : ∀ x ∈ B, x ∈ entries := fun x hx' => by
      rw [hdec]
      exact List.mem_append.mpr (Or.inr (List.mem_cons_of_mem _ hx'))
    have hkmem : ∀ x ∈ entries, isLeafB x.2 = isLeafB e.2 := by
      intro x hx'
      rw [hkind x hx', hkind e hemem]
    have heX : wfX e.2 = true := hchX e hemem
    obtain ⟨hchiff, hchall⟩ := ih e hemem (rowLo lo A e.1) (rowHi hi B) key
      hrowE heX ((bndOk_split _ _ _).mpr ⟨hlb, hub⟩)
    have htl : toList (.internal entries) =
        rowList A ++ (toList e.2 ++ rowList B) := by
      rw [toList_internal']
      conv_lhs => rw [hdec]
      rw [rowList_append, rowList_cons]
    have hlnode : lookupKV key (toList (.internal entries)) =
        lookupKV key (toList e.2) := by
      rw [htl, lookupKV_append_left_none key _ _
          (fun kv hkv => Nat.ne_of_lt (hAk kv hkv)),
        lookupKV_append_right_none key _ _
          (fun kv hkv => Nat.ne_of_gt (hBk kv hkv))]
    have hdel : delKV key (toList (.internal entries)) =
        rowList A ++ (delKV key (toList e.2) ++ rowList B) := by
      rw [htl, delKV_append_left_none key _ _
          (fun kv hkv => Nat.ne_of_lt (hAk kv hkv)),
        delKV_append_right_none key _ _
          (fun kv hkv => Nat.ne_of_gt (hBk kv hkv))]
    have hwfd : wfN lo hi (.internal (A ++ e :: B)) = true := by
      rw [← hdec]
      exact hwf
    have hlen0 : (A ++ e :: B).length = entries.length := by
      rw [← hdec]
    have hsetc : ∀ cc : BptNode, setChildAt entries
        (internalBinarySearch (entries.map Prod.fst) key) cc =
          A ++ (e.1, cc) :: B := by
      intro cc
      rw [hibs, ← hAlen]
      conv_lhs => rw [hdec]
      exact setChildAt_at A e B cc
    rw [removeNode]
    split
    next heq =>
      rw [hibs, hq] at heq
      simp at heq
    next e2 heq =>
      rw [hibs, hq] at heq
      rw [show e2 = e from (Option.some.inj heq).symm]
      split
      next heqc =>
        refine ⟨iff_of_true rfl ?_, fun t' chain h => by simp at h⟩
        rw [hlnode]
        exact hchiff.mp heqc
      next c chain heqc =>
        obtain ⟨htc, hwc, hkc, hszc⟩ := hchall c chain heqc
        have hlook : ¬ lookupKV key (toList (.internal entries)) = none := by
          rw [hlnode]
          intro hcon
          rw [hchiff.mpr hcon] at heqc
          simp at heqc
        by_cases hcond : (chain && decide (nodeSize c < nodeMin lm im c)) = true
        · rw [if_pos hcond]
          cases c with
          | leaf curKvs =>
            simp only []
            rcases hfp0 : fixLeafUnderflow (lm / 2)
              (setChildAt entries (internalBinarySearch (entries.map Prod.fst) key)
                (.leaf curKvs))
              (internalBinarySearch (entries.map Prod.fst) key) curKvs with ⟨es, cont⟩
            have hfp := hfp0
            rw [hsetc (.leaf curKvs), hibs, ← hAlen] at hfp
            have hkindsL : ∀ x ∈ A ++ (e.1, BptNode.leaf curKvs) :: B,
                isLeafB x.2 = true := by
              have hLc : isLeafB e.2 = true := hkc.symm.trans rfl
              intro x hx
              rcases List.mem_append.mp hx with hx | hx
              · rw [hkmem x (hAmem x hx)]
                exact hLc
              · rcases List.mem_cons.mp hx with rfl | hx
                · rfl
                · rw [hkmem x (hBmem x hx)]
                  exact hLc
            have hwfrow : wfN lo hi
                (.internal (A ++ (e.1, BptNode.leaf curKvs) :: B)) = true :=
              wfN_set_child lo hi A B e _ hwfd hwc
            have h2row : 2 ≤ (A ++ (e.1, BptNode.leaf curKvs) :: B).length := by
              have hLL : (A ++ (e.1, BptNode.leaf curKvs) :: B).length =
                  (A ++ e :: B).length := by simp
              omega
            obtain ⟨hrEq, hwEs, hl1, hl2⟩ :=
              fixLeafUnderflow_spec (lm / 2) (by omega) lo hi A B e.1 curKvs
                hwfrow hkindsL h2row es cont hfp
            simp only []
            refine ⟨iff_of_false (by simp) hlook, ?_⟩
            intro t' chain' h
            rw [Option.some.injEq, Prod.mk.injEq] at h
            obtain ⟨h1, h2⟩ := h
            subst h1
            refine ⟨?_, hwEs, rfl, ?_⟩
            · rw [toList_leaf] at htc
              rw [toList_internal', hrEq, rowList_append, rowList_cons,
                toList_leaf, hdel, ← htc]
            · have hLL : (A ++ (e.1, BptNode.leaf curKvs) :: B).length =
                  (A ++ e :: B).length := by simp
              simp only [nodeSize]
              omega
          | internal curEs =>
            simp only []
            rcases hfp0 : fixInternalUnderflow (im / 2)
              (setChildAt entries (internalBinarySearch (entries.map Prod.fst) key)
                (.internal curEs))
              (internalBinarySearch (entries.map Prod.fst) key) curEs with ⟨es, cont⟩
            have hfp := hfp0
            rw [hsetc (.internal curEs), hibs, ← hAlen] at hfp
            have hkindsI : ∀ x ∈ A ++ (e.1, BptNode.internal curEs) :: B,
                isLeafB x.2 = false := by
              have hIc : isLeafB e.2 = false := hkc.symm.trans rfl
              intro x hx
              rcases List.mem_append.mp hx with hx | hx
              · rw [hkmem x (hAmem x hx)]
                exact hIc
              · rcases List.mem_cons.mp hx with rfl | hx
                · rfl
                · rw [hkmem x (hBmem x hx)]
                  exact hIc
            have hwfrow : wfN lo hi
                (.internal (A ++ (e.1, BptNode.internal curEs) :: B)) = true :=
              wfN_set_child lo hi A B e _ hwfd hwc
            have h2row : 2 ≤ (A ++ (e.1, BptNode.internal curEs) :: B).length := by
              have hLL : (A ++ (e.1, BptNode.internal curEs) :: B).length =
                  (A ++ e :: B).length := by simp
              omega
            obtain ⟨hrEq, hwEs, hl1, hl2⟩ :=
              fixInternalUnderflow_spec (im / 2) (by omega) lo hi A B e.1 curEs
                hwfrow hkindsI h2row es cont hfp
            simp only []
            refine ⟨iff_of_false (by simp) hlook, ?_⟩
            intro t' chain' h
            rw [Option.some.injEq, Prod.mk.injEq] at h
            obtain ⟨h1, h2⟩ := h
            subst h1
            refine ⟨?_, hwEs, rfl, ?_⟩
            · rw [toList_internal'] at htc
              rw [toList_internal', hrEq, rowList_append, rowList_cons,
                toList_internal', hdel, ← htc]
            · have hLL : (A ++ (e.1, BptNode.internal curEs) :: B).length =
                  (A ++ e :: B).length := by simp
              simp only [nodeSize]
              omega
        · rw [if_neg hcond]
          rw [hsetc c]
          refine ⟨iff_of_false (by simp) hlook, ?_⟩
          intro t' chain' h
          rw [Option.some.injEq, Prod.mk.injEq] at h
          obtain ⟨h1, h2⟩ := h
          subst h1
          refine ⟨?_, wfN_set_child lo hi A B e c hwfd hwc, rfl, ?_⟩
          · rw [toList_internal', rowList_append, rowList_cons, htc, hdel]
          · have hLL : (A ++ (e.1, c) :: B).length = (A ++ e :: B).length := by simp
            simp only [nodeSize]
            omega

/-- `Insert` at the tree level: a fresh key is inserted (sorted insertion on
the flattened list, well-formedness preserved), a duplicate key leaves the
tree untouched and reports failure. -/
theorem insertT_spec (t : BPlusTree) (key value : Nat)
    (hwf : t.wfT = true) (hlm : 2 ≤ t.leafMaxSize) (him : 3 ≤ t.internalMaxSize) :
    (lookupKV key t.toListT = none →
       (t.insertT key value).2 = true ∧
       (t.insertT key value).1.toListT = insKV key value t.toListT ∧
       (t.insertT key value).1.wfT = true ∧
       (t.insertT key value).1.leafMaxSize = t.leafMaxSize ∧
       (t.insertT key value).1.internalMaxSize = t.internalMaxSize) ∧
    (lookupKV key t.toListT ≠ none → t.insertT key value = (t, false)) := by
  rcases t with ⟨root, lm, im⟩
  simp only at hlm him
  have hr0 : wfN none none (root.getD (.leaf [])) = true ∧
      wfX (root.getD (.leaf [])) = true ∧
      toList (root.getD (.leaf [])) = BPlusTree.toListT ⟨root, lm, im⟩ := by
    cases root with
    | none =>
      refine ⟨?_, wfX_leaf _, ?_⟩
      · rw [Option.getD_none, wfN_leaf_iff]
        simp
      · rw [Option.getD_none, BPlusTree.toListT, toList_leaf]
    | some r =>
      rw [BPlusTree.wfT] at hwf
      simp only at hwf
      rw [Bool.and_eq_true] at hwf
      exact ⟨hwf.1, hwf.2, rfl⟩
  obtain ⟨hw0, hx0, ht0⟩ := hr0
  obtain ⟨hiff, hok⟩ := insertNode_spec lm im hlm him (root.getD (.leaf []))
    none none key value hw0 hx0 rfl
  rw [ht0] at hiff hok
  rw [BPlusTree.insertT]
  simp only
  split
  next heq =>
    rw [heq] at hiff
    refine ⟨fun hnone => absurd (hiff.mp rfl) (by simp [hnone]), fun _ => rfl⟩
  next n heq =>
    rw [heq] at hiff hok
    obtain ⟨htn, hwn, hxn, _⟩ := hok
    refine ⟨fun _ => ⟨rfl, ?_, ?_, rfl, rfl⟩, fun hsome => absurd (hiff.mpr hsome) (by simp)⟩
    · rw [BPlusTree.toListT]
      exact htn
    · rw [BPlusTree.wfT]
      simp only [Bool.and_eq_true]
      exact ⟨hwn, hxn⟩
  next l sep r heq =>
    rw [heq] at hiff hok
    obtain ⟨htlr, hwl, hwr, hxl, hxr, hsl, hsu, hkl, hkr⟩ := hok
    refine ⟨fun _ => ⟨rfl, ?_, ?_, rfl, rfl⟩, fun hsome => absurd (hiff.mpr hsome) (by simp)⟩
    · show toList (.internal [(0, l), (sep, r)]) = _
      rw [toList_internal', rowList_cons, rowList_cons,
        show rowList ([] : List (Nat × BptNode)) = [] from rfl, List.append_nil]
      exact htlr
    · rw [BPlusTree.wfT]
      simp only [Bool.and_eq_true]
      constructor
      · rw [wfN_internal_iff]
        refine ⟨by simp, by simp, ?_, ?_⟩
        · intro s hs
          simp at hs
          subst hs
          exact ⟨rfl, rfl⟩
        · rw [wfRow_cons2, Bool.and_eq_true, wfRow_single]
          exact ⟨hwl, hwr⟩
      · refine wfX_internal_of _ (by simp) (isLeafB l) ?_ ?_
        · intro x hxm
          rcases List.mem_cons.mp hxm with rfl | hxm
          · rfl
          · rcases List.mem_cons.mp hxm with rfl | hxm
            · rw [hkr, hkl]
            · simp at hxm
        · intro x hxm
          rcases List.mem_cons.mp hxm with rfl | hxm
          · exact hxl
          · rcases List.mem_cons.mp hxm with rfl | hxm
            · exact hxr
            · simp at hxm

/-- The root of the tree satisfies the ordering invariant (rebalancing after
`Remove` can leave thin internal nodes, so the structural fanout bound is
not maintained; the ordering invariant is). -/
def BPlusTree.wfRootN (t : BPlusTree) : Bool :=
  match t.root with
  | none => true
  | some r => wfN none none r

/-- `GetValue` needs only the ordering invariant of the root. -/
theorem getValueT_eqN (t : BPlusTree) (key : Nat) (hwf : t.wfRootN = true) :
    t.getValueT key = lookupKV key t.toListT := by
  rcases t with ⟨root, lm, im⟩
  cases root with
  | none => rfl
  | some r =>
    rw [BPlusTree.wfRootN] at hwf
    simp only at hwf
    rw [BPlusTree.getValueT, BPlusTree.toListT]
    exact nodeSearch_eq r none none key hwf rfl

theorem insKV_length (key value : Nat) :
    ∀ l : List (Nat × Nat), (insKV key value l).length = l.length + 1
  | [] => rfl
  | kv :: rest => by
    rw [insKV]
    by_cases h : key ≤ kv.1
    · rw [if_pos h]
      simp
    · rw [if_neg h, List.length_cons, insKV_length key value rest, List.length_cons]

theorem delKV_insKV (key value : Nat) :
    ∀ l : List (Nat × Nat), key ∉ l.map Prod.fst →
      delKV key (insKV key value l) = l
  | [], _ => by simp [insKV, delKV]
  | kv :: rest, h => by
    simp only [List.map_cons, List.mem_cons, not_or] at h
    obtain ⟨h1, h2⟩ := h
    rw [insKV]
    by_cases hle : key ≤ kv.1
    · rw [if_pos hle, delKV, if_pos rfl]
    · rw [if_neg hle, delKV, if_neg (fun hc => h1 hc.symm),
        delKV_insKV key value rest h2]

/-- `Remove` at the tree level deletes the key's binding from the flattened
list (a no-op when the key is absent), keeps the root's ordering invariant
(collapsing an underflowed single-entry internal root into its child), and
leaves the size parameters unchanged. -/
theorem removeT_spec (t : BPlusTree) (key : Nat)
    (hwf : t.wfT = true) (hlm : 2 ≤ t.leafMaxSize) (him : 3 ≤ t.internalMaxSize) :
    (t.removeT key).toListT = delKV key t.toListT ∧
    (t.removeT key).wfRootN = true ∧
    (t.removeT key).leafMaxSize = t.leafMaxSize ∧
    (t.removeT key).internalMaxSize = t.internalMaxSize := by
  rcases t with ⟨root, lm, im⟩
  simp only at hlm him
  cases root with
  | none => exact ⟨rfl, rfl, rfl, rfl⟩
  | some r =>
    rw [BPlusTree.wfT] at hwf
    simp only at hwf
    rw [Bool.and_eq_true] at hwf
    obtain ⟨hw, hx⟩ := hwf
    obtain ⟨hiff, hall⟩ := removeNode_spec lm im hlm him r none none key hw hx rfl
    rw [BPlusTree.removeT]
    simp only
    split
    next heq =>
      have hnone := hiff.mp heq
      refine ⟨?_, ?_, rfl, rfl⟩
      · rw [BPlusTree.toListT]
        simp only
        rw [delKV_no_match key _ ((lookupKV_eq_none_iff key (toList r)).mp hnone)]
      · rw [BPlusTree.wfRootN]
        simp only
        exact hw
    next r1 chain heq =>
      obtain ⟨htr, hwr, hkr, hszr⟩ := hall r1 chain heq
      by_cases hcond : (chain && decide (nodeSize r1 < nodeMin lm im r1)) = true
      · rw [if_pos hcond]
        cases r1 with
        | leaf kvs =>
          simp only []
          exact ⟨htr, hwr, trivial, trivial⟩
        | internal entries =>
          simp only []
          by_cases hone : entries.length = 1
          · rw [if_pos hone]
            obtain ⟨e0, rfl⟩ : ∃ e0, entries = [e0] := by
              cases entries with
              | nil => simp at hone
              | cons a l =>
                cases l with
                | nil => exact ⟨a, rfl⟩
                | cons b l2 => simp at hone
            have htl0 : toList e0.2 = toList (.internal [e0]) := by
              rw [toList_internal', rowList_cons,
                show rowList ([] : List (Nat × BptNode)) = [] from rfl, List.append_nil]
            have hch : wfN none none e0.2 = true := by
              have h1 := ((wfN_internal_iff none none [e0]).mp hwr).2.2.2
              rw [wfRow_single] at h1
              exact h1
            refine ⟨?_, hch, rfl, rfl⟩
            rw [show BPlusTree.toListT
                ⟨some ([e0].getD 0 (0, .leaf [])).2, lm, im⟩ = toList e0.2 from rfl,
              htl0]
            exact htr
          · rw [if_neg hone]
            exact ⟨htr, hwr, rfl, rfl⟩
      · rw [if_neg hcond]
        exact ⟨htr, hwr, rfl, rfl⟩

theorem drop_headD_getD {α : Type} : ∀ (l : List α) (n : Nat) (d : α),
    (l.drop n).headD d = l.getD n d
  | [], n, d => by simp
  | a :: l, 0, d => rfl
  | a :: l, n + 1, d => by
    rw [List.drop_succ_cons, List.getD_cons_succ]
    exact drop_headD_getD l n d

theorem setChildAt_length (es : List (Nat × BptNode)) (i : Nat) (c : BptNode) :
    (setChildAt es i c).length = es.length := by
  rw [setChildAt]
  cases h : es.get? i with
  | none => rfl
  | some e => simp

/-- The key of a node's first slot (`KeyAt(0)`). -/
def firstKeyN : BptNode → Nat
  | .leaf kvs => (kvs.headD (0, 0)).1
  | .internal es => (es.headD (0, .leaf [])).1

theorem insLeafGrow_split_shape (lm : Nat) (g : List (Nat × Nat)) :
    ∀ l sep r, insLeafGrow lm g = .split l sep r →
      nodeSize l = g.length / 2 ∧ nodeSize l + nodeSize r = g.length ∧
      firstKeyN r = sep := by
  intro l sep r heq
  rw [insLeafGrow] at heq
  by_cases hgt : g.length > lm
  · rw [if_pos hgt] at heq
    injection heq with h1 h2 h3
    subst h1
    subst h2
    subst h3
    have hd2 : g.length / 2 ≤ g.length := Nat.div_le_self _ _
    refine ⟨?_, ?_, ?_⟩
    · simp only [nodeSize, List.length_take]
      omega
    · simp only [nodeSize, List.length_take, List.length_drop]
      omega
    · show ((g.drop (g.length / 2)).headD (0, 0)).1 = (g.getD (g.length / 2) (0, 0)).1
      rw [drop_headD_getD]
  · rw [if_neg hgt] at heq
    simp at heq

theorem insInternalGrow_split_shape (im : Nat) (g : List (Nat × BptNode)) :
    ∀ l sep r, insInternalGrow im g = .split l sep r →
      nodeSize l = g.length / 2 ∧ nodeSize l + nodeSize r = g.length ∧
      firstKeyN r = sep := by
  intro l sep r heq
  rw [insInternalGrow] at heq
  by_cases hgt : g.length > im
  · rw [if_pos hgt] at heq
    injection heq with h1 h2 h3
    subst h1
    subst h2
    subst h3
    have hd2 : g.length / 2 ≤ g.length := Nat.div_le_self _ _
    refine ⟨?_, ?_, ?_⟩
    · simp only [nodeSize, List.length_take]
      omega
    · simp only [nodeSize, List.length_take, List.length_drop]
      omega
    · show ((g.drop (g.length / 2)).headD (0, .leaf [])).1 =
        (g.getD (g.length / 2) (0, .leaf [])).1
      rw [drop_headD_getD]
  · rw [if_neg hgt] at heq
    simp at heq

/-- C5 (counterexample): inserting a fourth key into a full leaf of three
entries (`leaf_max_size = 3`) splits it with two entries on the left page,
not `floor(3/2) = 1` as the claim's left-size formula demands. -/
theorem claim_C5_counterexample :
    insertNode 3 4 (.leaf [(1, 10), (2, 20), (3, 30)]) 4 40 =
      .split (.leaf [(1, 10), (2, 20)]) 3 (.leaf [(3, 30), (4, 40)]) ∧
    ¬ nodeSize (BptNode.leaf [(1, 10), (2, 20)]) = 3 / 2 := by
  constructor
  · simp [insertNode, insLeafGrow, leafBinarySearch, leafBSGo]
  · simp [nodeSize]

/-- C5 (amended): when `insertNode` splits a node of `n` entries, the left
page keeps `(n+1)/2` entries (so `floor((n+1)/2)`, not `floor(n/2)`), the
right page receives the remaining `ceil((n+1)/2)`, and the separator
propagated to the parent is the first key of the right half. -/
theorem claim_C5_split_point (lm im : Nat) (t : BptNode) (lo hi : Option Nat)
    (key value : Nat) (hwf : wfN lo hi t = true) :
    ∀ l sep r, insertNode lm im t key value = .split l sep r →
      nodeSize l = (nodeSize t + 1) / 2 ∧
      nodeSize l + nodeSize r = nodeSize t + 1 ∧
      firstKeyN r = sep := by
  cases t with
  | leaf kvs =>
    intro l sep r heq
    rw [wfN_leaf_iff] at hwf
    have hple : List.Pairwise (· ≤ ·) (kvs.map Prod.fst) := hwf.1.imp Nat.le_of_lt
    rw [insertNode, leafBinarySearch_eq _ _ hple] at heq
    by_cases hfound : (kvs.get? (firstGeIdx key (kvs.map Prod.fst))).any
        (fun kv => kv.1 = key) = true
    · rw [if_pos hfound] at heq
      simp at heq
    · rw [if_neg hfound, insertIdx_firstGe] at heq
      have h := insLeafGrow_split_shape lm _ l sep r heq
      rw [insKV_length] at h
      exact h
  | internal entries =>
    intro l sep r heq
    have hiff := (wfN_internal_iff lo hi entries).mp hwf
    obtain ⟨hne, hsort, hbnd, hrow⟩ := hiff
    have hsortle : List.Pairwise (· ≤ ·) ((entries.map Prod.fst).drop 1) :=
      hsort.imp (fun h => Nat.le_of_lt h)
    rw [insertNode] at heq
    split at heq
    next heq0 => simp at heq
    next e heq0 =>
      split at heq
      next heq1 => simp at heq
      next c heq1 => simp at heq
      next l0 sep0 r0 heq1 =>
        have hibs2le : internalBinarySearch (entries.map Prod.fst) sep0 + 1 ≤
            entries.length := by
          rw [internalBinarySearch_eq _ _ hsortle]
          have h1 := childIdxSpec_le_len sep0 (entries.map Prod.fst)
          have h2 : 1 ≤ entries.length := by
            cases entries with
            | nil => exact absurd rfl hne
            | cons _ _ => simp
          simp only [List.length_map] at h1
          omega
        have hsetlen : (setChildAt entries
            (internalBinarySearch (entries.map Prod.fst) sep0) l0).length =
            entries.length := setChildAt_length _ _ _
        have h := insInternalGrow_split_shape im _ l sep r heq
        rw [List.length_insertIdx _ _ (by rw [hsetlen]; exact hibs2le),
          hsetlen] at h
        exact h

/-- C5 (witness): the amended split law instantiated at the three-entry leaf
split of the counterexample. -/
theorem claim_C5_split_point_witness :
    wfN none none (.leaf [(1, 10), (2, 20), (3, 30)]) = true ∧
    (nodeSize (BptNode.leaf [(1, 10), (2, 20)]) =
       (nodeSize (BptNode.leaf [(1, 10), (2, 20), (3, 30)]) + 1) / 2 ∧
     nodeSize (BptNode.leaf [(1, 10), (2, 20)]) +
       nodeSize (BptNode.leaf [(3, 30), (4, 40)]) =
       nodeSize (BptNode.leaf [(1, 10), (2, 20), (3, 30)]) + 1 ∧
     firstKeyN (BptNode.leaf [(3, 30), (4, 40)]) = 3) := by
  have hwf : wfN none none (.leaf [(1, 10), (2, 20), (3, 30)]) = true := by
    rw [wfN_leaf]
    decide
  refine ⟨hwf, claim_C5_split_point 3 4 _ none none 4 40 hwf
    (.leaf [(1, 10), (2, 20)]) 3 (.leaf [(3, 30), (4, 40)]) ?_⟩
  simp [insertNode, insLeafGrow, leafBinarySearch, leafBSGo]

/-- C1 (counterexample): inserting `(1, 20)` into a tree that already maps
`1 ↦ 10` is refused (`false`) and leaves the old value visible, whereas
inserting `(1, 20)` alone yields `20` — so the double insert is not
equivalent to the single insert of the new value. -/
theorem claim_C1_counterexample :
    (((BPlusTree.mk none 2 3).insertT 1 10).1.insertT 1 20).2 = false ∧
    ((((BPlusTree.mk none 2 3).insertT 1 10).1.insertT 1 20).1.getValueT 1 =
      some 10) ∧
    ((BPlusTree.mk none 2 3).insertT 1 20).1.getValueT 1 = some 20 := by
  refine ⟨?_, ?_, ?_⟩ <;>
    simp [BPlusTree.insertT, insertNode, insLeafGrow, leafBinarySearch, leafBSGo,
      BPlusTree.getValueT, nodeSearch]

/-- C1 (amended): on a well-formed tree, looking up `k` after inserting a
fresh `(k, v)` returns `v`; inserting `(k, w)` when `k` is already mapped is
refused and leaves the tree untouched (it is not equivalent to inserting
`(k, w)` alone); and removing `k` right after inserting a fresh `(k, v)`
makes lookups of `k` return nothing again. -/
theorem claim_C1_put_get_del (t : BPlusTree) (k v w : Nat)
    (hwf : t.wfT = true) (hlm : 2 ≤ t.leafMaxSize) (him : 3 ≤ t.internalMaxSize) :
    (t.getValueT k = none →
       (t.insertT k v).2 = true ∧ (t.insertT k v).1.getValueT k = some v) ∧
    (∀ v0, t.getValueT k = some v0 → t.insertT k w = (t, false)) ∧
    (t.getValueT k = none →
       ((t.insertT k v).1.removeT k).getValueT k = none) := by
  have hget := getValueT_eq t k hwf
  obtain ⟨hfresh, hdup⟩ := insertT_spec t k v hwf hlm him
  refine ⟨?_, ?_, ?_⟩
  · intro h0
    have hnone : lookupKV k t.toListT = none := by
      rw [← hget]
      exact h0
    obtain ⟨hflag, hlist, hwf1, hl1, hi1⟩ := hfresh hnone
    refine ⟨hflag, ?_⟩
    rw [getValueT_eq _ k hwf1, hlist, lookupKV_insKV_self]
  · intro v0 h0
    exact (insertT_spec t k w hwf hlm him).2 (by rw [← hget, h0]; simp)
  · intro h0
    have hnone : lookupKV k t.toListT = none := by
      rw [← hget]
      exact h0
    obtain ⟨hflag, hlist, hwf1, hl1, hi1⟩ := hfresh hnone
    obtain ⟨hlist2, hwn2, -, -⟩ := removeT_spec (t.insertT k v).1 k hwf1
      (by rw [hl1]; exact hlm) (by rw [hi1]; exact him)
    rw [getValueT_eqN _ k hwn2, hlist2, hlist,
      delKV_insKV k v _ (not_mem_fst_of_lookup_none k _ hnone)]
    exact hnone

/-- C1 (witness): the amended put/get/remove laws instantiated on the empty
tree with `leaf_max_size = 2`, `internal_max_size = 3`, key `1` and values
`10`, `20`. -/
theorem claim_C1_put_get_del_witness :
    (BPlusTree.mk none 2 3).wfT = true ∧
    (((BPlusTree.mk none 2 3).getValueT 1 = none →
        ((BPlusTree.mk none 2 3).insertT 1 10).2 = true ∧
        ((BPlusTree.mk none 2 3).insertT 1 10).1.getValueT 1 = some 10) ∧
     (∀ v0, (BPlusTree.mk none 2 3).getValueT 1 = some v0 →
        (BPlusTree.mk none 2 3).insertT 1 20 = (BPlusTree.mk none 2 3, false)) ∧
     ((BPlusTree.mk none 2 3).getValueT 1 = none →
        (((BPlusTree.mk none 2 3).insertT 1 10).1.removeT 1).getValueT 1 = none)) :=
  ⟨rfl, claim_C1_put_get_del (BPlusTree.mk none 2 3) 1 10 20 rfl
    (by decide) (by decide)⟩

end DBLearning
